import Mathlib

/-!
# The cron-backed job queue of package `worker` (`cron.go`)

A shallow embedding of `cron.go` and the properties of its table codec and of the four
mutating operations `Add`, `Run`, `Kill` and `Remove`.

Modelling conventions.

* A Go `string` is the list of its Unicode code points (`Str`).  The table text is assumed to
  be valid UTF-8; offsets are counted in code points.
* `int` is the 64-bit Go `int`, embedded in `Int`; the decoder checks the range.
* The standard library calls the file makes (`strings.HasPrefix`, `strings.Index`,
  `strings.Split`, `strings.TrimSpace`, `json.Marshal`, `json.Unmarshal`, `fmt.Sprintf`) are
  modelled by the executable definitions of the first sections, specialised to the arguments
  `cron.go` passes.
* The outside world (the `crontab` commands, process creation and signalling, the job
  handler) is a record of answers, `World`; every interaction is appended to a trace.
* `json.Unmarshal` is a recursive-descent reader of the JSON grammar followed by the store
  into the three visible fields of `cronJob`.  Its recursion is on a fuel counter set to the
  length of the input plus one, which only makes the recursion structural: more fuel never
  changes a result (`parseValue_fuel`, `scanString_fuel`).
* `json.Marshal` escapes as the encoder does with HTML escaping on.  Control characters other
  than `\n`, `\r`, `\t` are written `\u00XX`; later releases write two of them as `\b` and
  `\f`, which the decoder reads as the same characters.
* The standard input of the install command is a pipe that nothing reads before `cmd.Run()`
  starts the command.  `WriteCronJob` writes the whole table into it first, so whether these
  writes complete is an answer of the world (`World.pipeTakes`): when the pipe does not take
  them the call waits in `stdin.Write` for ever, the mutex held.  Creating the pipe is taken
  to succeed.
* A call that does not return (blocked on the held mutex, blocked writing to the pipe, or
  stopped by a run-time fault) yields `Except.error`.
-/

namespace Worker

/-- Go `string`. -/
abbrev Str := List Char

/-! ## Package `strings` -/

/-- Model of `strings.HasPrefix(s, pre)`. -/
def HasPrefix (s pre : Str) : Bool := pre.isPrefixOf s

/-- Position of the first `c` in `s`, counted from `i`; `-1` when there is none. -/
def indexFrom (c : Char) : Str → Int → Int
  | [], _ => -1
  | x :: xs, i => if x = c then i else indexFrom c xs (i + 1)

/-- Model of `strings.Index(s, sub)` for a one-character `sub`. -/
def Index (s : Str) (c : Char) : Int := indexFrom c s 0

/-- Model of `strings.Split(s, "\n")`: the pieces of `s` between newlines; never empty. -/
def Split : Str → List Str
  | [] => [[]]
  | c :: cs =>
    if c = '\n' then [] :: Split cs
    else
      match Split cs with
      | [] => [[c]]
      | l :: ls => (c :: l) :: ls

/-- Model of `unicode.IsSpace`. -/
def isSpace (c : Char) : Bool :=
  let n := c.toNat
  (9 ≤ n && n ≤ 13) || n = 0x20 || n = 0x85 || n = 0xA0 || n = 0x1680 ||
  (0x2000 ≤ n && n ≤ 0x200A) || n = 0x2028 || n = 0x2029 || n = 0x202F || n = 0x205F ||
  n = 0x3000

/-- Model of `strings.TrimSpace`. -/
def TrimSpace (s : Str) : Str := (s.dropWhile isSpace).rdropWhile isSpace

/-- What can stop a call from returning. -/
inductive Fault where
  /-- `Lock` on the mutex while it is held: the call waits for ever. -/
  | blocked
  /-- `Unlock` on a mutex that is not held: fatal error. -/
  | unlockOfUnlocked
  /-- A slice expression with bounds out of range: run-time panic. -/
  | sliceOutOfRange
  /-- A write to a pipe that is full and that nothing reads: the call waits for ever. -/
  | writeBlocked
deriving DecidableEq, Repr

deriving instance DecidableEq for Except

/-- The slice expression `s[i:]`. -/
def sliceFrom (s : Str) (i : Int) : Except Fault Str :=
  if 0 ≤ i ∧ i ≤ (s.length : Int) then .ok (s.drop i.toNat) else .error .sliceOutOfRange

/-! ## Package `strconv` -/

/-- The decimal digit character of `d`. -/
def digitChar (d : Nat) : Char := Char.ofNat (48 + d)

/-- Decimal digits of `n`, most significant first, put before `acc`. -/
def natDigits : Nat → Nat → Str → Str
  | 0, _, acc => acc
  | fuel + 1, n, acc =>
    if n / 10 = 0 then digitChar (n % 10) :: acc
    else natDigits fuel (n / 10) (digitChar (n % 10) :: acc)

/-- Decimal text of a natural number. -/
def utoa (n : Nat) : Str := natDigits (n + 1) n []

/-- Model of `strconv.Itoa`. -/
def Itoa (n : Int) : Str := if n < 0 then '-' :: utoa n.natAbs else utoa n.natAbs

/-- Value of a non-empty run of decimal digits, continuing from `acc`. -/
def digitsValue : Str → Nat → Option Nat
  | [], acc => some acc
  | c :: cs, acc =>
    if 48 ≤ c.toNat ∧ c.toNat ≤ 57 then digitsValue cs (acc * 10 + (c.toNat - 48)) else none

/-- Model of `strconv.ParseUint(s, 10, 64)` before the range check of the caller; `none` for
a syntax error. -/
def ParseUint (s : Str) : Option Nat := if s = [] then none else digitsValue s 0

/-- The signed value of the digits `s` with the range check of `ParseInt` for 64 bits. -/
def signedValue (neg : Bool) (s : Str) : Option Int :=
  match ParseUint s with
  | none => none
  | some un =>
    if neg then (if un ≤ 2 ^ 63 then some (-(un : Int)) else none)
    else (if un < 2 ^ 63 then some (un : Int) else none)

/-- Model of `strconv.ParseInt(s, 10, 64)`; `none` for a syntax or range error. -/
def ParseInt (s : Str) : Option Int :=
  match s with
  | [] => none
  | c :: cs =>
    if c = '+' then signedValue false cs
    else if c = '-' then signedValue true cs
    else signedValue false s

/-! ## Package `encoding/json`, as far as `cronJob` uses it -/

/-- A decoded JSON value; a number keeps its literal text. -/
inductive JValue where
  | null
  | bool (b : Bool)
  | number (lit : Str)
  | string (s : Str)
  | array (elems : List JValue)
  | object (members : List (Str × JValue))

/-- White space between JSON tokens. -/
def jsonSpace (c : Char) : Bool := c = ' ' || c = '\t' || c = '\r' || c = '\n'

/-- Skips the white space before a token. -/
def skipSpace (s : Str) : Str := s.dropWhile jsonSpace

/-- Value of a hexadecimal digit. -/
def hexVal (c : Char) : Option Nat :=
  let n := c.toNat
  if 48 ≤ n ∧ n ≤ 57 then some (n - 48)
  else if 97 ≤ n ∧ n ≤ 102 then some (n - 87)
  else if 65 ≤ n ∧ n ≤ 70 then some (n - 55)
  else none

/-- Value of the four hexadecimal digits of a `\u` escape (`getu4`). -/
def hex4 (a b c d : Char) : Option Nat :=
  match hexVal a, hexVal b, hexVal c, hexVal d with
  | some x, some y, some z, some w => some (((x * 16 + y) * 16 + z) * 16 + w)
  | _, _, _, _ => none

/-- The character of a one-letter escape. -/
def unescape (e : Char) : Option Char :=
  if e = '"' then some '"'
  else if e = '\\' then some '\\'
  else if e = '/' then some '/'
  else if e = 'b' then some (Char.ofNat 8)
  else if e = 'f' then some (Char.ofNat 12)
  else if e = 'n' then some '\n'
  else if e = 'r' then some '\r'
  else if e = 't' then some '\t'
  else none

/-- The `\u` escape at the head of `s`, if there is one, as its value and the rest. -/
def getu4 (s : Str) : Option (Nat × Str) :=
  match s with
  | b :: u :: h1 :: h2 :: h3 :: h4 :: r =>
    if b = '\\' ∧ u = 'u' then (hex4 h1 h2 h3 h4).map fun n => (n, r) else none
  | _ => none

/-- The code point of the surrogate pair `hi`, `lo` (`utf16.DecodeRune`), when it is one. -/
def decodeSurrogates (hi lo : Nat) : Option Char :=
  if 0xD800 ≤ hi ∧ hi < 0xDC00 ∧ 0xDC00 ≤ lo ∧ lo < 0xE000 then
    some (Char.ofNat ((hi - 0xD800) * 1024 + (lo - 0xDC00) + 0x10000))
  else none

/-- Reads a string literal after its opening quote: the decoded text and the input after the
closing quote.  `fuel` bounds the number of characters of the literal. -/
def scanString : Nat → Str → Option (Str × Str)
  | 0, _ => none
  | _ + 1, [] => none
  | fuel + 1, c :: r =>
    if c = '"' then some ([], r)
    else if c = '\\' then
      match r with
      | [] => none
      | e :: r1 =>
        if e = 'u' then
          match getu4 (c :: r) with
          | none => none
          | some (n, r2) =>
            if 0xD800 ≤ n ∧ n < 0xE000 then
              match getu4 r2 with
              | some (m, r3) =>
                match decodeSurrogates n m with
                | some ch => (scanString fuel r3).map fun (t, rest) => (ch :: t, rest)
                | none => (scanString fuel r2).map fun (t, rest) => (Char.ofNat 0xFFFD :: t, rest)
              | none => (scanString fuel r2).map fun (t, rest) => (Char.ofNat 0xFFFD :: t, rest)
            else (scanString fuel r2).map fun (t, rest) => (Char.ofNat n :: t, rest)
        else
          match unescape e with
          | none => none
          | some ch => (scanString fuel r1).map fun (t, rest) => (ch :: t, rest)
    else if c.toNat < 0x20 then none
    else (scanString fuel r).map fun (t, rest) => (c :: t, rest)

/-- Decimal digit test. -/
def isDigit (c : Char) : Bool := 48 ≤ c.toNat && c.toNat ≤ 57

/-- The optional fraction of a number literal: its text and the rest. -/
def scanFrac (s : Str) : Option (Str × Str) :=
  match s with
  | [] => some ([], s)
  | c :: r =>
    if c = '.' then
      if r.takeWhile isDigit = [] then none
      else some (c :: r.takeWhile isDigit, r.dropWhile isDigit)
    else some ([], s)

/-- The optional exponent of a number literal: its text and the rest. -/
def scanExp (s : Str) : Option (Str × Str) :=
  match s with
  | [] => some ([], s)
  | e :: r =>
    if e = 'e' ∨ e = 'E' then
      match r with
      | [] => none
      | g :: r0 =>
        if g = '+' ∨ g = '-' then
          if r0.takeWhile isDigit = [] then none
          else some (e :: g :: r0.takeWhile isDigit, r0.dropWhile isDigit)
        else
          if r.takeWhile isDigit = [] then none
          else some (e :: r.takeWhile isDigit, r.dropWhile isDigit)
    else some ([], s)

/-- The optional fraction and exponent of a number literal: their text and the rest. -/
def scanFracExp (s : Str) : Option (Str × Str) :=
  match scanFrac s with
  | none => none
  | some (f, s1) =>
    match scanExp s1 with
    | none => none
    | some (e, s2) => some (f ++ e, s2)

/-- Reads a number literal at the head of `s`: its text and the rest. -/
def scanNumber (s : Str) : Option (Str × Str) :=
  let (sign, s1) : Str × Str :=
    match s with
    | c :: r => if c = '-' then ([c], r) else ([], s)
    | [] => ([], s)
  match s1 with
  | [] => none
  | c :: r =>
    if c = '0' then
      (scanFracExp r).map fun (t, rest) => (sign ++ c :: t, rest)
    else if isDigit c then
      (scanFracExp (r.dropWhile isDigit)).map fun (t, rest) =>
        (sign ++ c :: r.takeWhile isDigit ++ t, rest)
    else none

/-- The decoder's limit on open arrays and objects. -/
def maxNestingDepth : Nat := 10000

mutual
/-- Reads one JSON value at the head of `s` (no leading white space), `depth` containers being
open: the value and the input after it.  `fuel` bounds the chain of nested calls. -/
def parseValue : Nat → Nat → Str → Option (JValue × Str)
  | 0, _, _ => none
  | _ + 1, _, [] => none
  | fuel + 1, depth, c :: r =>
    if c = '"' then
      (scanString (r.length + 1) r).map fun (t, rest) => (JValue.string t, rest)
    else if c = '{' then
      if maxNestingDepth ≤ depth then none
      else
        match skipSpace r with
        | [] => none
        | x :: r1 =>
          if x = '}' then some (JValue.object [], r1)
          else (parseMembers fuel (depth + 1) (x :: r1)).map fun (ms, rest) =>
            (JValue.object ms, rest)
    else if c = '[' then
      if maxNestingDepth ≤ depth then none
      else
        match skipSpace r with
        | [] => none
        | x :: r1 =>
          if x = ']' then some (JValue.array [], r1)
          else (parseElems fuel (depth + 1) (x :: r1)).map fun (vs, rest) =>
            (JValue.array vs, rest)
    else if c = '-' ∨ isDigit c then
      (scanNumber (c :: r)).map fun (t, rest) => (JValue.number t, rest)
    else if "true".toList.isPrefixOf (c :: r) then some (JValue.bool true, r.drop 3)
    else if "false".toList.isPrefixOf (c :: r) then some (JValue.bool false, r.drop 4)
    else if "null".toList.isPrefixOf (c :: r) then some (JValue.null, r.drop 3)
    else none
/-- Reads the members of an object from the opening quote of a key up to and including the
closing brace. -/
def parseMembers : Nat → Nat → Str → Option (List (Str × JValue) × Str)
  | 0, _, _ => none
  | _ + 1, _, [] => none
  | fuel + 1, depth, q :: r =>
    if q = '"' then
      match scanString (r.length + 1) r with
      | none => none
      | some (key, r1) =>
        match skipSpace r1 with
        | [] => none
        | colon :: r2 =>
          if colon = ':' then
            match parseValue fuel depth (skipSpace r2) with
            | none => none
            | some (v, r3) =>
              match skipSpace r3 with
              | [] => none
              | x :: r4 =>
                if x = ',' then
                  (parseMembers fuel depth (skipSpace r4)).map fun (ms, rest) =>
                    ((key, v) :: ms, rest)
                else if x = '}' then some ([(key, v)], r4)
                else none
          else none
    else none
/-- Reads the elements of an array up to and including the closing bracket. -/
def parseElems : Nat → Nat → Str → Option (List JValue × Str)
  | 0, _, _ => none
  | fuel + 1, depth, s =>
    match parseValue fuel depth s with
    | none => none
    | some (v, r1) =>
      match skipSpace r1 with
      | [] => none
      | x :: r2 =>
        if x = ',' then
          (parseElems fuel depth (skipSpace r2)).map fun (vs, rest) => (v :: vs, rest)
        else if x = ']' then some ([v], r2)
        else none
end

/-- The whole of `data` as one JSON value with white space around it (`checkValid`). -/
def parseDocument (data : Str) : Option JValue :=
  match parseValue (data.length + 1) 0 (skipSpace data) with
  | none => none
  | some (v, rest) => if skipSpace rest = [] then some v else none

/-! ## The job record -/

/-- The struct `cronJob`. -/
structure cronJob where
  JobID : Str
  Pid : Int
  Command : Str
  Delete : Bool
deriving DecidableEq, Repr

/-- The zero value of `cronJob` (`var job cronJob`). -/
def zeroJob : cronJob := ⟨[], 0, [], false⟩

/-- The fields of `cronJob` the codec sees; `Delete` is tagged `json:"-"`. -/
inductive Field where
  | JobID
  | Pid
  | Command
deriving DecidableEq, Repr

/-- The JSON name of a field. -/
def Field.name : Field → Str
  | .JobID => "JobID".toList
  | .Pid => "Pid".toList
  | .Command => "Command".toList

/-- ASCII upper-casing, the folding the decoder applies to these field names. -/
def foldChar (c : Char) : Char :=
  if 97 ≤ c.toNat ∧ c.toNat ≤ 122 then Char.ofNat (c.toNat - 32) else c

/-- Case-insensitive comparison of a key with a field name. -/
def equalFold (a b : Str) : Bool := a.map foldChar = b.map foldChar

/-- The field a key selects: an exact match is preferred to a case-insensitive one. -/
def lookupField (key : Str) : Option Field :=
  match [Field.JobID, Field.Pid, Field.Command].find? (fun f => f.name = key) with
  | some f => some f
  | none => [Field.JobID, Field.Pid, Field.Command].find? (fun f => equalFold f.name key)

/-- Stores the value of one member into the record; `none` is an `UnmarshalTypeError`. -/
def storeMember (job : cronJob) (m : Str × JValue) : Option cronJob :=
  match lookupField m.1 with
  | none => some job
  | some Field.JobID =>
    match m.2 with
    | JValue.string t => some { job with JobID := t }
    | JValue.null => some job
    | _ => none
  | some Field.Pid =>
    match m.2 with
    | JValue.number lit => (ParseInt lit).map fun n => { job with Pid := n }
    | JValue.null => some job
    | _ => none
  | some Field.Command =>
    match m.2 with
    | JValue.string t => some { job with Command := t }
    | JValue.null => some job
    | _ => none

/-- Stores the members of an object, in order, into the record. -/
def storeMembers : List (Str × JValue) → cronJob → Option cronJob
  | [], job => some job
  | m :: ms, job =>
    match storeMember job m with
    | none => none
    | some job1 => storeMembers ms job1

/-- Model of `json.Unmarshal(data, &job)` for a zero-valued `job`: the record decoded when the
returned error is nil, `none` otherwise. -/
def Unmarshal (data : Str) : Option cronJob :=
  match parseDocument data with
  | none => none
  | some (JValue.object ms) => storeMembers ms zeroJob
  | some JValue.null => some zeroJob
  | some _ => none

/-- The lower-case hexadecimal digit of `d`. -/
def hexDigit (d : Nat) : Char := if d < 10 then Char.ofNat (48 + d) else Char.ofNat (87 + d)

/-- The text the encoder writes for one character of a string. -/
def escapeChar (c : Char) : Str :=
  if c = '"' ∨ c = '\\' then ['\\', c]
  else if c = '\n' then ['\\', 'n']
  else if c = '\r' then ['\\', 'r']
  else if c = '\t' then ['\\', 't']
  else if c.toNat < 0x20 ∨ c = '<' ∨ c = '>' ∨ c = '&' then
    ['\\', 'u', '0', '0', hexDigit (c.toNat / 16), hexDigit (c.toNat % 16)]
  else if c.toNat = 0x2028 ∨ c.toNat = 0x2029 then
    ['\\', 'u', '2', '0', '2', hexDigit (c.toNat % 16)]
  else [c]

/-- The escaped text of a string. -/
def escapeAll : Str → Str
  | [] => []
  | c :: cs => escapeChar c ++ escapeAll cs

/-- The JSON string literal of `s`. -/
def quote (s : Str) : Str := '"' :: escapeAll s ++ ['"']

/-- Model of `json.Marshal(job)`; the encoder cannot fail on this struct. -/
def Marshal (job : cronJob) : Str :=
  "\x7b\"JobID\":".toList ++ quote job.JobID ++ ",\"Pid\":".toList ++ Itoa job.Pid ++
    ",\"Command\":".toList ++ quote job.Command ++ "\x7d".toList

/-- The begin-marker literal. -/
def beginMarker : Str := "## BEGIN QOR JOB".toList

/-- The end-marker literal. -/
def endMarker : Str := "## END QOR JOB".toList

/-- Method `cronJob.ToString`. -/
def cronJob.ToString (job : cronJob) : Str :=
  beginMarker ++ " ".toList ++ job.JobID ++ " # ".toList ++ Marshal job ++ "\n".toList ++
    job.Command ++ "\n".toList ++ endMarker ++ "\n".toList

/-! ## The queue and the outside world -/

/-- A Go `error` value, by its message. `none` of `Option GoError` is the nil error. -/
abbrev GoError := String

/-- The struct `Cron`; `mutex` is `true` while the mutex is held. -/
structure Cron where
  Jobs : List cronJob
  CronJobs : List Str
  mutex : Bool
deriving DecidableEq, Repr

/-- The function `NewCronQueue`. -/
def NewCronQueue : Cron := ⟨[], [], false⟩

/-- What a call does to the mutex and to the outside world, in order. -/
inductive Event where
  /-- The method `mutex.Lock`. -/
  | lock
  /-- The method `mutex.Unlock`. -/
  | unlock
  /-- The list command, `crontab -l`. -/
  | list
  /-- The install command, `crontab -`, with the text written to its standard input. -/
  | install (text : Str)
  /-- The job handler is called. -/
  | handler
  /-- The host program is started again with `--qor-job` and the job id. -/
  | start (jobID : Str)
  /-- The handle of the started process is released. -/
  | release (pid : Int)
  /-- The call `os.FindProcess(pid)`. -/
  | findProcess (pid : Int)
  /-- The method `process.Kill` on the process `pid`. -/
  | kill (pid : Int)
deriving DecidableEq, Repr

/-- The answers of the outside world during one call. -/
structure World where
  /-- Output of the list command when its error is nil, `none` when the command fails. -/
  listOutput : Option Str
  /-- Error of `cmd.Run()` of the install command, by the text it is given. -/
  installErr : Str → Option GoError
  /-- Whether the pipe to the standard input of the install command, which nothing reads
  while `WriteCronJob` writes, takes the given writes, in order, without blocking. -/
  pipeTakes : List Str → Bool
  /-- Result of `cmd.Start()`: the process id of the new process, which the operating system
  never gives as zero or less, or the error. -/
  startResult : Str → Except GoError { pid : Int // 0 < pid }
  /-- Error of `os.FindProcess`. -/
  findProcessErr : Int → Option GoError
  /-- Error of `process.Kill`. -/
  killErr : Int → Option GoError

/-- The queue together with the trace of what has been done so far. -/
structure Sys where
  cron : Cron
  trace : List Event
deriving DecidableEq, Repr

/-- The interface `QorJobInterface`, as far as `cron.go` calls it. -/
structure QorJob where
  /-- Result of `GetJobID()`. -/
  JobID : Str
  /-- The field `Name` of `GetJob()`. -/
  Name : String
  /-- The field `Handler` of `GetJob()`: `none` for a nil handler, otherwise the error the
  handler returns when it is called with the job's serializable argument. -/
  Handler : Option (Option GoError)

/-! ## `ParseJobs` -/

/-- The variables of the loop of `ParseJobs`. -/
structure Scan where
  Jobs : List cronJob
  CronJobs : List Str
  inQorJob : Bool
deriving DecidableEq, Repr

/-- The first statement of the loop body: a begin-marker line opens a block and, when its
payload decodes, adds a record. -/
def openBlock (st : Scan) (line : Str) : Except Fault Scan :=
  if HasPrefix line beginMarker then
    if Index line '{' > 1 then
      match sliceFrom line (Index line '{' - 1) with
      | .error f => .error f
      | .ok payload =>
        match Unmarshal payload with
        | some job => .ok { st with inQorJob := true, Jobs := st.Jobs ++ [job] }
        | none => .ok { st with inQorJob := true }
    else .ok { st with inQorJob := true }
  else .ok st

/-- The second statement of the loop body: outside a block the line is a foreign line. -/
def keepLine (st : Scan) (line : Str) : Scan :=
  if !st.inQorJob then { st with CronJobs := st.CronJobs ++ [line] } else st

/-- The third statement of the loop body: an end-marker line closes the block. -/
def closeBlock (st : Scan) (line : Str) : Scan :=
  if HasPrefix line endMarker then { st with inQorJob := false } else st

/-- The body of the loop of `ParseJobs` for one line. -/
def parseLine (st : Scan) (line : Str) : Except Fault Scan :=
  match openBlock st line with
  | .error f => .error f
  | .ok st1 => .ok (closeBlock (keepLine st1 line) line)

/-- The loop of `ParseJobs` over the lines. -/
def parseLines : List Str → Scan → Except Fault Scan
  | [], st => .ok st
  | line :: rest, st =>
    match parseLine st line with
    | .error f => .error f
    | .ok st1 => parseLines rest st1

/-- Method `Cron.ParseJobs`: takes the mutex and replaces the snapshot by what the list
command prints. -/
def ParseJobs (w : World) (s : Sys) : Except Fault Sys :=
  if s.cron.mutex then .error .blocked
  else
    match w.listOutput with
    | none => .ok ⟨⟨[], [], true⟩, s.trace ++ [.lock, .list]⟩
    | some out =>
      match parseLines (Split (TrimSpace out)) ⟨[], [], false⟩ with
      | .error f => .error f
      | .ok st => .ok ⟨⟨st.Jobs, st.CronJobs, true⟩, s.trace ++ [.lock, .list]⟩

/-! ## `WriteCronJob` -/

/-- What the first loop of `WriteCronJob` writes. -/
def writeLines : List Str → Str
  | [] => []
  | l :: ls => l ++ "\n".toList ++ writeLines ls

/-- What the second loop of `WriteCronJob` writes. -/
def writeJobs : List cronJob → Str
  | [] => []
  | job :: jobs =>
    if !job.Delete then job.ToString ++ "\n".toList ++ writeJobs jobs else writeJobs jobs

/-- The text `WriteCronJob` writes to the install command. -/
def tableText (cron : Cron) : Str := writeLines cron.CronJobs ++ writeJobs cron.Jobs

/-- The arguments of the calls of `stdin.Write` in `WriteCronJob`, in order: one for each
foreign line, then one for each record not marked for deletion. -/
def chunksOf (lines : List Str) (jobs : List cronJob) : List Str :=
  lines.map (fun l => l ++ "\n".toList) ++
    (jobs.filter (fun j => !j.Delete)).map (fun j => j.ToString ++ "\n".toList)

/-- The writes of `WriteCronJob` for a snapshot. -/
def writeChunks (cron : Cron) : List Str := chunksOf cron.CronJobs cron.Jobs

/-- Method `Cron.WriteCronJob`: writes the snapshot into the pipe to the install command,
then runs that command, returns its error, and releases the mutex on the way out.  The
command, the only reader of the pipe, is started by `cmd.Run()` after the writes: when the
pipe does not take them, the call never gets there. -/
def WriteCronJob (w : World) (s : Sys) : Except Fault (Sys × Option GoError) :=
  if w.pipeTakes (writeChunks s.cron) then
    if s.cron.mutex then
      .ok (⟨{ s.cron with mutex := false },
            s.trace ++ [.install (tableText s.cron), .unlock]⟩,
           w.installErr (tableText s.cron))
    else .error .unlockOfUnlocked
  else .error .writeBlocked

/-! ## The four operations -/

/-- Runs the deferred `cron.WriteCronJob()` of an operation and returns `result`; the value
the deferred call returns is dropped. -/
def deferWrite (w : World) (s : Sys) (result : Option GoError) :
    Except Fault (Sys × Option GoError) :=
  match WriteCronJob w s with
  | .error f => .error f
  | .ok (s1, _) => .ok (s1, result)

/-- Method `Cron.Add`. -/
def Add (w : World) (s : Sys) (job : QorJob) : Except Fault (Sys × Option GoError) :=
  match ParseJobs w s with
  | .error f => .error f
  | .ok s1 =>
    match w.startResult job.JobID with
    | .ok pid =>
      deferWrite w
        ⟨{ s1.cron with Jobs := s1.cron.Jobs ++ [⟨job.JobID, pid.val, [], false⟩] },
         s1.trace ++ [.start job.JobID, .release pid.val]⟩ none
    | .error err => deferWrite w ⟨s1.cron, s1.trace ++ [.start job.JobID]⟩ (some err)

/-- The loop of `Run`: every record with the id is marked. -/
def markAll (id : Str) : List cronJob → List cronJob
  | [] => []
  | j :: js => (if j.JobID = id then { j with Delete := true } else j) :: markAll id js

/-- Method `Cron.Run`. -/
def Run (w : World) (s : Sys) (qorJob : QorJob) : Except Fault (Sys × Option GoError) :=
  match qorJob.Handler with
  | some outcome =>
    match outcome with
    | none =>
      match ParseJobs w ⟨s.cron, s.trace ++ [.handler]⟩ with
      | .error f => .error f
      | .ok s1 =>
        deferWrite w ⟨{ s1.cron with Jobs := markAll qorJob.JobID s1.cron.Jobs }, s1.trace⟩
          none
    | some err => .ok (⟨s.cron, s.trace ++ [.handler]⟩, some err)
  | none => .ok (s, some ("no handler found for job " ++ qorJob.Name))

/-- The loop of `Kill`: the records after the loop, what the loop did, and what `Kill`
returns. -/
def killLoop (w : World) (id : Str) : List cronJob → List cronJob × List Event × Option GoError
  | [] => ([], [], some "failed to find job")
  | j :: js =>
    if j.JobID = id then
      match w.findProcessErr j.Pid with
      | none =>
        match w.killErr j.Pid with
        | none => ({ j with Delete := true } :: js, [.findProcess j.Pid, .kill j.Pid], none)
        | some err => (j :: js, [.findProcess j.Pid, .kill j.Pid], some err)
      | some err => (j :: js, [.findProcess j.Pid], some err)
    else
      match killLoop w id js with
      | (js1, evs, res) => (j :: js1, evs, res)

/-- Method `Cron.Kill`. -/
def Kill (w : World) (s : Sys) (job : QorJob) : Except Fault (Sys × Option GoError) :=
  match ParseJobs w s with
  | .error f => .error f
  | .ok s1 =>
    match killLoop w job.JobID s1.cron.Jobs with
    | (jobs, evs, res) => deferWrite w ⟨{ s1.cron with Jobs := jobs }, s1.trace ++ evs⟩ res

/-- The loop of `Remove`: the records after the loop and what `Remove` returns. -/
def removeLoop (id : Str) : List cronJob → List cronJob × Option GoError
  | [] => ([], some "failed to find job")
  | j :: js =>
    if j.JobID = id then
      if j.Pid = 0 then
        match removeLoop id js with
        | (js1, res) => ({ j with Delete := true } :: js1, res)
      else (j :: js, some "failed to remove current job as it is running")
    else
      match removeLoop id js with
      | (js1, res) => (j :: js1, res)

/-- Method `Cron.Remove`. -/
def Remove (w : World) (s : Sys) (job : QorJob) : Except Fault (Sys × Option GoError) :=
  match ParseJobs w s with
  | .error f => .error f
  | .ok s1 =>
    match removeLoop job.JobID s1.cron.Jobs with
    | (jobs, res) => deferWrite w ⟨{ s1.cron with Jobs := jobs }, s1.trace⟩ res

/-! ## The loop of `ParseJobs` without faults -/

/-- The first statement of the loop body with the slice taken as `List.drop`. -/
def openBlockTotal (st : Scan) (line : Str) : Scan :=
  if HasPrefix line beginMarker then
    if Index line '{' > 1 then
      match Unmarshal (line.drop (Index line '{' - 1).toNat) with
      | some job => { st with inQorJob := true, Jobs := st.Jobs ++ [job] }
      | none => { st with inQorJob := true }
    else { st with inQorJob := true }
  else st

/-- The loop body of `ParseJobs` with the slice taken as `List.drop`. -/
def scanLine (st : Scan) (line : Str) : Scan :=
  closeBlock (keepLine (openBlockTotal st line) line) line

/-- The loop of `ParseJobs` as a left fold. -/
def scanLines (lines : List Str) (st : Scan) : Scan := lines.foldl scanLine st

/-! ## The lines outside owned blocks, in the words of the specification -/

mutual
/-- The lines that lie outside owned blocks, reading from outside a block: a line that
begins with the begin-marker opens a block and is left out, any other line is kept. -/
def outsideLines : List Str → List Str
  | [] => []
  | l :: ls => if HasPrefix l beginMarker then insideLines ls else l :: outsideLines ls
/-- The lines that lie outside owned blocks, reading from inside a block: every line is left
out, and the first line that begins with the end-marker closes the block. -/
def insideLines : List Str → List Str
  | [] => []
  | l :: ls => if HasPrefix l endMarker then outsideLines ls else insideLines ls
end

/-- The lines of a text: the pieces between newlines, a final newline ending the last line
rather than starting an empty one. -/
def textLines (t : Str) : List Str :=
  if (Split t).getLast? = some [] then (Split t).dropLast else Split t

/-! ## Sample inputs -/

/-- The table text of the concrete scenario of the specification. -/
def sampleTable : Str :=
  ("0 0 * * * /bin/foo\n## BEGIN QOR JOB abc # \x7b\"JobID\":\"abc\",\"Pid\":123," ++
    "\"Command\":\"\"\x7d\n\n## END QOR JOB\n").toList

/-- The number of bytes of a character in UTF-8. -/
def utf8Size (c : Char) : Nat :=
  if c.toNat < 128 then 1 else if c.toNat < 2048 then 2 else if c.toNat < 65536 then 3 else 4

/-- The number of bytes of a string. -/
def byteLength : Str → Nat
  | [] => 0
  | c :: cs => utf8Size c + byteLength cs

/-- A pipe that nothing reads and that holds 65536 bytes, the size of a pipe buffer on Linux:
it takes writes of at most that many bytes in all, and no more.  (A real pipe stores the
writes in pages and may be full earlier; for the few short writes and for the writes of more
than 65536 bytes on which this pipe is used below, the two agree.) -/
def defaultPipe (chunks : List Str) : Bool := decide (byteLength chunks.flatten ≤ 65536)

/-- A world in which the list command prints `text`, the pipe is `defaultPipe`, the install
command succeeds, the process starts with id 4242, and processes are found and killed without
error. -/
def quietWorld (text : Str) : World :=
  ⟨some text, fun _ => none, defaultPipe, fun _ => .ok ⟨4242, by decide⟩, fun _ => none,
    fun _ => none⟩

/-- A world like `quietWorld text` in which the install command fails. -/
def failingInstall (text : Str) : World :=
  ⟨some text, fun _ => some "exit status 1", defaultPipe, fun _ => .ok ⟨4242, by decide⟩,
    fun _ => none, fun _ => none⟩

/-- A world like `quietWorld text` in which the process cannot be started. -/
def failingStart (text : Str) : World :=
  ⟨some text, fun _ => none, defaultPipe,
    fun _ => .error "fork/exec: no such file or directory", fun _ => none, fun _ => none⟩

/-- A world in which the list command fails. -/
def failingList : World :=
  ⟨none, fun _ => none, defaultPipe, fun _ => .ok ⟨4242, by decide⟩, fun _ => none,
    fun _ => none⟩

/-- A fresh queue with an empty trace. -/
def freshSys : Sys := ⟨NewCronQueue, []⟩

/-- A job with the given id whose handler returns `outcome`. -/
def sampleJob (id : String) (outcome : Option GoError) : QorJob :=
  ⟨id.toList, "sample", some outcome⟩

/-- The table of the concrete scenario with `Pid` 0 in the record. -/
def idleTable : Str :=
  ("0 0 * * * /bin/foo\n## BEGIN QOR JOB abc # \x7b\"JobID\":\"abc\",\"Pid\":0," ++
    "\"Command\":\"\"\x7d\n\n## END QOR JOB\n").toList

/-! ## The layout of the written text -/

/-- The begin-marker line of the block of a record, as `ToString` formats it. -/
def beginLine (job : cronJob) : Str :=
  beginMarker ++ " ".toList ++ job.JobID ++ " # ".toList ++ Marshal job

/-- The lines of the blocks of a list of records, one empty line between two blocks. -/
def blocksLines : List cronJob → List Str
  | [] => []
  | [job] => [beginLine job, job.Command, endMarker]
  | job :: next :: rest =>
    beginLine job :: job.Command :: endMarker :: [] :: blocksLines (next :: rest)

/-- Lines joined by single newlines. -/
def joinLines : List Str → Str
  | [] => []
  | [l] => l
  | l :: next :: rest => l ++ '\n' :: joinLines (next :: rest)

/-- The text fields of a record as a well-formed block carries them: the id on the marker
line (no newline, no opening brace), the command on a line of its own that does not look
like a marker. -/
def wellFormedFields (job : cronJob) : Bool :=
  !job.JobID.contains '\n' && !job.JobID.contains '\x7b' &&
  !job.Command.contains '\n' && !HasPrefix job.Command beginMarker &&
  !HasPrefix job.Command endMarker

/-- A record that `WriteCronJob` writes as a well-formed block: well-formed text fields, the
process id a Go `int`, and the record not marked for deletion. -/
def wellFormedRecord (job : cronJob) : Bool :=
  wellFormedFields job &&
  decide (-(2 : Int) ^ 63 ≤ job.Pid) && decide (job.Pid < (2 : Int) ^ 63) && !job.Delete

/-- The first foreign line, if there is one, is not empty and does not begin with white
space. -/
def startsClean (lines : List Str) : Bool :=
  match lines with
  | [] => true
  | [] :: _ => false
  | (c :: _) :: _ => !isSpace c

/-- There is a last foreign line, and it is not empty and does not end with white space. -/
def endsClean (lines : List Str) : Bool :=
  match lines.getLast? with
  | none => false
  | some l =>
    match l.getLast? with
    | none => false
    | some c => !isSpace c

/-- The snapshot survives `strings.TrimSpace` at both ends of its text: the text begins with
the first foreign line as it is, and ends with a block or with the last foreign line as it
is; or the snapshot is the one empty line of an empty table. -/
def edgesClean (lines : List Str) (jobs : List cronJob) : Bool :=
  match jobs with
  | [] => decide (lines = [[]]) || (startsClean lines && endsClean lines)
  | _ :: _ => startsClean lines

/-- A table of one foreign line and two well-formed owned blocks. -/
def twoBlocks : Str :=
  ("0 0 * * * /bin/foo\n" ++
    "## BEGIN QOR JOB abc # \x7b\"JobID\":\"abc\",\"Pid\":123,\"Command\":\"\"\x7d\n\n" ++
    "## END QOR JOB\n" ++
    "## BEGIN QOR JOB j2 # \x7b\"JobID\":\"j2\",\"Pid\":4242,\"Command\":\"\"\x7d\n\n" ++
    "## END QOR JOB\n").toList

/-- The process id of a record is a Go `int`. -/
def pidInRange (job : cronJob) : Prop := -(2 : Int) ^ 63 ≤ job.Pid ∧ job.Pid < (2 : Int) ^ 63

/-- A table of one well-formed owned block followed by one indented foreign line. -/
def blockFirst : Str :=
  ("## BEGIN QOR JOB abc # \x7b\"JobID\":\"abc\",\"Pid\":123,\"Command\":\"\"\x7d\n\n" ++
    "## END QOR JOB\n  0 0 * * * /bin/foo\n").toList

/-! ## The identifiers of the live records -/

/-- The `JobID`s of the records not marked for deletion, in list order. -/
def liveIDs (jobs : List cronJob) : List Str :=
  (jobs.filter (fun j => !j.Delete)).map (fun j => j.JobID)

/-! ## The written text, in the words of the specification -/

/-- The owned block of a record in the words of the specification: the begin-marker line, one
line holding the command, and the end-marker line, each ended by a newline. -/
def blockText (job : cronJob) : Str :=
  beginLine job ++ "\n".toList ++ job.Command ++ "\n".toList ++ endMarker ++ "\n".toList

/-- The written text in the words of the specification: every foreign line ended by a newline,
in order, then the block of each record not marked for deletion, in order. -/
def serialization (cron : Cron) : Str :=
  (cron.CronJobs.map (fun l => l ++ "\n".toList)).flatten ++
    ((cron.Jobs.filter (fun j => !j.Delete)).map blockText).flatten

/-- The snapshot `ParseJobs` takes of `sampleTable`, the mutex held. -/
def sampleSnapshot : Cron :=
  ⟨[⟨"abc".toList, 123, [], false⟩], ["0 0 * * * /bin/foo".toList], true⟩

/-! ## The mutex along a trace -/

/-- The number of times a trace acquires the mutex. -/
def lockCount : List Event → Nat
  | [] => 0
  | .lock :: es => lockCount es + 1
  | _ :: es => lockCount es

/-- Replays the lock and unlock events of a trace on a mutex whose state is `held`: `none`
when a lock event finds the mutex held or an unlock event finds it free, otherwise the state
of the mutex after the trace. -/
def replayMutex : Bool → List Event → Option Bool
  | held, [] => some held
  | held, .lock :: es => if held then none else replayMutex true es
  | held, .unlock :: es => if held then replayMutex false es else none
  | held, _ :: es => replayMutex held es

/-- A table whose only begin-marker line carries a payload that is not JSON. -/
def malformedTable : Str :=
  ("0 0 * * * /bin/foo\n## BEGIN QOR JOB abc # \x7bnot json\n/bin/inside\n" ++
    "## END QOR JOB\n5 5 * * * /bin/bar\n").toList

/-- A table whose block carries a command that reads like an end-marker line. -/
def endCommandTable : Str :=
  ("0 0 * * * /bin/foo\n## BEGIN QOR JOB abc # \x7b\"JobID\":\"abc\",\"Pid\":123," ++
    "\"Command\":\"## END QOR JOB\"\x7d\n\n## END QOR JOB\n").toList

/-- The snapshot `ParseJobs` takes of `endCommandTable`, the mutex held. -/
def endCommandSnapshot : Cron :=
  ⟨[⟨"abc".toList, 123, "## END QOR JOB".toList, false⟩], ["0 0 * * * /bin/foo".toList], true⟩

/-- A table whose block has no end-marker line. -/
def unterminatedTable : Str :=
  ("0 0 * * * /bin/foo\n## BEGIN QOR JOB abc # \x7b\"JobID\":\"abc\",\"Pid\":123," ++
    "\"Command\":\"\"\x7d\n\n5 5 * * * /bin/bar\n").toList

/-- A comment line of 70002 characters. -/
def bigLine : Str := '#' :: ' ' :: List.replicate 70000 'x'

/-- The blocks of a running job "abc" and of an idle job "idle", after a line break. -/
def blocksTail : Str :=
  ("\n## BEGIN QOR JOB abc # \x7b\"JobID\":\"abc\",\"Pid\":123,\"Command\":\"\"\x7d\n\n" ++
    "## END QOR JOB\n" ++
    "## BEGIN QOR JOB idle # \x7b\"JobID\":\"idle\",\"Pid\":0,\"Command\":\"\"\x7d\n\n" ++
    "## END QOR JOB\n").toList

/-- A table of more than 65536 bytes: the line `bigLine`, then the blocks of `blocksTail`. -/
def bigTable : Str := bigLine ++ blocksTail

/-! # Properties -/

/-! ## `ParseJobs` returns -/

theorem indexFrom_bounds (c : Char) (s : Str) (i : Int) :
    indexFrom c s i = -1 ∨ (i ≤ indexFrom c s i ∧ indexFrom c s i < i + s.length) := by
  induction s generalizing i with
  | nil => left; rfl
  | cons x xs ih =>
    unfold indexFrom
    split
    · right; simp
    · rcases ih (i + 1) with h | h
      · left; exact h
      · right; simp only [List.length_cons, Nat.cast_add, Nat.cast_one]; omega

theorem sliceFrom_index (line : Str) (h : Index line '{' > 1) :
    sliceFrom line (Index line '{' - 1) = .ok (line.drop (Index line '{' - 1).toNat) := by
  unfold sliceFrom
  have hb := indexFrom_bounds '{' line 0
  unfold Index at h ⊢
  rw [if_pos]
  omega

theorem openBlock_eq (st : Scan) (line : Str) :
    openBlock st line = .ok (openBlockTotal st line) := by
  unfold openBlock openBlockTotal
  by_cases hb : HasPrefix line beginMarker = true
  · by_cases hi : Index line '{' > 1
    · simp only [hb, hi, if_true, sliceFrom_index line hi]
      cases Unmarshal (List.drop (Index line '{' - 1).toNat line) <;> rfl
    · simp only [hb, hi, if_true, if_false]
  · simp only [hb]
    rfl

theorem parseLine_eq (st : Scan) (line : Str) : parseLine st line = .ok (scanLine st line) := by
  unfold parseLine scanLine
  rw [openBlock_eq]

theorem parseLines_eq (lines : List Str) (st : Scan) :
    parseLines lines st = .ok (scanLines lines st) := by
  induction lines generalizing st with
  | nil => rfl
  | cons l ls ih =>
    unfold parseLines
    rw [parseLine_eq]
    simp only [ih, scanLines, List.foldl_cons]

theorem ParseJobs_eq (w : World) (s : Sys) (hfree : s.cron.mutex = false) :
    ParseJobs w s =
      .ok ⟨⟨(match w.listOutput with
              | none => []
              | some out => (scanLines (Split (TrimSpace out)) ⟨[], [], false⟩).Jobs),
            (match w.listOutput with
              | none => []
              | some out => (scanLines (Split (TrimSpace out)) ⟨[], [], false⟩).CronJobs),
            true⟩, s.trace ++ [.lock, .list]⟩ := by
  unfold ParseJobs
  rw [hfree]
  cases h : w.listOutput with
  | none => rfl
  | some out => simp only [parseLines_eq]; rfl

@[simp] theorem keepLine_Jobs (st : Scan) (line : Str) : (keepLine st line).Jobs = st.Jobs := by
  unfold keepLine; split <;> rfl

@[simp] theorem keepLine_inQorJob (st : Scan) (line : Str) :
    (keepLine st line).inQorJob = st.inQorJob := by
  unfold keepLine; split <;> rfl

@[simp] theorem closeBlock_Jobs (st : Scan) (line : Str) : (closeBlock st line).Jobs = st.Jobs := by
  unfold closeBlock; split <;> rfl

@[simp] theorem closeBlock_CronJobs (st : Scan) (line : Str) :
    (closeBlock st line).CronJobs = st.CronJobs := by
  unfold closeBlock; split <;> rfl

@[simp] theorem openBlockTotal_CronJobs (st : Scan) (line : Str) :
    (openBlockTotal st line).CronJobs = st.CronJobs := by
  unfold openBlockTotal
  split
  · split
    · split <;> rfl
    · rfl
  · rfl

theorem scanLine_Jobs (st : Scan) (line : Str) :
    (scanLine st line).Jobs = (openBlockTotal st line).Jobs := by
  simp [scanLine]

theorem openBlockTotal_Jobs (st : Scan) (line : Str) :
    (openBlockTotal st line).Jobs = st.Jobs ∨
      ∃ job, Unmarshal (line.drop (Index line '{' - 1).toNat) = some job ∧
        (openBlockTotal st line).Jobs = st.Jobs ++ [job] := by
  unfold openBlockTotal
  split
  · split
    · cases hu : Unmarshal (List.drop (Index line '{' - 1).toNat line) with
      | none => left; rfl
      | some job => right; exact ⟨job, rfl, rfl⟩
    · left; rfl
  · left; rfl

theorem storeMember_Delete (job job1 : cronJob) (m : Str × JValue)
    (h : storeMember job m = some job1) : job1.Delete = job.Delete := by
  unfold storeMember at h
  split at h
  · cases h; rfl
  · split at h <;> first | (cases h; rfl) | (cases h)
  · split at h
    · simp only [Option.map_eq_some'] at h
      obtain ⟨n, -, rfl⟩ := h
      rfl
    · cases h; rfl
    · cases h
  · split at h <;> first | (cases h; rfl) | (cases h)

theorem storeMembers_Delete (ms : List (Str × JValue)) (job job1 : cronJob)
    (h : storeMembers ms job = some job1) : job1.Delete = job.Delete := by
  induction ms generalizing job with
  | nil => cases h; rfl
  | cons m ms ih =>
    unfold storeMembers at h
    cases hm : storeMember job m with
    | none => rw [hm] at h; cases h
    | some j2 =>
      rw [hm] at h
      rw [ih j2 h, storeMember_Delete job j2 m hm]

theorem Unmarshal_Delete (data : Str) (job : cronJob) (h : Unmarshal data = some job) :
    job.Delete = false := by
  unfold Unmarshal at h
  split at h
  · cases h
  · exact storeMembers_Delete _ _ _ h
  · cases h; rfl
  · cases h

theorem scanLine_Delete (st : Scan) (line : Str) (h : ∀ j ∈ st.Jobs, j.Delete = false) :
    ∀ j ∈ (scanLine st line).Jobs, j.Delete = false := by
  rw [scanLine_Jobs]
  rcases openBlockTotal_Jobs st line with h1 | ⟨job, hu, h1⟩
  · rw [h1]; exact h
  · rw [h1]
    intro j hj
    rcases List.mem_append.mp hj with hj | hj
    · exact h j hj
    · rw [List.mem_singleton.mp hj]; exact Unmarshal_Delete _ _ hu

theorem scanLines_Delete (lines : List Str) (st : Scan) (h : ∀ j ∈ st.Jobs, j.Delete = false) :
    ∀ j ∈ (scanLines lines st).Jobs, j.Delete = false := by
  induction lines generalizing st with
  | nil => exact h
  | cons l ls ih => exact ih (scanLine st l) (scanLine_Delete st l h)

/-! ## The operations, step by step -/

theorem ParseJobs_ok (w : World) (s : Sys) (hfree : s.cron.mutex = false) :
    ∃ J F, ParseJobs w s = .ok ⟨⟨J, F, true⟩, s.trace ++ [.lock, .list]⟩ ∧
      ∀ j ∈ J, j.Delete = false := by
  refine ⟨_, _, ParseJobs_eq w s hfree, ?_⟩
  cases w.listOutput with
  | none => intro j hj; cases hj
  | some out =>
    exact scanLines_Delete _ _ (fun j hj => by cases hj)

theorem deferWrite_locked (w : World) (J : List cronJob) (F : List Str) (t : List Event)
    (res : Option GoError) (hroom : w.pipeTakes (chunksOf F J) = true) :
    deferWrite w ⟨⟨J, F, true⟩, t⟩ res =
      .ok (⟨⟨J, F, false⟩, t ++ [.install (writeLines F ++ writeJobs J), .unlock]⟩,
        res) := by
  simp only [deferWrite, WriteCronJob, writeChunks, hroom, if_true]
  rfl

theorem deferWrite_blocked (w : World) (J : List cronJob) (F : List Str) (m : Bool)
    (t : List Event) (res : Option GoError) (hfull : w.pipeTakes (chunksOf F J) = false) :
    deferWrite w ⟨⟨J, F, m⟩, t⟩ res = .error .writeBlocked := by
  simp [deferWrite, WriteCronJob, writeChunks, hfull]

theorem writeJobs_append (a b : List cronJob) :
    writeJobs (a ++ b) = writeJobs a ++ writeJobs b := by
  induction a with
  | nil => rfl
  | cons j js ih =>
    simp only [List.cons_append, writeJobs]
    split <;> simp [ih]

theorem writeJobs_markAll (id : Str) (J : List cronJob) (h : ∀ j ∈ J, j.Delete = false) :
    writeJobs (markAll id J) = writeJobs (J.filter fun j => decide (j.JobID ≠ id)) := by
  induction J with
  | nil => rfl
  | cons j js ih =>
    have hj : j.Delete = false := h j (List.mem_cons_self _ _)
    have ih1 := ih (fun x hx => h x (List.mem_cons_of_mem _ hx))
    by_cases hid : j.JobID = id
    · simp only [markAll, hid, if_true, writeJobs, List.filter_cons, ne_eq, not_true_eq_false,
        decide_False, ih1]
      simp
    · simp only [markAll, hid, if_false, writeJobs, List.filter_cons, ne_eq, not_false_eq_true,
        decide_True, if_true, hj, ih1]

theorem writeJobs_mem (J : List cronJob) (j : cronJob) (hj : j ∈ J) (hd : j.Delete = false) :
    ∃ pre post, writeJobs J = pre ++ (j.ToString ++ "\n".toList) ++ post := by
  induction J with
  | nil => cases hj
  | cons x xs ih =>
    rcases List.mem_cons.mp hj with rfl | hx
    · refine ⟨[], writeJobs xs, ?_⟩
      simp [writeJobs, hd]
    · obtain ⟨pre, post, h⟩ := ih hx
      by_cases hxd : x.Delete = true
      · exact ⟨pre, post, by simp [writeJobs, hxd, h]⟩
      · exact ⟨x.ToString ++ "\n".toList ++ pre, post, by simp [writeJobs, hxd, h]⟩

theorem removeLoop_idle (id : Str) (J : List cronJob)
    (h : ∀ j ∈ J, j.JobID = id → j.Pid = 0) :
    removeLoop id J = (markAll id J, some "failed to find job") := by
  induction J with
  | nil => rfl
  | cons j js ih =>
    have ih1 := ih (fun x hx => h x (List.mem_cons_of_mem _ hx))
    by_cases hid : j.JobID = id
    · have hp : j.Pid = 0 := h j (List.mem_cons_self _ _) hid
      simp only [removeLoop, hid, if_true, hp, ih1, markAll]
    · simp only [removeLoop, hid, if_false, ih1, markAll]

theorem markAll_absent (id : Str) (J : List cronJob) (h : ∀ j ∈ J, j.JobID ≠ id) :
    markAll id J = J := by
  induction J with
  | nil => rfl
  | cons j js ih =>
    have hid : j.JobID ≠ id := h j (List.mem_cons_self _ _)
    simp only [markAll, hid, if_false, ih (fun x hx => h x (List.mem_cons_of_mem _ hx))]

theorem removeLoop_running (id : Str) (J : List cronJob) (j : cronJob) (hj : j ∈ J)
    (hid : j.JobID = id) (hp : j.Pid ≠ 0) :
    (removeLoop id J).2 = some "failed to remove current job as it is running" ∧
      j ∈ (removeLoop id J).1 := by
  induction J with
  | nil => cases hj
  | cons x xs ih =>
    by_cases hx : x.JobID = id
    · by_cases hxp : x.Pid = 0
      · have hne : j ≠ x := fun e => hp (e ▸ hxp)
        have hmem : j ∈ xs := by
          rcases List.mem_cons.mp hj with e | e
          · exact absurd e hne
          · exact e
        obtain ⟨h1, h2⟩ := ih hmem
        simp only [removeLoop, hx, if_true, hxp]
        exact ⟨h1, List.mem_cons_of_mem _ h2⟩
      · simp only [removeLoop, hx, if_true, hxp, if_false]
        exact ⟨trivial, hj⟩
    · have hmem : j ∈ xs := by
        rcases List.mem_cons.mp hj with e | e
        · exact absurd (e ▸ hid) hx
        · exact e
      obtain ⟨h1, h2⟩ := ih hmem
      simp only [removeLoop, hx, if_false]
      exact ⟨h1, List.mem_cons_of_mem _ h2⟩

theorem removeLoop_isSome (id : Str) (J : List cronJob) : (removeLoop id J).2 ≠ none := by
  induction J with
  | nil => simp [removeLoop]
  | cons x xs ih =>
    unfold removeLoop
    split
    · split
      · exact ih
      · simp
    · exact ih

theorem killLoop_absent (w : World) (id : Str) (J : List cronJob)
    (h : ∀ j ∈ J, j.JobID ≠ id) :
    killLoop w id J = (J, [], some "failed to find job") := by
  induction J with
  | nil => rfl
  | cons j js ih =>
    have hid : j.JobID ≠ id := h j (List.mem_cons_self _ _)
    simp only [killLoop, hid, if_false, ih (fun x hx => h x (List.mem_cons_of_mem _ hx))]

/-! ## The foreign lines of `ParseJobs` -/

theorem scanLine_outside (st : Scan) (line : Str) (h : st.inQorJob = false) :
    (scanLine st line).CronJobs =
        (if HasPrefix line beginMarker then st.CronJobs else st.CronJobs ++ [line]) ∧
      (scanLine st line).inQorJob = (HasPrefix line beginMarker && !HasPrefix line endMarker) := by
  unfold scanLine closeBlock keepLine openBlockTotal
  by_cases hb : HasPrefix line beginMarker = true
  · simp only [hb, if_true]
    by_cases hi : Index line '{' > 1
    · cases Unmarshal (List.drop (Index line '{' - 1).toNat line) <;>
        by_cases he : HasPrefix line endMarker = true <;> simp [hi, he]
    · by_cases he : HasPrefix line endMarker = true <;> simp [hi, he]
  · by_cases he : HasPrefix line endMarker = true <;> simp [hb, he, h]

theorem scanLine_inside (st : Scan) (line : Str) (h : st.inQorJob = true) :
    (scanLine st line).CronJobs = st.CronJobs ∧
      (scanLine st line).inQorJob = !HasPrefix line endMarker := by
  unfold scanLine closeBlock keepLine openBlockTotal
  by_cases hb : HasPrefix line beginMarker = true
  · simp only [hb, if_true]
    by_cases hi : Index line '{' > 1
    · cases Unmarshal (List.drop (Index line '{' - 1).toNat line) <;>
        by_cases he : HasPrefix line endMarker = true <;> simp [hi, he]
    · by_cases he : HasPrefix line endMarker = true <;> simp [hi, he]
  · by_cases he : HasPrefix line endMarker = true <;> simp [hb, he, h]

theorem begin_not_end (line : Str) (hb : HasPrefix line beginMarker = true) :
    HasPrefix line endMarker = false := by
  unfold HasPrefix at hb ⊢
  rcases line with _ | ⟨a, _ | ⟨b, _ | ⟨c, _ | ⟨d, r⟩⟩⟩⟩
  · simp [beginMarker, List.isPrefixOf] at hb
  · simp [beginMarker, List.isPrefixOf] at hb
  · simp [beginMarker, List.isPrefixOf] at hb
  · simp [beginMarker, List.isPrefixOf] at hb
  · have hd : d = 'B' := by
      simp [beginMarker, List.isPrefixOf] at hb
      exact hb.2.2.2.1.symm
    subst hd
    simp [endMarker, List.isPrefixOf]

theorem scanLines_CronJobs (lines : List Str) (st : Scan) :
    (scanLines lines st).CronJobs =
      st.CronJobs ++ (if st.inQorJob then insideLines lines else outsideLines lines) := by
  induction lines generalizing st with
  | nil => cases st.inQorJob <;> simp [scanLines, insideLines, outsideLines]
  | cons l ls ih =>
    have hstep : scanLines (l :: ls) st = scanLines ls (scanLine st l) := rfl
    rw [hstep, ih]
    cases hq : st.inQorJob with
    | false =>
      obtain ⟨h1, h2⟩ := scanLine_outside st l hq
      rw [h1, h2]
      by_cases hb : HasPrefix l beginMarker = true
      · simp [hb, begin_not_end l hb, outsideLines]
      · simp [hb, outsideLines]
    | true =>
      obtain ⟨h1, h2⟩ := scanLine_inside st l hq
      rw [h1, h2]
      by_cases he : HasPrefix l endMarker = true
      · simp [he, insideLines]
      · simp [he, insideLines]

theorem outsideLines_not_begin (lines : List Str) :
    (∀ l ∈ outsideLines lines, HasPrefix l beginMarker = false) ∧
      (∀ l ∈ insideLines lines, HasPrefix l beginMarker = false) := by
  induction lines with
  | nil => simp [outsideLines, insideLines]
  | cons x xs ih =>
    constructor
    · intro l hl
      unfold outsideLines at hl
      by_cases hb : HasPrefix x beginMarker = true
      · rw [if_pos hb] at hl
        exact ih.2 l hl
      · rw [if_neg hb] at hl
        rcases List.mem_cons.mp hl with h | h
        · rw [h]; simpa using hb
        · exact ih.1 l h
    · intro l hl
      unfold insideLines at hl
      split at hl
      · exact ih.1 l hl
      · exact ih.2 l hl

theorem ParseJobs_some (w : World) (s : Sys) (text : Str) (hfree : s.cron.mutex = false)
    (hout : w.listOutput = some text) :
    ParseJobs w s =
      .ok ⟨⟨(scanLines (Split (TrimSpace text)) ⟨[], [], false⟩).Jobs,
            (scanLines (Split (TrimSpace text)) ⟨[], [], false⟩).CronJobs, true⟩,
        s.trace ++ [.lock, .list]⟩ := by
  rw [ParseJobs_eq w s hfree, hout]

/-! ## `json.Unmarshal` undoes `json.Marshal`: strings -/

theorem hex4_low (n : Nat) (h : n < 64) :
    hex4 '0' '0' (hexDigit (n / 16)) (hexDigit (n % 16)) = some n := by
  revert n
  decide!

theorem escapeChar_scan (c : Char) (fuel : Nat) (tail : Str) :
    scanString (fuel + 1) (escapeChar c ++ tail) =
      (scanString fuel tail).map fun (t, rest) => (c :: t, rest) := by
  unfold escapeChar
  split
  · rename_i h
    rcases h with h | h <;> subst h <;> simp [scanString, unescape]
  split
  · rename_i h
    subst h
    simp [scanString, unescape]
  split
  · rename_i h
    subst h
    simp [scanString, unescape]
  split
  · rename_i h
    subst h
    simp [scanString, unescape]
  split
  · rename_i h
    have hn : c.toNat < 64 := by
      rcases h with h | h | h | h
      · omega
      · subst h; decide
      · subst h; decide
      · subst h; decide
    simp [scanString, getu4, hex4_low _ hn, Char.ofNat_toNat]
    omega
  split
  · rename_i h
    rcases h with h | h
    · have hc : c = Char.ofNat 0x2028 := by rw [← h, Char.ofNat_toNat]
      subst hc
      simp [scanString, getu4, hex4, hexVal, hexDigit]
    · have hc : c = Char.ofNat 0x2029 := by rw [← h, Char.ofNat_toNat]
      subst hc
      simp [scanString, getu4, hex4, hexVal, hexDigit]
  · rename_i h1 h2 h3 h4 h5 h6
    simp only [not_or] at h1 h5
    simp [scanString, h1.1, h1.2, h5.1]

theorem scanString_escapeAll (s : Str) (fuel : Nat) (rest : Str) (h : s.length < fuel) :
    scanString fuel (escapeAll s ++ '"' :: rest) = some (s, rest) := by
  induction s generalizing fuel with
  | nil =>
    obtain ⟨n, rfl⟩ : ∃ n, fuel = n + 1 := ⟨fuel - 1, by simp at h; omega⟩
    simp [escapeAll, scanString]
  | cons c cs ih =>
    obtain ⟨n, rfl⟩ : ∃ n, fuel = n + 1 := ⟨fuel - 1, by simp at h; omega⟩
    have hn : cs.length < n := by simp at h; omega
    simp only [escapeAll, List.append_assoc]
    rw [escapeChar_scan, ih n hn]
    rfl

/-! ## `json.Unmarshal` undoes `json.Marshal`: numbers -/

theorem digitChar_toNat (d : Nat) (h : d < 10) : (digitChar d).toNat = 48 + d := by
  revert d
  decide

theorem digitChar_isDigit (d : Nat) (h : d < 10) : isDigit (digitChar d) = true := by
  revert d
  decide

theorem digitsValue_append (ds : Str) (d acc : Nat) (h : d < 10) :
    digitsValue (ds ++ [digitChar d]) acc = (digitsValue ds acc).map fun v => v * 10 + d := by
  induction ds generalizing acc with
  | nil =>
    have h1 : 48 + d ≤ 57 := by omega
    simp [digitsValue, digitChar_toNat d h, h1]
  | cons c cs ih =>
    simp only [List.cons_append, digitsValue]
    split
    · exact ih _
    · rfl

theorem natDigits_spec (fuel n : Nat) (h : n < fuel) :
    ∃ ds : Str, (∀ acc, natDigits fuel n acc = ds ++ acc) ∧ ds ≠ [] ∧
      (∀ c ∈ ds, isDigit c = true) ∧ digitsValue ds 0 = some n ∧
      (ds.head? = some '0' → n = 0) := by
  induction fuel generalizing n with
  | zero => omega
  | succ f ih =>
    have hd : n % 10 < 10 := Nat.mod_lt _ (by decide)
    by_cases h0 : n / 10 = 0
    · refine ⟨[digitChar (n % 10)], ?_, by simp, ?_, ?_, ?_⟩
      · intro acc; simp [natDigits, h0]
      · intro c hc
        rw [List.mem_singleton.mp hc]
        exact digitChar_isDigit _ hd
      · have hn : n % 10 = n := by omega
        have hlt : n < 10 := by omega
        have h1 : 48 + n ≤ 57 := by omega
        rw [hn]
        simp [digitsValue, digitChar_toNat _ hlt, h1]
      · intro hz
        have hlt : n < 10 := by omega
        have hn : n % 10 = n := by omega
        rw [hn] at hz
        clear h hd h0 hn ih
        revert hz
        revert n
        decide
    · obtain ⟨ds, h1, h2, h3, h4, h5⟩ := ih (n / 10) (by omega)
      refine ⟨ds ++ [digitChar (n % 10)], ?_, by simp, ?_, ?_, ?_⟩
      · intro acc; simp [natDigits, h0, h1]
      · intro c hc
        rcases List.mem_append.mp hc with hc | hc
        · exact h3 c hc
        · rw [List.mem_singleton.mp hc]
          exact digitChar_isDigit _ hd
      · rw [digitsValue_append _ _ _ hd, h4]
        simp only [Option.map_some', Option.some.injEq]
        omega
      · intro hz
        cases ds with
        | nil => exact absurd rfl h2
        | cons c cs =>
          simp only [List.cons_append, List.head?_cons, Option.some.injEq] at hz
          exact absurd (h5 (by simp [hz])) h0

theorem utoa_spec (n : Nat) :
    utoa n ≠ [] ∧ (∀ c ∈ utoa n, isDigit c = true) ∧ digitsValue (utoa n) 0 = some n ∧
      ((utoa n).head? = some '0' → n = 0) := by
  obtain ⟨ds, h1, h2, h3, h4, h5⟩ := natDigits_spec (n + 1) n (by omega)
  have h : utoa n = ds := by simp [utoa, h1]
  rw [h]
  exact ⟨h2, h3, h4, h5⟩

theorem utoa_zero : utoa 0 = ['0'] := by decide

theorem ParseInt_Itoa (n : Int) (hlo : -(2 : Int) ^ 63 ≤ n) (hhi : n < (2 : Int) ^ 63) :
    ParseInt (Itoa n) = some n := by
  obtain ⟨h1, h2, h3, h4⟩ := utoa_spec n.natAbs
  have hu : ParseUint (utoa n.natAbs) = some n.natAbs := by
    simp only [ParseUint, h1, if_false, h3]
  unfold Itoa
  by_cases hneg : n < 0
  · have hle : n.natAbs ≤ 2 ^ 63 := by omega
    have hm : ('-' : Char) ≠ '+' := by decide
    simp only [hneg, if_true, ParseInt, hm, if_false, signedValue, hu, hle, Option.some.injEq]
    omega
  · simp only [hneg, if_false]
    cases hc : utoa n.natAbs with
    | nil => exact absurd hc h1
    | cons c cs =>
      have hd : isDigit c = true := h2 c (by simp [hc])
      have hm : c ≠ '-' := by rintro rfl; revert hd; decide
      have hp : c ≠ '+' := by rintro rfl; revert hd; decide
      rw [hc] at hu
      have hlt : n.natAbs < 2 ^ 63 := by omega
      simp only [ParseInt, hm, hp, if_false, signedValue, hu, hlt, if_true, Option.some.injEq]
      simp
      omega

theorem takeWhile_digits (ds rest : Str) (h : ∀ c ∈ ds, isDigit c = true) :
    (ds ++ ',' :: rest).takeWhile isDigit = ds ∧
      (ds ++ ',' :: rest).dropWhile isDigit = ',' :: rest := by
  induction ds with
  | nil => constructor <;> simp [List.takeWhile, List.dropWhile, isDigit]
  | cons c cs ih =>
    have hc : isDigit c = true := h c (List.mem_cons_self _ _)
    obtain ⟨h1, h2⟩ := ih (fun x hx => h x (List.mem_cons_of_mem _ hx))
    constructor
    · simp [List.takeWhile, hc, h1]
    · simp [List.dropWhile, hc, h2]

theorem scanFracExp_comma (rest : Str) :
    scanFracExp (',' :: rest) = some ([], ',' :: rest) := by
  simp [scanFracExp, scanFrac, scanExp]

theorem scanDigits_comma (ds rest : Str) (hne : ds ≠ []) (h : ∀ c ∈ ds, isDigit c = true)
    (hz : ds.head? = some '0' → ds = ['0']) (sign : Str) (hs : sign = [] ∨ sign = ['-']) :
    scanNumber (sign ++ ds ++ ',' :: rest) = some (sign ++ ds, ',' :: rest) := by
  cases ds with
  | nil => exact absurd rfl hne
  | cons c cs =>
    have hc : isDigit c = true := h c (List.mem_cons_self _ _)
    have hm : c ≠ '-' := by rintro rfl; revert hc; decide
    have hcs : ∀ x ∈ cs, isDigit x = true := fun x hx => h x (List.mem_cons_of_mem _ hx)
    have key : (match c :: (cs ++ ',' :: rest) with
        | [] => none
        | c :: r =>
          if c = '0' then
            (scanFracExp r).map fun (t, rest) => (sign ++ c :: t, rest)
          else if isDigit c then
            (scanFracExp (r.dropWhile isDigit)).map fun (t, rest) =>
              (sign ++ c :: r.takeWhile isDigit ++ t, rest)
          else none) = some (sign ++ c :: cs, ',' :: rest) := by
      by_cases h0 : c = '0'
      · have hds := hz (by simp [h0])
        simp only [List.cons.injEq] at hds
        obtain ⟨-, rfl⟩ := hds
        simp [h0, scanFracExp_comma]
      · obtain ⟨h1, h2⟩ := takeWhile_digits cs rest hcs
        simp [h0, hc, h1, h2, scanFracExp_comma]
    rcases hs with rfl | rfl
    · simpa [scanNumber, hm] using key
    · simpa [scanNumber] using key

theorem Itoa_head (n : Int) :
    ∃ c cs, Itoa n = c :: cs ∧ (c = '-' ∨ isDigit c = true) ∧ c ≠ '"' ∧ c ≠ '\x7b' ∧
      c ≠ '[' := by
  obtain ⟨h1, h2, -, -⟩ := utoa_spec n.natAbs
  unfold Itoa
  split
  · exact ⟨'-', _, rfl, Or.inl rfl, by decide, by decide, by decide⟩
  · cases hu : utoa n.natAbs with
    | nil => exact absurd hu h1
    | cons c cs =>
      have hc : isDigit c = true := h2 c (by simp [hu])
      refine ⟨c, cs, rfl, Or.inr hc, ?_, ?_, ?_⟩ <;> (rintro rfl; revert hc; decide)

theorem scanNumber_Itoa (n : Int) (rest : Str) :
    scanNumber (Itoa n ++ ',' :: rest) = some (Itoa n, ',' :: rest) := by
  obtain ⟨h1, h2, -, h4⟩ := utoa_spec n.natAbs
  have hz : (utoa n.natAbs).head? = some '0' → utoa n.natAbs = ['0'] := by
    intro h
    have h0 : n.natAbs = 0 := h4 h
    rw [h0]
    exact utoa_zero
  unfold Itoa
  split
  · have := scanDigits_comma (utoa n.natAbs) rest h1 h2 hz ['-'] (Or.inr rfl)
    simpa using this
  · have := scanDigits_comma (utoa n.natAbs) rest h1 h2 hz [] (Or.inl rfl)
    simpa using this

/-! ## `json.Unmarshal` undoes `json.Marshal`: the record -/

theorem escapeChar_ne_nil (c : Char) : escapeChar c ≠ [] := by
  unfold escapeChar
  repeat' split
  all_goals simp

theorem escapeAll_length (s : Str) : s.length ≤ (escapeAll s).length := by
  induction s with
  | nil => simp [escapeAll]
  | cons c cs ih =>
    have h := List.length_pos.mpr (escapeChar_ne_nil c)
    simp only [escapeAll, List.length_append, List.length_cons]
    omega

theorem parseValue_string (fuel depth : Nat) (s rest : Str) :
    parseValue (fuel + 1) depth (quote s ++ rest) = some (JValue.string s, rest) := by
  have hlen := escapeAll_length s
  have hs : scanString ((escapeAll s ++ '"' :: rest).length + 1) (escapeAll s ++ '"' :: rest) =
      some (s, rest) :=
    scanString_escapeAll s _ rest (by simp only [List.length_append, List.length_cons]; omega)
  have hq : quote s ++ rest = '"' :: (escapeAll s ++ '"' :: rest) := by simp [quote]
  rw [hq]
  simp only [parseValue, if_true, hs]
  rfl

theorem parseValue_number (fuel depth : Nat) (n : Int) (rest : Str) :
    parseValue (fuel + 1) depth (Itoa n ++ ',' :: rest) =
      some (JValue.number (Itoa n), ',' :: rest) := by
  have hs := scanNumber_Itoa n rest
  obtain ⟨c, cs, hi, hc, h1, h2, h3⟩ := Itoa_head n
  rw [hi] at hs ⊢
  have hc1 : (c = '-' ∨ isDigit c = true) := hc
  simp only [List.cons_append] at hs ⊢
  simp only [parseValue, h1, h2, h3, if_false, hc1, if_true, hs]
  rfl

theorem skipSpace_cons (c : Char) (r : Str) (h : jsonSpace c = false) :
    skipSpace (c :: r) = c :: r := by
  simp [skipSpace, List.dropWhile, h]

theorem parseMembers_more (fuel depth : Nat) (k vtext more : Str) (val : JValue)
    (hk : escapeAll k = k)
    (hv : parseValue fuel depth (skipSpace (vtext ++ ',' :: more)) = some (val, ',' :: more)) :
    parseMembers (fuel + 1) depth ('"' :: (k ++ '"' :: ':' :: (vtext ++ ',' :: more))) =
      (parseMembers fuel depth (skipSpace more)).map fun (ms, rest) => ((k, val) :: ms, rest) := by
  have hs : scanString ((k ++ '"' :: ':' :: (vtext ++ ',' :: more)).length + 1)
      (k ++ '"' :: ':' :: (vtext ++ ',' :: more)) = some (k, ':' :: (vtext ++ ',' :: more)) := by
    have := scanString_escapeAll k ((k ++ '"' :: ':' :: (vtext ++ ',' :: more)).length + 1)
      (':' :: (vtext ++ ',' :: more)) (by simp only [List.length_append, List.length_cons]; omega)
    rwa [hk] at this
  simp only [parseMembers, if_true, hs]
  rw [skipSpace_cons ':' _ (by decide)]
  simp only [if_true, hv]
  rw [skipSpace_cons ',' _ (by decide)]
  simp

theorem parseMembers_last (fuel depth : Nat) (k vtext rest : Str) (val : JValue)
    (hk : escapeAll k = k)
    (hv : parseValue fuel depth (skipSpace (vtext ++ '\x7d' :: rest)) =
      some (val, '\x7d' :: rest)) :
    parseMembers (fuel + 1) depth ('"' :: (k ++ '"' :: ':' :: (vtext ++ '\x7d' :: rest))) =
      some ([(k, val)], rest) := by
  have hs : scanString ((k ++ '"' :: ':' :: (vtext ++ '\x7d' :: rest)).length + 1)
      (k ++ '"' :: ':' :: (vtext ++ '\x7d' :: rest)) =
        some (k, ':' :: (vtext ++ '\x7d' :: rest)) := by
    have := scanString_escapeAll k ((k ++ '"' :: ':' :: (vtext ++ '\x7d' :: rest)).length + 1)
      (':' :: (vtext ++ '\x7d' :: rest))
      (by simp only [List.length_append, List.length_cons]; omega)
    rwa [hk] at this
  simp only [parseMembers, if_true, hs]
  rw [skipSpace_cons ':' _ (by decide)]
  simp only [if_true, hv]
  rw [skipSpace_cons '\x7d' _ (by decide)]
  simp

theorem skipSpace_quote (s rest : Str) : skipSpace (quote s ++ rest) = quote s ++ rest := by
  have hq : quote s ++ rest = '"' :: (escapeAll s ++ '"' :: rest) := by simp [quote]
  rw [hq]
  exact skipSpace_cons _ _ (by decide)

theorem skipSpace_Itoa (n : Int) (rest : Str) : skipSpace (Itoa n ++ rest) = Itoa n ++ rest := by
  obtain ⟨c, cs, hi, hc, -, -, -⟩ := Itoa_head n
  rw [hi]
  apply skipSpace_cons
  rcases hc with rfl | hc
  · decide
  · cases hj : jsonSpace c with
    | false => rfl
    | true =>
      simp only [jsonSpace, Bool.or_eq_true, decide_eq_true_eq] at hj
      rcases hj with ((rfl | rfl) | rfl) | rfl <;> revert hc <;> decide

theorem Marshal_eq (j : cronJob) :
    Marshal j = '\x7b' :: '"' :: ("JobID".toList ++ '"' :: ':' :: (quote j.JobID ++ ',' ::
      ('"' :: ("Pid".toList ++ '"' :: ':' :: (Itoa j.Pid ++ ',' ::
        ('"' :: ("Command".toList ++ '"' :: ':' :: (quote j.Command ++ '\x7d' :: []))))))))
    := by
  simp [Marshal]

theorem parseValue_object (fuel : Nat) (r : Str) :
    parseValue (fuel + 1) 0 ('\x7b' :: '"' :: r) =
      (parseMembers fuel 1 ('"' :: r)).map fun (ms, rest) => (JValue.object ms, rest) := by
  simp [parseValue, maxNestingDepth, skipSpace, jsonSpace]

theorem parseDocument_Marshal (j : cronJob) :
    parseDocument (' ' :: Marshal j) =
      some (JValue.object [("JobID".toList, JValue.string j.JobID),
        ("Pid".toList, JValue.number (Itoa j.Pid)),
        ("Command".toList, JValue.string j.Command)]) := by
  have hlen : ∃ n, (' ' :: Marshal j).length = n + 4 := by
    refine ⟨(' ' :: Marshal j).length - 4, ?_⟩
    rw [Marshal_eq]
    simp only [List.length_cons, List.length_append]
    omega
  obtain ⟨n, hn⟩ := hlen
  have h3 : parseMembers (n + 2) 1
      ('"' :: ("Command".toList ++ '"' :: ':' :: (quote j.Command ++ '\x7d' :: []))) =
      some ([("Command".toList, JValue.string j.Command)], []) :=
    parseMembers_last (n + 1) 1 _ _ [] _ (by decide)
      (by rw [skipSpace_quote]; exact parseValue_string n 1 _ _)
  have h2 : parseMembers (n + 3) 1
      ('"' :: ("Pid".toList ++ '"' :: ':' :: (Itoa j.Pid ++ ',' ::
        ('"' :: ("Command".toList ++ '"' :: ':' :: (quote j.Command ++ '\x7d' :: [])))))) =
      some ([("Pid".toList, JValue.number (Itoa j.Pid)),
        ("Command".toList, JValue.string j.Command)], []) := by
    rw [parseMembers_more (n + 2) 1 _ _ _ (JValue.number (Itoa j.Pid)) (by decide)
      (by rw [skipSpace_Itoa]; exact parseValue_number (n + 1) 1 _ _)]
    rw [skipSpace_cons '"' _ (by decide), h3]
    rfl
  have h1 : parseMembers (n + 4) 1
      ('"' :: ("JobID".toList ++ '"' :: ':' :: (quote j.JobID ++ ',' ::
        ('"' :: ("Pid".toList ++ '"' :: ':' :: (Itoa j.Pid ++ ',' ::
          ('"' :: ("Command".toList ++ '"' :: ':' :: (quote j.Command ++ '\x7d' :: []))))))))) =
      some ([("JobID".toList, JValue.string j.JobID),
        ("Pid".toList, JValue.number (Itoa j.Pid)),
        ("Command".toList, JValue.string j.Command)], []) := by
    rw [parseMembers_more (n + 3) 1 _ _ _ (JValue.string j.JobID) (by decide)
      (by rw [skipSpace_quote]; exact parseValue_string (n + 2) 1 _ _)]
    rw [skipSpace_cons '"' _ (by decide), h2]
    rfl
  unfold parseDocument
  rw [hn]
  have hsk : skipSpace (' ' :: Marshal j) = Marshal j := by
    rw [Marshal_eq]
    simp [skipSpace, List.dropWhile, jsonSpace]
  rw [hsk, Marshal_eq, parseValue_object, h1]
  rfl

theorem Unmarshal_Marshal (j : cronJob) (hlo : -(2 : Int) ^ 63 ≤ j.Pid)
    (hhi : j.Pid < (2 : Int) ^ 63) (hd : j.Delete = false) :
    Unmarshal (' ' :: Marshal j) = some j := by
  unfold Unmarshal
  rw [parseDocument_Marshal]
  have hJ : lookupField "JobID".toList = some Field.JobID := by decide
  have hP : lookupField "Pid".toList = some Field.Pid := by decide
  have hC : lookupField "Command".toList = some Field.Command := by decide
  simp only [storeMembers, storeMember, hJ, hP, hC, ParseInt_Itoa _ hlo hhi, Option.map_some']
  cases j
  simp only [zeroJob] at hd ⊢
  simp_all

/-! ## Reading back the lines of a written block -/

theorem indexFrom_append (c : Char) (a b : Str) (i : Int) (h : c ∉ a) :
    indexFrom c (a ++ c :: b) i = i + a.length := by
  induction a generalizing i with
  | nil => simp [indexFrom]
  | cons x xs ih =>
    have hx : x ≠ c := fun e => h (e ▸ List.mem_cons_self _ _)
    have hxs : c ∉ xs := fun e => h (List.mem_cons_of_mem _ e)
    rw [List.cons_append, indexFrom, if_neg hx, ih (i + 1) hxs]
    simp only [List.length_cons, Nat.cast_add, Nat.cast_one]
    omega

theorem beginLine_split (j : cronJob) :
    ∃ m, Marshal j = '\x7b' :: m ∧
      beginLine j = (beginMarker ++ ' ' :: (j.JobID ++ [' ', '#'])) ++ ' ' :: '\x7b' :: m := by
  refine ⟨_, Marshal_eq j, ?_⟩
  rw [beginLine, Marshal_eq]
  simp

theorem HasPrefix_append (pre rest : Str) : HasPrefix (pre ++ rest) pre = true := by
  unfold HasPrefix
  rw [List.isPrefixOf_iff_prefix]
  exact List.prefix_append _ _

theorem beginLine_HasPrefix (j : cronJob) : HasPrefix (beginLine j) beginMarker = true := by
  unfold beginLine
  simp only [List.append_assoc]
  exact HasPrefix_append _ _

theorem beginLine_payload (j : cronJob) (hid : '\x7b' ∉ j.JobID) :
    Index (beginLine j) '\x7b' > 1 ∧
      (beginLine j).drop (Index (beginLine j) '\x7b' - 1).toNat = ' ' :: Marshal j := by
  obtain ⟨m, hm, hb⟩ := beginLine_split j
  have hno : '\x7b' ∉ (beginMarker ++ ' ' :: (j.JobID ++ [' ', '#'])) ++ [' '] := by
    simp only [List.mem_append, List.mem_cons, List.mem_singleton, not_or]
    simp [beginMarker, hid]
  have hidx : Index (beginLine j) '\x7b' =
      (((beginMarker ++ ' ' :: (j.JobID ++ [' ', '#'])) ++ [' ']).length : Int) := by
    have := indexFrom_append '\x7b' ((beginMarker ++ ' ' :: (j.JobID ++ [' ', '#'])) ++ [' ']) m 0
      hno
    rw [Index, hb]
    simpa using this
  rw [hidx]
  constructor
  · simp only [List.length_append, List.length_cons, List.length_nil, beginMarker]
    simp
    omega
  · have hn : ((((beginMarker ++ ' ' :: (j.JobID ++ [' ', '#'])) ++ [' ']).length : Int) - 1).toNat
        = (beginMarker ++ ' ' :: (j.JobID ++ [' ', '#'])).length := by
      simp only [List.length_append, List.length_cons, List.length_nil]
      omega
    rw [hn, hb, List.drop_left, hm]

theorem wellFormedRecord_iff (j : cronJob) :
    wellFormedRecord j = true ↔
      ('\n' ∉ j.JobID ∧ '\x7b' ∉ j.JobID ∧ '\n' ∉ j.Command ∧
        HasPrefix j.Command beginMarker = false ∧ HasPrefix j.Command endMarker = false ∧
        -(2 : Int) ^ 63 ≤ j.Pid ∧ j.Pid < (2 : Int) ^ 63 ∧ j.Delete = false) := by
  simp only [wellFormedRecord, wellFormedFields, Bool.and_eq_true, Bool.not_eq_true',
    decide_eq_true_eq, List.contains_eq_any_beq, List.any_eq_false, beq_iff_eq]
  constructor
  · rintro ⟨⟨⟨⟨⟨⟨⟨h1, h2⟩, h3⟩, h4⟩, h5⟩, h6⟩, h7⟩, h8⟩
    exact ⟨fun h => h1 _ h rfl, fun h => h2 _ h rfl, fun h => h3 _ h rfl, h4, h5, h6, h7, h8⟩
  · rintro ⟨h1, h2, h3, h4, h5, h6, h7, h8⟩
    exact ⟨⟨⟨⟨⟨⟨⟨fun x hx e => h1 (e ▸ hx), fun x hx e => h2 (e ▸ hx)⟩,
      fun x hx e => h3 (e ▸ hx)⟩, h4⟩, h5⟩, h6⟩, h7⟩, h8⟩

theorem wellFormedRecord_of_fields (j : cronJob) (hf : wellFormedFields j = true)
    (hr : pidInRange j) (hd : j.Delete = false) : wellFormedRecord j = true := by
  simp only [wellFormedRecord, hf, Bool.true_and, Bool.and_eq_true, decide_eq_true_eq,
    Bool.not_eq_true']
  exact ⟨⟨hr.1, hr.2⟩, hd⟩

theorem openBlockTotal_beginLine (st : Scan) (j : cronJob) (hj : wellFormedRecord j = true) :
    openBlockTotal st (beginLine j) = { st with inQorJob := true, Jobs := st.Jobs ++ [j] } := by
  obtain ⟨-, hid, -, -, -, hlo, hhi, hd⟩ := (wellFormedRecord_iff j).mp hj
  obtain ⟨h1, h2⟩ := beginLine_payload j hid
  unfold openBlockTotal
  rw [beginLine_HasPrefix, if_pos rfl, if_pos h1, h2, Unmarshal_Marshal j hlo hhi hd]

theorem scanLine_begin (st : Scan) (j : cronJob) (hj : wellFormedRecord j = true) :
    scanLine st (beginLine j) = ⟨st.Jobs ++ [j], st.CronJobs, true⟩ := by
  unfold scanLine
  rw [openBlockTotal_beginLine st j hj]
  simp [keepLine, closeBlock, begin_not_end _ (beginLine_HasPrefix j)]

theorem scanLine_command (st : Scan) (l : Str) (hin : st.inQorJob = true)
    (hb : HasPrefix l beginMarker = false) (he : HasPrefix l endMarker = false) :
    scanLine st l = st := by
  simp [scanLine, openBlockTotal, keepLine, closeBlock, hb, he, hin]

theorem scanLine_end (st : Scan) (hin : st.inQorJob = true) :
    scanLine st endMarker = { st with inQorJob := false } := by
  have hb : HasPrefix endMarker beginMarker = false := by decide
  have he : HasPrefix endMarker endMarker = true := by decide
  simp [scanLine, openBlockTotal, keepLine, closeBlock, hb, he, hin]

theorem scanLine_foreign (st : Scan) (l : Str) (hin : st.inQorJob = false)
    (hb : HasPrefix l beginMarker = false) :
    scanLine st l = { st with CronJobs := st.CronJobs ++ [l] } := by
  cases st with
  | mk J F q =>
    simp only at hin
    subst hin
    by_cases he : HasPrefix l endMarker = true <;>
      simp [scanLine, openBlockTotal, keepLine, closeBlock, hb, he]

theorem scanLines_append (a b : List Str) (st : Scan) :
    scanLines (a ++ b) st = scanLines b (scanLines a st) := by
  simp [scanLines, List.foldl_append]

theorem scanLines_foreign (F : List Str) (st : Scan) (hin : st.inQorJob = false)
    (hF : ∀ l ∈ F, HasPrefix l beginMarker = false) :
    scanLines F st = { st with CronJobs := st.CronJobs ++ F } := by
  induction F generalizing st with
  | nil => simp [scanLines]
  | cons l ls ih =>
    have h1 : scanLines (l :: ls) st = scanLines ls (scanLine st l) := rfl
    rw [h1, scanLine_foreign st l hin (hF l (List.mem_cons_self _ _))]
    rw [ih { st with CronJobs := st.CronJobs ++ [l] } hin
      (fun x hx => hF x (List.mem_cons_of_mem _ hx))]
    simp

theorem scanLines_block (j : cronJob) (hj : wellFormedRecord j = true) (Js : List cronJob)
    (Fs : List Str) (q : Bool) (rest : List Str) :
    scanLines (beginLine j :: j.Command :: endMarker :: rest) ⟨Js, Fs, q⟩ =
      scanLines rest ⟨Js ++ [j], Fs, false⟩ := by
  obtain ⟨-, -, -, hb, he, -, -, -⟩ := (wellFormedRecord_iff j).mp hj
  have h1 : scanLines (beginLine j :: j.Command :: endMarker :: rest) ⟨Js, Fs, q⟩ =
      scanLines rest (scanLine (scanLine (scanLine ⟨Js, Fs, q⟩ (beginLine j)) j.Command)
        endMarker) := rfl
  rw [h1, scanLine_begin _ j hj, scanLine_command _ _ rfl hb he, scanLine_end _ rfl]

theorem scanLines_blocks (J : List cronJob) (hJ : ∀ j ∈ J, wellFormedRecord j = true)
    (Js : List cronJob) (Fs : List Str) :
    scanLines (blocksLines J) ⟨Js, Fs, false⟩ =
      ⟨Js ++ J, Fs ++ List.replicate (J.length - 1) [], false⟩ := by
  induction J generalizing Js Fs with
  | nil => simp [blocksLines, scanLines]
  | cons j js ih =>
    have hj := hJ j (List.mem_cons_self _ _)
    have hjs : ∀ x ∈ js, wellFormedRecord x = true :=
      fun x hx => hJ x (List.mem_cons_of_mem _ hx)
    cases js with
    | nil =>
      rw [blocksLines, scanLines_block j hj]
      simp [scanLines]
    | cons k ks =>
      rw [blocksLines, scanLines_block j hj]
      have h2 : scanLines ([] :: blocksLines (k :: ks)) ⟨Js ++ [j], Fs, false⟩ =
          scanLines (blocksLines (k :: ks)) (scanLine ⟨Js ++ [j], Fs, false⟩ []) := rfl
      rw [h2, scanLine_foreign _ [] rfl (by decide), ih hjs]
      simp [List.replicate_succ']
      rw [← List.replicate_succ, List.replicate_succ']

/-! ## The text `WriteCronJob` writes, as lines -/

theorem Split_ne_nil (s : Str) : Split s ≠ [] := by
  cases s with
  | nil => simp [Split]
  | cons c cs =>
    unfold Split
    split
    · simp
    · split <;> simp

theorem Split_line (l : Str) (h : '\n' ∉ l) : Split l = [l] := by
  induction l with
  | nil => rfl
  | cons c cs ih =>
    have hc : c ≠ '\n' := fun e => h (e ▸ List.mem_cons_self _ _)
    have hcs : '\n' ∉ cs := fun e => h (List.mem_cons_of_mem _ e)
    rw [Split, if_neg hc, ih hcs]

theorem Split_append (l r : Str) (h : '\n' ∉ l) : Split (l ++ '\n' :: r) = l :: Split r := by
  induction l with
  | nil => simp [Split]
  | cons c cs ih =>
    have hc : c ≠ '\n' := fun e => h (e ▸ List.mem_cons_self _ _)
    have hcs : '\n' ∉ cs := fun e => h (List.mem_cons_of_mem _ e)
    rw [List.cons_append, Split, if_neg hc, ih hcs]

theorem joinLines_cons (l : Str) (rest : List Str) (h : rest ≠ []) :
    joinLines (l :: rest) = l ++ '\n' :: joinLines rest := by
  cases rest with
  | nil => exact absurd rfl h
  | cons x xs => rfl

theorem Split_joinLines (L : List Str) (hne : L ≠ []) (h : ∀ l ∈ L, '\n' ∉ l) :
    Split (joinLines L) = L := by
  induction L with
  | nil => exact absurd rfl hne
  | cons l ls ih =>
    have hl := h l (List.mem_cons_self _ _)
    cases ls with
    | nil => exact Split_line l hl
    | cons x xs =>
      rw [joinLines_cons l _ (by simp), Split_append _ _ hl,
        ih (by simp) (fun y hy => h y (List.mem_cons_of_mem _ hy))]

theorem joinLines_append (a b : List Str) (ha : a ≠ []) (hb : b ≠ []) :
    joinLines (a ++ b) = joinLines a ++ '\n' :: joinLines b := by
  induction a with
  | nil => exact absurd rfl ha
  | cons l ls ih =>
    cases ls with
    | nil =>
      rw [List.singleton_append, joinLines_cons l b hb]
      rfl
    | cons x xs =>
      rw [List.cons_append, joinLines_cons l _ (by simp), ih (by simp),
        joinLines_cons l (x :: xs) (by simp)]
      simp

theorem writeLines_eq (L : List Str) (hne : L ≠ []) :
    writeLines L = joinLines L ++ ['\n'] := by
  induction L with
  | nil => exact absurd rfl hne
  | cons l ls ih =>
    cases ls with
    | nil => simp [writeLines, joinLines]
    | cons x xs =>
      rw [writeLines, ih (by simp), joinLines_cons l _ (by simp)]
      simp

theorem ToString_eq (j : cronJob) :
    j.ToString = beginLine j ++ '\n' :: (j.Command ++ '\n' :: (endMarker ++ ['\n'])) := by
  simp [cronJob.ToString, beginLine]

theorem blocksLines_ne_nil (j : cronJob) (js : List cronJob) : blocksLines (j :: js) ≠ [] := by
  cases js <;> simp [blocksLines]

theorem writeJobs_eq (J : List cronJob) (hne : J ≠ []) (hJ : ∀ j ∈ J, j.Delete = false) :
    writeJobs J = joinLines (blocksLines J) ++ ['\n', '\n'] := by
  induction J with
  | nil => exact absurd rfl hne
  | cons j js ih =>
    have hj : j.Delete = false := hJ j (List.mem_cons_self _ _)
    cases js with
    | nil =>
      simp [writeJobs, hj, ToString_eq, blocksLines, joinLines]
    | cons k ks =>
      have hrest := ih (by simp) (fun x hx => hJ x (List.mem_cons_of_mem _ hx))
      have hb := blocksLines_ne_nil k ks
      rw [writeJobs, hrest, blocksLines, joinLines_cons _ _ (by simp),
        joinLines_cons _ _ (by simp), joinLines_cons _ _ (by simp), joinLines_cons _ _ hb]
      simp [hj, ToString_eq]

theorem tableText_eq (F : List Str) (J : List cronJob) (hne : J ≠ [])
    (hJ : ∀ j ∈ J, j.Delete = false) :
    writeLines F ++ writeJobs J = joinLines (F ++ blocksLines J) ++ ['\n', '\n'] := by
  obtain ⟨j, js, rfl⟩ := List.exists_cons_of_ne_nil hne
  rw [writeJobs_eq _ hne hJ]
  cases F with
  | nil => simp [writeLines]
  | cons l ls =>
    rw [writeLines_eq _ (by simp), joinLines_append _ _ (by simp) (blocksLines_ne_nil j js)]
    simp

/-! ## `strings.TrimSpace` on the written text -/

theorem TrimSpace_core (c z : Char) (r pre ws : Str) (hc : isSpace c = false)
    (hz : isSpace z = false) (ht : c :: r = pre ++ [z]) (hws : ∀ x ∈ ws, isSpace x = true) :
    TrimSpace ((c :: r) ++ ws) = c :: r := by
  unfold TrimSpace
  have h1 : ((c :: r) ++ ws).dropWhile isSpace = (c :: r) ++ ws := by
    simp [List.dropWhile, hc]
  rw [h1, ht]
  have h2 : ∀ ws : Str, (∀ x ∈ ws, isSpace x = true) →
      List.rdropWhile isSpace ((pre ++ [z]) ++ ws) = pre ++ [z] := by
    intro ws
    induction ws using List.reverseRecOn with
    | nil =>
      intro _
      rw [List.append_nil, List.rdropWhile_concat_neg]
      simp [hz]
    | append_singleton xs x ih =>
      intro h
      rw [← List.append_assoc, List.rdropWhile_concat_pos _ _ _ (h x (by simp))]
      exact ih (fun y hy => h y (by simp [hy]))
  exact h2 ws hws

theorem startsClean_head (M : List Str) (hne : M ≠ []) (h : startsClean M = true) :
    ∃ c r, joinLines M = c :: r ∧ isSpace c = false := by
  match M, hne, h with
  | (c :: l) :: rest, _, h =>
    have hc : isSpace c = false := by simpa [startsClean] using h
    cases rest with
    | nil => exact ⟨c, l, rfl, hc⟩
    | cons x xs => exact ⟨c, _, by rw [joinLines_cons _ _ (by simp)]; rfl, hc⟩

theorem joinLines_concat (M : List Str) (l : Str) :
    ∃ pre, joinLines (M ++ [l]) = pre ++ l := by
  cases M with
  | nil => exact ⟨[], rfl⟩
  | cons x xs =>
    refine ⟨joinLines (x :: xs) ++ ['\n'], ?_⟩
    rw [joinLines_append _ _ (by simp) (by simp)]
    simp [joinLines]

theorem endsClean_last (M : List Str) (h : endsClean M = true) :
    ∃ pre z, joinLines M = pre ++ [z] ∧ isSpace z = false := by
  unfold endsClean at h
  cases hl : M.getLast? with
  | none => rw [hl] at h; cases h
  | some l =>
    rw [hl] at h
    simp only at h
    cases hz : l.getLast? with
    | none => rw [hz] at h; cases h
    | some z =>
      rw [hz] at h
      obtain ⟨M', rfl⟩ := List.getLast?_eq_some_iff.mp hl
      obtain ⟨l', rfl⟩ := List.getLast?_eq_some_iff.mp hz
      obtain ⟨pre, hpre⟩ := joinLines_concat M' (l' ++ [z])
      exact ⟨pre ++ l', z, by rw [hpre]; simp, by simpa using h⟩

theorem TrimSpace_joinLines (M : List Str) (ws : Str) (hs : startsClean M = true)
    (he : endsClean M = true) (hws : ∀ x ∈ ws, isSpace x = true) :
    TrimSpace (joinLines M ++ ws) = joinLines M := by
  have hne : M ≠ [] := by
    rintro rfl
    simp [endsClean] at he
  obtain ⟨c, r, h1, hc⟩ := startsClean_head M hne hs
  obtain ⟨pre, z, h2, hz⟩ := endsClean_last M he
  rw [h1]
  exact TrimSpace_core c z r pre ws hc hz (h1 ▸ h2) hws

theorem blocksLines_getLast (j : cronJob) (js : List cronJob) :
    (blocksLines (j :: js)).getLast? = some endMarker := by
  induction js generalizing j with
  | nil => simp [blocksLines]
  | cons k ks ih =>
    have := ih k
    rw [blocksLines]
    simp only [List.getLast?_cons_cons]
    cases hb : blocksLines (k :: ks) with
    | nil => exact absurd hb (blocksLines_ne_nil k ks)
    | cons x xs =>
      rw [hb] at this
      simpa using this

theorem edges_with_blocks (F : List Str) (j : cronJob) (js : List cronJob)
    (hs : startsClean F = true) :
    startsClean (F ++ blocksLines (j :: js)) = true ∧
      endsClean (F ++ blocksLines (j :: js)) = true := by
  constructor
  · cases F with
    | nil =>
      have hb : ∃ r rest, blocksLines (j :: js) = ('#' :: r) :: rest := by
        cases js <;> exact ⟨_, _, rfl⟩
      obtain ⟨r, rest, hb⟩ := hb
      rw [List.nil_append, hb]
      rfl
    | cons l ls =>
      cases l with
      | nil => simp [startsClean] at hs
      | cons c r => simpa [startsClean] using hs
  · unfold endsClean
    rw [List.getLast?_append, blocksLines_getLast]
    rfl

/-! ## Reading back the written text -/

theorem hexDigit_ne_newline (d : Nat) (h : d < 16) : hexDigit d ≠ '\n' := by
  revert d
  decide

theorem escapeChar_no_newline (c : Char) : '\n' ∉ escapeChar c := by
  have h16 : c.toNat % 16 < 16 := Nat.mod_lt _ (by decide)
  have hm := hexDigit_ne_newline (c.toNat % 16) h16
  unfold escapeChar
  split
  · rename_i h
    rcases h with h | h <;> subst h <;> decide
  split
  · decide
  split
  · decide
  split
  · decide
  split
  · rename_i h
    have hn : c.toNat / 16 < 16 := by
      rcases h with h | h | h | h
      · omega
      · subst h; decide
      · subst h; decide
      · subst h; decide
    have hd := hexDigit_ne_newline (c.toNat / 16) hn
    simp only [List.mem_cons, List.mem_singleton, List.not_mem_nil, or_false, not_or]
    exact ⟨by decide, by decide, by decide, by decide, fun e => hd e.symm, fun e => hm e.symm⟩
  split
  · simp only [List.mem_cons, List.mem_singleton, List.not_mem_nil, or_false, not_or]
    exact ⟨by decide, by decide, by decide, by decide, by decide, fun e => hm e.symm⟩
  · rename_i h1 h2 h3 h4 h5 h6
    simp only [List.mem_singleton]
    exact fun e => h2 e.symm

theorem escapeAll_no_newline (s : Str) : '\n' ∉ escapeAll s := by
  induction s with
  | nil => simp [escapeAll]
  | cons c cs ih =>
    simp only [escapeAll, List.mem_append, not_or]
    exact ⟨escapeChar_no_newline c, ih⟩

theorem Itoa_no_newline (n : Int) : '\n' ∉ Itoa n := by
  obtain ⟨-, h2, -, -⟩ := utoa_spec n.natAbs
  have hu : '\n' ∉ utoa n.natAbs := fun h => by
    have := h2 _ h
    revert this
    decide
  unfold Itoa
  split
  · simp only [List.mem_cons, not_or]
    exact ⟨by decide, hu⟩
  · exact hu

theorem Marshal_no_newline (j : cronJob) : '\n' ∉ Marshal j := by
  have h1 := escapeAll_no_newline j.JobID
  have h2 := escapeAll_no_newline j.Command
  have h3 := Itoa_no_newline j.Pid
  simp [Marshal, quote, h1, h2, h3]

theorem beginLine_no_newline (j : cronJob) (h : '\n' ∉ j.JobID) : '\n' ∉ beginLine j := by
  have hm := Marshal_no_newline j
  simp [beginLine, beginMarker, h, hm]

theorem blocksLines_no_newline (J : List cronJob) (hJ : ∀ j ∈ J, wellFormedRecord j = true) :
    ∀ l ∈ blocksLines J, '\n' ∉ l := by
  induction J with
  | nil => simp [blocksLines]
  | cons j js ih =>
    obtain ⟨h1, -, h3, -, -, -, -, -⟩ :=
      (wellFormedRecord_iff j).mp (hJ j (List.mem_cons_self _ _))
    have hb := beginLine_no_newline j h1
    have he : '\n' ∉ endMarker := by decide
    have hrest := ih (fun x hx => hJ x (List.mem_cons_of_mem _ hx))
    cases js with
    | nil =>
      intro l hl
      simp only [blocksLines, List.mem_cons, List.mem_singleton, List.not_mem_nil,
        or_false] at hl
      rcases hl with rfl | rfl | rfl <;> assumption
    | cons k ks =>
      intro l hl
      rw [blocksLines] at hl
      simp only [List.mem_cons] at hl
      rcases hl with rfl | rfl | rfl | rfl | hl
      · exact hb
      · exact h3
      · exact he
      · simp
      · exact hrest l (by simpa using hl)

/-- Parsing the text written from a snapshot of well-formed records whose edges survive
`strings.TrimSpace`: the records come back, and the foreign lines come back followed by one
empty line for each block after the first. -/
theorem reparse (F : List Str) (J : List cronJob)
    (hF : ∀ l ∈ F, '\n' ∉ l ∧ HasPrefix l beginMarker = false)
    (hJ : ∀ j ∈ J, wellFormedRecord j = true) (he : edgesClean F J = true) :
    scanLines (Split (TrimSpace (writeLines F ++ writeJobs J))) ⟨[], [], false⟩ =
      ⟨J, F ++ List.replicate (J.length - 1) [], false⟩ := by
  cases J with
  | nil =>
    simp only [edgesClean, Bool.or_eq_true, decide_eq_true_eq, Bool.and_eq_true] at he
    rcases he with rfl | ⟨hs, hl⟩
    · decide
    · have hne : F ≠ [] := by
        rintro rfl
        simp [endsClean] at hl
      have ht : writeLines F ++ writeJobs [] = joinLines F ++ ['\n'] := by
        simp [writeJobs, writeLines_eq F hne]
      rw [ht, TrimSpace_joinLines F _ hs hl (by decide),
        Split_joinLines F hne (fun l hl => (hF l hl).1),
        scanLines_foreign F _ rfl (fun l hl => (hF l hl).2)]
      simp
  | cons j js =>
    have hd : ∀ x ∈ j :: js, x.Delete = false := fun x hx =>
      ((wellFormedRecord_iff x).mp (hJ x hx)).2.2.2.2.2.2.2
    have hs : startsClean F = true := he
    obtain ⟨h1, h2⟩ := edges_with_blocks F j js hs
    have hnl : ∀ l ∈ F ++ blocksLines (j :: js), '\n' ∉ l := by
      intro l hl
      rcases List.mem_append.mp hl with h | h
      · exact (hF l h).1
      · exact blocksLines_no_newline _ hJ l h
    rw [tableText_eq F _ (by simp) hd, TrimSpace_joinLines _ _ h1 h2 (by decide),
      Split_joinLines _ (by simp [blocksLines_ne_nil]) hnl, scanLines_append,
      scanLines_foreign F _ rfl (fun l hl => (hF l hl).2), scanLines_blocks _ hJ]
    simp

/-! ## The foreign lines `ParseJobs` keeps are lines without a begin-marker -/

theorem Split_no_newline (s : Str) : ∀ l ∈ Split s, '\n' ∉ l := by
  induction s with
  | nil => simp [Split]
  | cons c cs ih =>
    unfold Split
    split
    · intro l hl
      rcases List.mem_cons.mp hl with rfl | h
      · simp
      · exact ih l h
    · rename_i hc
      split
      · intro l hl
        rw [List.mem_singleton.mp hl]
        simpa using fun e : '\n' = c => hc e.symm
      · rename_i x xs hx
        rw [hx] at ih
        intro l hl
        rcases List.mem_cons.mp hl with rfl | h
        · have := ih x (List.mem_cons_self _ _)
          simp only [List.mem_cons, not_or]
          exact ⟨fun e => hc e.symm, this⟩
        · exact ih l (List.mem_cons_of_mem _ h)

theorem outsideLines_subset (lines : List Str) :
    (∀ l ∈ outsideLines lines, l ∈ lines) ∧ (∀ l ∈ insideLines lines, l ∈ lines) := by
  induction lines with
  | nil => simp [outsideLines, insideLines]
  | cons x xs ih =>
    constructor
    · intro l hl
      unfold outsideLines at hl
      split at hl
      · exact List.mem_cons_of_mem _ (ih.2 l hl)
      · rcases List.mem_cons.mp hl with rfl | h
        · exact List.mem_cons_self _ _
        · exact List.mem_cons_of_mem _ (ih.1 l h)
    · intro l hl
      unfold insideLines at hl
      split at hl
      · exact List.mem_cons_of_mem _ (ih.1 l hl)
      · exact List.mem_cons_of_mem _ (ih.2 l hl)

theorem parsed_lines (text : Str) :
    ∀ l ∈ (scanLines (Split (TrimSpace text)) ⟨[], [], false⟩).CronJobs,
      '\n' ∉ l ∧ HasPrefix l beginMarker = false := by
  intro l hl
  rw [scanLines_CronJobs] at hl
  have hl1 : l ∈ outsideLines (Split (TrimSpace text)) := by simpa using hl
  exact ⟨Split_no_newline _ l ((outsideLines_subset _).1 l hl1),
    (outsideLines_not_begin _).1 l hl1⟩

/-! ## The process id of a parsed record is a Go `int` -/

theorem signedValue_range (neg : Bool) (s : Str) (n : Int) (h : signedValue neg s = some n) :
    -(2 : Int) ^ 63 ≤ n ∧ n < (2 : Int) ^ 63 := by
  unfold signedValue at h
  cases hu : ParseUint s with
  | none => rw [hu] at h; cases h
  | some un =>
    rw [hu] at h
    cases neg with
    | true =>
      simp only [if_true] at h
      split at h
      · cases h
        constructor <;> omega
      · cases h
    | false =>
      simp only [Bool.false_eq_true, if_false] at h
      split at h
      · cases h
        constructor <;> omega
      · cases h

theorem ParseInt_range (s : Str) (n : Int) (h : ParseInt s = some n) :
    -(2 : Int) ^ 63 ≤ n ∧ n < (2 : Int) ^ 63 := by
  unfold ParseInt at h
  split at h
  · cases h
  · split at h
    · exact signedValue_range _ _ _ h
    · split at h
      · exact signedValue_range _ _ _ h
      · exact signedValue_range _ _ _ h

theorem storeMember_range (job job1 : cronJob) (m : Str × JValue)
    (h : storeMember job m = some job1) (hr : pidInRange job) : pidInRange job1 := by
  unfold storeMember at h
  split at h
  · cases h; exact hr
  · split at h <;> first | (cases h; exact hr) | (cases h)
  · split at h
    · simp only [Option.map_eq_some'] at h
      obtain ⟨n, hn, rfl⟩ := h
      exact ParseInt_range _ n hn
    · cases h; exact hr
    · cases h
  · split at h <;> first | (cases h; exact hr) | (cases h)

theorem storeMembers_range (ms : List (Str × JValue)) (job job1 : cronJob)
    (h : storeMembers ms job = some job1) (hr : pidInRange job) : pidInRange job1 := by
  induction ms generalizing job with
  | nil => cases h; exact hr
  | cons m ms ih =>
    unfold storeMembers at h
    cases hm : storeMember job m with
    | none => rw [hm] at h; cases h
    | some j2 =>
      rw [hm] at h
      exact ih j2 h (storeMember_range job j2 m hm hr)

theorem Unmarshal_range (data : Str) (job : cronJob) (h : Unmarshal data = some job) :
    pidInRange job := by
  have hz : pidInRange zeroJob := by
    constructor <;> simp [zeroJob]
  unfold Unmarshal at h
  split at h
  · cases h
  · exact storeMembers_range _ _ _ h hz
  · cases h; exact hz
  · cases h

theorem scanLine_range (st : Scan) (line : Str) (h : ∀ j ∈ st.Jobs, pidInRange j) :
    ∀ j ∈ (scanLine st line).Jobs, pidInRange j := by
  rw [scanLine_Jobs]
  rcases openBlockTotal_Jobs st line with h1 | ⟨job, hu, h1⟩
  · rw [h1]; exact h
  · rw [h1]
    intro j hj
    rcases List.mem_append.mp hj with hj | hj
    · exact h j hj
    · rw [List.mem_singleton.mp hj]; exact Unmarshal_range _ _ hu

theorem scanLines_range (lines : List Str) (st : Scan) (h : ∀ j ∈ st.Jobs, pidInRange j) :
    ∀ j ∈ (scanLines lines st).Jobs, pidInRange j := by
  induction lines generalizing st with
  | nil => exact h
  | cons l ls ih => exact ih (scanLine st l) (scanLine_range st l h)

/-! ## The fuel of the JSON reader is enough -/

theorem dropWhile_length (p : Char → Bool) (s : Str) : (s.dropWhile p).length ≤ s.length :=
  (List.dropWhile_sublist p).length_le

theorem skipSpace_length (s : Str) : (skipSpace s).length ≤ s.length :=
  dropWhile_length _ s

theorem getu4_length (s : Str) (n : Nat) (r : Str) (h : getu4 s = some (n, r)) :
    r.length + 6 = s.length := by
  unfold getu4 at h
  split at h
  · split at h
    · simp only [Option.map_eq_some', Prod.mk.injEq] at h
      obtain ⟨_, _, _, rfl⟩ := h
      simp
    · cases h
  · cases h

theorem scanString_length (fuel : Nat) (r t rest : Str)
    (h : scanString fuel r = some (t, rest)) : rest.length < r.length := by
  induction fuel generalizing r t with
  | zero => simp [scanString] at h
  | succ f ih =>
    cases r with
    | nil => simp [scanString] at h
    | cons c r =>
      have step : ∀ (x : Char) (r' : Str), r'.length ≤ r.length →
          (scanString f r').map (fun (p : Str × Str) => (x :: p.1, p.2)) = some (t, rest) →
          rest.length < (c :: r).length := by
        intro x r' hr' hm
        simp only [Option.map_eq_some', Prod.mk.injEq] at hm
        obtain ⟨⟨t', rest'⟩, hs, -, hrest⟩ := hm
        simp only at hrest
        subst hrest
        have := ih r' t' hs
        simp only [List.length_cons]
        omega
      unfold scanString at h
      split at h
      · cases h; simp
      · split at h
        · split at h
          · cases h
          · rename_i e r1
            split at h
            · split at h
              · cases h
              · rename_i n r2 hg
                have h2 := getu4_length _ _ _ hg
                simp only [List.length_cons] at h2
                split at h
                · split at h
                  · rename_i m r3 hg3
                    have h3 := getu4_length _ _ _ hg3
                    split at h
                    · exact step _ r3 (by simp only [List.length_cons]; omega) h
                    · exact step _ r2 (by simp only [List.length_cons]; omega) h
                  · exact step _ r2 (by simp only [List.length_cons]; omega) h
                · exact step _ r2 (by simp only [List.length_cons]; omega) h
            · split at h
              · cases h
              · exact step _ r1 (by simp) h
        · split at h
          · cases h
          · exact step _ r (le_refl _) h

theorem scanFrac_length (s t rest : Str) (h : scanFrac s = some (t, rest)) :
    rest.length ≤ s.length := by
  unfold scanFrac at h
  split at h
  · cases h; simp
  · split at h
    · split at h
      · cases h
      · cases h
        have := dropWhile_length isDigit ‹Str›
        simp only [List.length_cons]
        omega
    · cases h; simp

theorem scanExp_length (s t rest : Str) (h : scanExp s = some (t, rest)) :
    rest.length ≤ s.length := by
  unfold scanExp at h
  split at h
  · cases h; simp
  · split at h
    · split at h
      · cases h
      · rename_i g r0
        split at h
        · split at h
          · cases h
          · cases h
            have := dropWhile_length isDigit r0
            simp only [List.length_cons]
            omega
        · split at h
          · cases h
          · cases h
            have := dropWhile_length isDigit (g :: r0)
            simp only [List.length_cons] at this ⊢
            omega
    · cases h; simp

theorem scanFracExp_length (s t rest : Str) (h : scanFracExp s = some (t, rest)) :
    rest.length ≤ s.length := by
  unfold scanFracExp at h
  split at h
  · cases h
  · rename_i f s1 hf
    split at h
    · cases h
    · rename_i e s2 he
      cases h
      have h1 := scanFrac_length _ _ _ hf
      have h2 := scanExp_length _ _ _ he
      omega

theorem scanNumber_length (s t rest : Str) (h : scanNumber s = some (t, rest)) :
    rest.length < s.length := by
  have key : ∀ (sign s1 : Str), s1.length ≤ s.length →
      (match s1 with
        | [] => none
        | c :: r =>
          if c = '0' then
            (scanFracExp r).map fun (t, rest) => (sign ++ c :: t, rest)
          else if isDigit c then
            (scanFracExp (r.dropWhile isDigit)).map fun (t, rest) =>
              (sign ++ c :: r.takeWhile isDigit ++ t, rest)
          else none) = some (t, rest) → rest.length < s.length := by
    intro sign s1 hs1 hm
    split at hm
    · cases hm
    · rename_i c r
      simp only [List.length_cons] at hs1
      split at hm
      · simp only [Option.map_eq_some', Prod.mk.injEq] at hm
        obtain ⟨⟨t', rest'⟩, hs, -, hrest⟩ := hm
        simp only at hrest
        subst hrest
        have := scanFracExp_length _ _ _ hs
        omega
      · split at hm
        · simp only [Option.map_eq_some', Prod.mk.injEq] at hm
          obtain ⟨⟨t', rest'⟩, hs, -, hrest⟩ := hm
          simp only at hrest
          subst hrest
          have := scanFracExp_length _ _ _ hs
          have := dropWhile_length isDigit r
          omega
        · cases hm
  unfold scanNumber at h
  cases s with
  | nil => exact key [] [] (le_refl _) h
  | cons c r =>
    by_cases hc : c = '-'
    · simp only [hc, if_true] at h
      exact key _ r (by simp) h
    · simp only [hc, if_false] at h
      exact key _ (c :: r) (le_refl _) h

theorem map_pair_eq {α β : Type} (g : α → β) (o : Option (α × Str)) (v : β) (rest : Str)
    (h : o.map (fun p => (g p.1, p.2)) = some (v, rest)) :
    ∃ a, o = some (a, rest) ∧ g a = v := by
  cases o with
  | none => cases h
  | some p =>
    obtain ⟨a, b⟩ := p
    simp only [Option.map_some', Option.some.injEq, Prod.mk.injEq] at h
    obtain ⟨h1, h2⟩ := h
    subst h2
    exact ⟨a, rfl, h1⟩

theorem parseValue_succ_of (F : Nat)
    (ihM : ∀ d s ms rest, parseMembers F d s = some (ms, rest) →
      rest.length < s.length ∧
        ∀ f, s.length ≤ f + rest.length → parseMembers f d s = some (ms, rest))
    (ihE : ∀ d s vs rest, parseElems F d s = some (vs, rest) →
      rest.length < s.length ∧
        ∀ f, s.length ≤ f + rest.length → parseElems f d s = some (vs, rest)) :
    ∀ d s v rest, parseValue (F + 1) d s = some (v, rest) →
      rest.length < s.length ∧
        ∀ f, s.length ≤ f + rest.length → parseValue f d s = some (v, rest) := by
  intro d s v rest h
  cases s with
  | nil => simp [parseValue] at h
  | cons c r =>
    have hpos : ∀ f, (c :: r).length ≤ f + rest.length → rest.length < (c :: r).length →
        ∃ f', f = f' + 1 := by
      intro f hf hlt
      exact ⟨f - 1, by omega⟩
    simp only [parseValue] at h
    by_cases h1 : c = '"'
    · rw [if_pos h1] at h
      obtain ⟨t, hs, hv⟩ := map_pair_eq JValue.string _ _ _ h
      have hlen := scanString_length _ _ _ _ hs
      have hlt : rest.length < (c :: r).length := by
        simp only [List.length_cons]; omega
      refine ⟨hlt, fun f hf => ?_⟩
      obtain ⟨f', rfl⟩ := hpos f hf hlt
      simp only [parseValue]
      rw [if_pos h1, hs, ← hv]
      rfl
    · rw [if_neg h1] at h
      by_cases h2 : c = '\x7b'
      · rw [if_pos h2] at h
        by_cases hd : maxNestingDepth ≤ d
        · rw [if_pos hd] at h
          cases h
        · rw [if_neg hd] at h
          have hsl := skipSpace_length r
          cases hsk : skipSpace r with
          | nil =>
            rw [hsk] at h
            cases h
          | cons x r1 =>
            rw [hsk] at h hsl
            simp only [List.length_cons] at hsl
            simp only at h
            by_cases hx : x = '\x7d'
            · rw [if_pos hx] at h
              cases h
              have hlt : rest.length < (c :: r).length := by
                simp only [List.length_cons]; omega
              refine ⟨hlt, fun f hf => ?_⟩
              obtain ⟨f', rfl⟩ := hpos f hf hlt
              simp only [parseValue]
              rw [if_neg h1, if_pos h2, if_neg hd, hsk]
              simp only
              rw [if_pos hx]
            · rw [if_neg hx] at h
              obtain ⟨ms, hm, hv⟩ := map_pair_eq JValue.object _ _ _ h
              obtain ⟨hl, hf'⟩ := ihM _ _ _ _ hm
              simp only [List.length_cons] at hl
              have hlt : rest.length < (c :: r).length := by
                simp only [List.length_cons]; omega
              refine ⟨hlt, fun f hf => ?_⟩
              obtain ⟨f', rfl⟩ := hpos f hf hlt
              have hm' := hf' f' (by simp only [List.length_cons] at hf ⊢; omega)
              simp only [parseValue]
              rw [if_neg h1, if_pos h2, if_neg hd, hsk]
              simp only
              rw [if_neg hx, hm', ← hv]
              rfl
      · rw [if_neg h2] at h
        by_cases h3 : c = '['
        · rw [if_pos h3] at h
          by_cases hd : maxNestingDepth ≤ d
          · rw [if_pos hd] at h
            cases h
          · rw [if_neg hd] at h
            have hsl := skipSpace_length r
            cases hsk : skipSpace r with
            | nil =>
              rw [hsk] at h
              cases h
            | cons x r1 =>
              rw [hsk] at h hsl
              simp only [List.length_cons] at hsl
              simp only at h
              by_cases hx : x = ']'
              · rw [if_pos hx] at h
                cases h
                have hlt : rest.length < (c :: r).length := by
                  simp only [List.length_cons]; omega
                refine ⟨hlt, fun f hf => ?_⟩
                obtain ⟨f', rfl⟩ := hpos f hf hlt
                simp only [parseValue]
                rw [if_neg h1, if_neg h2, if_pos h3, if_neg hd, hsk]
                simp only
                rw [if_pos hx]
              · rw [if_neg hx] at h
                obtain ⟨vs, hm, hv⟩ := map_pair_eq JValue.array _ _ _ h
                obtain ⟨hl, hf'⟩ := ihE _ _ _ _ hm
                simp only [List.length_cons] at hl
                have hlt : rest.length < (c :: r).length := by
                  simp only [List.length_cons]; omega
                refine ⟨hlt, fun f hf => ?_⟩
                obtain ⟨f', rfl⟩ := hpos f hf hlt
                have hm' := hf' f' (by simp only [List.length_cons] at hf ⊢; omega)
                simp only [parseValue]
                rw [if_neg h1, if_neg h2, if_pos h3, if_neg hd, hsk]
                simp only
                rw [if_neg hx, hm', ← hv]
                rfl
        · rw [if_neg h3] at h
          by_cases h4 : c = '-' ∨ isDigit c = true
          · rw [if_pos h4] at h
            obtain ⟨t, hs, hv⟩ := map_pair_eq JValue.number _ _ _ h
            have hlt := scanNumber_length _ _ _ hs
            refine ⟨hlt, fun f hf => ?_⟩
            obtain ⟨f', rfl⟩ := hpos f hf hlt
            simp only [parseValue]
            rw [if_neg h1, if_neg h2, if_neg h3, if_pos h4, hs, ← hv]
            rfl
          · rw [if_neg h4] at h
            have hdrop : ∀ n, (r.drop n).length < (c :: r).length := by
              intro n
              simp only [List.length_drop, List.length_cons]
              omega
            have hfin : ∀ f, (c :: r).length ≤ f + rest.length →
                rest.length < (c :: r).length →
                parseValue f d (c :: r) = parseValue (F + 1) d (c :: r) := by
              intro f hf hlt
              obtain ⟨f', rfl⟩ := hpos f hf hlt
              simp only [parseValue, if_neg h1, if_neg h2, if_neg h3, if_neg h4]
            have hh : parseValue (F + 1) d (c :: r) = some (v, rest) := by
              simp only [parseValue]
              rw [if_neg h1, if_neg h2, if_neg h3, if_neg h4]
              exact h
            have hlt : rest.length < (c :: r).length := by
              split at h
              · cases h; exact hdrop 3
              · split at h
                · cases h; exact hdrop 4
                · split at h
                  · cases h; exact hdrop 3
                  · cases h
            exact ⟨hlt, fun f hf => (hfin f hf hlt).trans hh⟩

theorem parseMembers_succ_of (F : Nat)
    (ihV : ∀ d s v rest, parseValue F d s = some (v, rest) →
      rest.length < s.length ∧
        ∀ f, s.length ≤ f + rest.length → parseValue f d s = some (v, rest))
    (ihM : ∀ d s ms rest, parseMembers F d s = some (ms, rest) →
      rest.length < s.length ∧
        ∀ f, s.length ≤ f + rest.length → parseMembers f d s = some (ms, rest)) :
    ∀ d s ms rest, parseMembers (F + 1) d s = some (ms, rest) →
      rest.length < s.length ∧
        ∀ f, s.length ≤ f + rest.length → parseMembers f d s = some (ms, rest) := by
  intro d s ms rest h
  cases s with
  | nil => simp [parseMembers] at h
  | cons q r =>
    simp only [parseMembers] at h
    by_cases hq : q = '"'
    · rw [if_pos hq] at h
      cases hs : scanString (r.length + 1) r with
      | none => rw [hs] at h; cases h
      | some p =>
        obtain ⟨key, r1⟩ := p
        rw [hs] at h
        simp only at h
        have l1 := scanString_length _ _ _ _ hs
        have l2 := skipSpace_length r1
        cases hsk1 : skipSpace r1 with
        | nil => rw [hsk1] at h; cases h
        | cons colon r2 =>
          rw [hsk1] at h l2
          simp only at h
          simp only [List.length_cons] at l2
          by_cases hc : colon = ':'
          · rw [if_pos hc] at h
            cases hv : parseValue F d (skipSpace r2) with
            | none => rw [hv] at h; cases h
            | some p =>
              obtain ⟨v, r3⟩ := p
              rw [hv] at h
              simp only at h
              obtain ⟨l3, hv'⟩ := ihV _ _ _ _ hv
              have l3' := skipSpace_length r2
              have l4 := skipSpace_length r3
              cases hsk3 : skipSpace r3 with
              | nil => rw [hsk3] at h; cases h
              | cons x r4 =>
                rw [hsk3] at h l4
                simp only at h
                simp only [List.length_cons] at l4
                by_cases hx : x = ','
                · rw [if_pos hx] at h
                  obtain ⟨ms', hm, hms⟩ :=
                    map_pair_eq (fun ms => (key, v) :: ms) _ _ _ h
                  obtain ⟨l5, hm'⟩ := ihM _ _ _ _ hm
                  have l5' := skipSpace_length r4
                  have hlt : rest.length < (q :: r).length := by
                    simp only [List.length_cons]; omega
                  refine ⟨hlt, fun f hf => ?_⟩
                  obtain ⟨f', rfl⟩ : ∃ f', f = f' + 1 := ⟨f - 1, by omega⟩
                  simp only [List.length_cons] at hf
                  simp only [parseMembers]
                  rw [if_pos hq, hs]
                  simp only
                  rw [hsk1]
                  simp only
                  rw [if_pos hc, hv' f' (by omega)]
                  simp only
                  rw [hsk3]
                  simp only
                  rw [if_pos hx, hm' f' (by omega), ← hms]
                  rfl
                · rw [if_neg hx] at h
                  by_cases hy : x = '\x7d'
                  · rw [if_pos hy] at h
                    cases h
                    have hlt : rest.length < (q :: r).length := by
                      simp only [List.length_cons]; omega
                    refine ⟨hlt, fun f hf => ?_⟩
                    obtain ⟨f', rfl⟩ : ∃ f', f = f' + 1 := ⟨f - 1, by omega⟩
                    simp only [List.length_cons] at hf
                    simp only [parseMembers]
                    rw [if_pos hq, hs]
                    simp only
                    rw [hsk1]
                    simp only
                    rw [if_pos hc, hv' f' (by omega)]
                    simp only
                    rw [hsk3]
                    simp only
                    rw [if_neg hx, if_pos hy]
                  · rw [if_neg hy] at h
                    cases h
          · rw [if_neg hc] at h
            cases h
    · rw [if_neg hq] at h
      cases h

theorem parseElems_succ_of (F : Nat)
    (ihV : ∀ d s v rest, parseValue F d s = some (v, rest) →
      rest.length < s.length ∧
        ∀ f, s.length ≤ f + rest.length → parseValue f d s = some (v, rest))
    (ihE : ∀ d s vs rest, parseElems F d s = some (vs, rest) →
      rest.length < s.length ∧
        ∀ f, s.length ≤ f + rest.length → parseElems f d s = some (vs, rest)) :
    ∀ d s vs rest, parseElems (F + 1) d s = some (vs, rest) →
      rest.length < s.length ∧
        ∀ f, s.length ≤ f + rest.length → parseElems f d s = some (vs, rest) := by
  intro d s vs rest h
  simp only [parseElems] at h
  cases hv : parseValue F d s with
  | none => rw [hv] at h; cases h
  | some p =>
    obtain ⟨v, r1⟩ := p
    rw [hv] at h
    simp only at h
    obtain ⟨l1, hv'⟩ := ihV _ _ _ _ hv
    have l2 := skipSpace_length r1
    cases hsk : skipSpace r1 with
    | nil => rw [hsk] at h; cases h
    | cons x r2 =>
      rw [hsk] at h l2
      simp only at h
      simp only [List.length_cons] at l2
      by_cases hx : x = ','
      · rw [if_pos hx] at h
        obtain ⟨vs', hm, hvs⟩ := map_pair_eq (fun vs => v :: vs) _ _ _ h
        obtain ⟨l3, hm'⟩ := ihE _ _ _ _ hm
        have l3' := skipSpace_length r2
        have hlt : rest.length < s.length := by omega
        refine ⟨hlt, fun f hf => ?_⟩
        obtain ⟨f', rfl⟩ : ∃ f', f = f' + 1 := ⟨f - 1, by omega⟩
        simp only [parseElems]
        rw [hv' f' (by omega)]
        simp only
        rw [hsk]
        simp only
        rw [if_pos hx, hm' f' (by omega), ← hvs]
        rfl
      · rw [if_neg hx] at h
        by_cases hy : x = ']'
        · rw [if_pos hy] at h
          cases h
          have hlt : rest.length < s.length := by omega
          refine ⟨hlt, fun f hf => ?_⟩
          obtain ⟨f', rfl⟩ : ∃ f', f = f' + 1 := ⟨f - 1, by omega⟩
          simp only [parseElems]
          rw [hv' f' (by omega)]
          simp only
          rw [hsk]
          simp only
          rw [if_neg hx, if_pos hy]
        · rw [if_neg hy] at h
          cases h

theorem parse_fuel (F : Nat) :
    (∀ d s v rest, parseValue F d s = some (v, rest) →
      rest.length < s.length ∧
        ∀ f, s.length ≤ f + rest.length → parseValue f d s = some (v, rest)) ∧
    (∀ d s ms rest, parseMembers F d s = some (ms, rest) →
      rest.length < s.length ∧
        ∀ f, s.length ≤ f + rest.length → parseMembers f d s = some (ms, rest)) ∧
    (∀ d s vs rest, parseElems F d s = some (vs, rest) →
      rest.length < s.length ∧
        ∀ f, s.length ≤ f + rest.length → parseElems f d s = some (vs, rest)) := by
  induction F with
  | zero =>
    refine ⟨?_, ?_, ?_⟩ <;> intro d s x rest h <;>
      simp [parseValue, parseMembers, parseElems] at h
  | succ F ih =>
    obtain ⟨ihV, ihM, ihE⟩ := ih
    exact ⟨parseValue_succ_of F ihM ihE, parseMembers_succ_of F ihV ihM,
      parseElems_succ_of F ihV ihE⟩

/-- The fuel `parseDocument` gives the reader is enough: more fuel never changes the result. -/
theorem parseValue_fuel (F depth : Nat) (s : Str) (h : s.length < F) :
    parseValue F depth s = parseValue (s.length + 1) depth s := by
  cases hF : parseValue F depth s with
  | some p =>
    obtain ⟨v, rest⟩ := p
    obtain ⟨-, hf⟩ := (parse_fuel F).1 _ _ _ _ hF
    exact (hf (s.length + 1) (by omega)).symm
  | none =>
    cases hL : parseValue (s.length + 1) depth s with
    | none => rfl
    | some p =>
      obtain ⟨v, rest⟩ := p
      obtain ⟨-, hf⟩ := (parse_fuel (s.length + 1)).1 _ _ _ _ hL
      rw [hf F (by omega)] at hF
      cases hF

theorem scanString_fuel_of (F : Nat) :
    ∀ r t rest, scanString F r = some (t, rest) →
      ∀ f, r.length ≤ f + rest.length → scanString f r = some (t, rest) := by
  induction F with
  | zero => intro r t rest h; simp [scanString] at h
  | succ F ih =>
    intro r t rest h
    cases r with
    | nil => simp [scanString] at h
    | cons c r =>
      have hlt := scanString_length _ _ _ _ h
      intro f hf
      obtain ⟨f', rfl⟩ : ∃ f', f = f' + 1 := ⟨f - 1, by omega⟩
      simp only [List.length_cons] at hf hlt
      have step : ∀ (x : Char) (r' : Str), r'.length ≤ r.length →
          (scanString F r').map (fun (p : Str × Str) => (x :: p.1, p.2)) = some (t, rest) →
          (scanString f' r').map (fun (p : Str × Str) => (x :: p.1, p.2)) = some (t, rest) := by
        intro x r' hr' hm
        obtain ⟨a, hs, ha⟩ := map_pair_eq (fun a => x :: a) _ _ _ hm
        rw [ih r' a rest hs f' (by omega), ← ha]
        rfl
      simp only [scanString] at h ⊢
      by_cases h1 : c = '"'
      · rw [if_pos h1] at h ⊢
        exact h
      · rw [if_neg h1] at h ⊢
        by_cases h2 : c = '\\'
        · rw [if_pos h2] at h ⊢
          cases r with
          | nil => cases h
          | cons e r1 =>
            simp only at h ⊢
            by_cases h3 : e = 'u'
            · rw [if_pos h3] at h ⊢
              cases hg : getu4 (c :: e :: r1) with
              | none => rw [hg] at h; cases h
              | some p =>
                obtain ⟨n, r2⟩ := p
                rw [hg] at h
                simp only at h ⊢
                have l2 := getu4_length _ _ _ hg
                simp only [List.length_cons] at l2
                by_cases h4 : 0xD800 ≤ n ∧ n < 0xE000
                · rw [if_pos h4] at h ⊢
                  cases hg3 : getu4 r2 with
                  | none =>
                    rw [hg3] at h
                    exact step _ r2 (by simp only [List.length_cons]; omega) h
                  | some p =>
                    obtain ⟨m, r3⟩ := p
                    rw [hg3] at h
                    simp only at h ⊢
                    have l3 := getu4_length _ _ _ hg3
                    cases hdec : decodeSurrogates n m with
                    | none =>
                      rw [hdec] at h
                      exact step _ r2 (by simp only [List.length_cons]; omega) h
                    | some ch =>
                      rw [hdec] at h
                      exact step _ r3 (by simp only [List.length_cons]; omega) h
                · rw [if_neg h4] at h ⊢
                  exact step _ r2 (by simp only [List.length_cons]; omega) h
            · rw [if_neg h3] at h ⊢
              cases hu : unescape e with
              | none => rw [hu] at h; cases h
              | some ch =>
                rw [hu] at h
                exact step _ r1 (by simp) h
        · rw [if_neg h2] at h ⊢
          by_cases h5 : c.toNat < 0x20
          · rw [if_pos h5] at h
            cases h
          · rw [if_neg h5] at h ⊢
            exact step _ r (le_refl _) h

/-- The fuel the reader gives `scanString` is enough: more fuel never changes the result. -/
theorem scanString_fuel (F : Nat) (r : Str) (h : r.length < F) :
    scanString F r = scanString (r.length + 1) r := by
  cases hF : scanString F r with
  | some p =>
    obtain ⟨t, rest⟩ := p
    exact (scanString_fuel_of F r t rest hF (r.length + 1) (by omega)).symm
  | none =>
    cases hL : scanString (r.length + 1) r with
    | none => rfl
    | some p =>
      obtain ⟨t, rest⟩ := p
      rw [scanString_fuel_of _ r t rest hL F (by omega)] at hF
      cases hF

/-! ## The loop of `Kill` at the first record with the id -/

theorem killLoop_found (w : World) (id : Str) (pre : List cronJob) (j0 : cronJob)
    (post : List cronJob) (hpre : ∀ j ∈ pre, j.JobID ≠ id) (h0 : j0.JobID = id) :
    killLoop w id (pre ++ j0 :: post) =
      match w.findProcessErr j0.Pid with
      | some err => (pre ++ j0 :: post, [.findProcess j0.Pid], some err)
      | none =>
        match w.killErr j0.Pid with
        | some err => (pre ++ j0 :: post, [.findProcess j0.Pid, .kill j0.Pid], some err)
        | none =>
          (pre ++ { j0 with Delete := true } :: post, [.findProcess j0.Pid, .kill j0.Pid],
            none) := by
  induction pre with
  | nil =>
    simp only [List.nil_append, killLoop, h0, if_true]
    cases w.findProcessErr j0.Pid with
    | some err => rfl
    | none =>
      cases w.killErr j0.Pid with
      | some err => rfl
      | none => rfl
  | cons j js ih =>
    have hid : j.JobID ≠ id := hpre j (List.mem_cons_self _ _)
    rw [List.cons_append, killLoop, if_neg hid,
      ih (fun x hx => hpre x (List.mem_cons_of_mem _ hx))]
    cases w.findProcessErr j0.Pid with
    | some err => rfl
    | none =>
      cases w.killErr j0.Pid with
      | some err => rfl
      | none => rfl

theorem writeJobs_marked (pre : List cronJob) (j0 : cronJob) (post : List cronJob) :
    writeJobs (pre ++ { j0 with Delete := true } :: post) = writeJobs (pre ++ post) := by
  rw [writeJobs_append, writeJobs_append]
  rfl

/-! ## The live records after the loops of the operations -/

theorem liveIDs_cons (j : cronJob) (js : List cronJob) :
    liveIDs (j :: js) = if j.Delete then liveIDs js else j.JobID :: liveIDs js := by
  unfold liveIDs
  cases h : j.Delete <;> simp [List.filter, h]

theorem liveIDs_append (a b : List cronJob) : liveIDs (a ++ b) = liveIDs a ++ liveIDs b := by
  simp [liveIDs]

theorem liveIDs_parsed (J : List cronJob) (h : ∀ j ∈ J, j.Delete = false) :
    liveIDs J = J.map (fun j => j.JobID) := by
  induction J with
  | nil => rfl
  | cons j js ih =>
    rw [liveIDs_cons, h j (List.mem_cons_self _ _),
      ih (fun x hx => h x (List.mem_cons_of_mem _ hx))]
    rfl

theorem liveIDs_mark (j : cronJob) (js : List cronJob) :
    (liveIDs ({ j with Delete := true } :: js)).Sublist (liveIDs (j :: js)) := by
  rw [liveIDs_cons, liveIDs_cons]
  cases j.Delete
  · exact List.sublist_cons_self _ _
  · exact List.Sublist.refl _

theorem liveIDs_cons_sublist (j : cronJob) (a b : List cronJob)
    (h : (liveIDs a).Sublist (liveIDs b)) :
    (liveIDs (j :: a)).Sublist (liveIDs (j :: b)) := by
  rw [liveIDs_cons, liveIDs_cons]
  cases j.Delete
  · exact h.cons₂ _
  · exact h

theorem liveIDs_markAll (id : Str) (J : List cronJob) :
    (liveIDs (markAll id J)).Sublist (liveIDs J) := by
  induction J with
  | nil => exact List.Sublist.refl _
  | cons j js ih =>
    rw [markAll]
    by_cases hid : j.JobID = id
    · rw [if_pos hid]
      exact (liveIDs_cons_sublist { j with Delete := true } _ _ ih).trans (liveIDs_mark j js)
    · rw [if_neg hid]
      exact liveIDs_cons_sublist j _ _ ih

theorem liveIDs_killLoop (w : World) (id : Str) (J : List cronJob) :
    (liveIDs (killLoop w id J).1).Sublist (liveIDs J) := by
  induction J with
  | nil => exact List.Sublist.refl _
  | cons j js ih =>
    rw [killLoop]
    by_cases hid : j.JobID = id
    · rw [if_pos hid]
      cases w.findProcessErr j.Pid with
      | some err => exact List.Sublist.refl _
      | none =>
        cases w.killErr j.Pid with
        | some err => exact List.Sublist.refl _
        | none => exact liveIDs_mark j js
    · rw [if_neg hid]
      exact liveIDs_cons_sublist j _ _ ih

theorem liveIDs_removeLoop (id : Str) (J : List cronJob) :
    (liveIDs (removeLoop id J).1).Sublist (liveIDs J) := by
  induction J with
  | nil => exact List.Sublist.refl _
  | cons j js ih =>
    rw [removeLoop]
    by_cases hid : j.JobID = id
    · rw [if_pos hid]
      by_cases hpid : j.Pid = 0
      · rw [if_pos hpid]
        exact (liveIDs_cons_sublist { j with Delete := true } _ _ ih).trans
          (liveIDs_mark j js)
      · rw [if_neg hpid]
    · rw [if_neg hid]
      exact liveIDs_cons_sublist j _ _ ih

/-- The snapshot `ParseJobs` takes depends on the world only, not on the events so far. -/
theorem ParseJobs_trace (w : World) (s : Sys) (t : List Event)
    (hfree : s.cron.mutex = false) :
    ∃ J F, ParseJobs w s = .ok ⟨⟨J, F, true⟩, s.trace ++ [.lock, .list]⟩ ∧
      ParseJobs w ⟨s.cron, t⟩ = .ok ⟨⟨J, F, true⟩, t ++ [.lock, .list]⟩ ∧
      ∀ j ∈ J, j.Delete = false := by
  refine ⟨_, _, ParseJobs_eq w s hfree, ParseJobs_eq w ⟨s.cron, t⟩ hfree, ?_⟩
  cases w.listOutput with
  | none => intro j hj; cases hj
  | some out =>
    exact scanLines_Delete _ _ (fun j hj => by cases hj)

/-! ## The two loops of `WriteCronJob` as concatenations -/

theorem writeLines_flatten (L : List Str) :
    writeLines L = (L.map (fun l => l ++ "\n".toList)).flatten := by
  induction L with
  | nil => rfl
  | cons l ls ih => simp [writeLines, ih]

theorem blockText_eq (j : cronJob) : blockText j = j.ToString := by
  simp [blockText, cronJob.ToString, beginLine]

theorem writeJobs_flatten (J : List cronJob) :
    writeJobs J =
      ((J.filter (fun j => !j.Delete)).map (fun j => blockText j ++ "\n".toList)).flatten := by
  induction J with
  | nil => rfl
  | cons j js ih =>
    cases h : j.Delete
    · simp [writeJobs, h, ih, blockText_eq]
    · simp [writeJobs, h, ih]

theorem endMarker_no_newline : '\n' ∉ endMarker := by decide

theorem textLines_blockText (j : cronJob) (hid : '\n' ∉ j.JobID) (hc : '\n' ∉ j.Command) :
    textLines (blockText j) = [beginLine j, j.Command, endMarker] := by
  have e : blockText j = beginLine j ++ '\n' :: (j.Command ++ '\n' :: (endMarker ++ '\n' :: []))
      := by simp [blockText]
  have hs : Split (blockText j) = [beginLine j, j.Command, endMarker, []] := by
    rw [e, Split_append _ _ (beginLine_no_newline j hid), Split_append _ _ hc,
      Split_append _ _ endMarker_no_newline]
    rfl
  simp [textLines, hs]

/-! ## What the loop of `Kill` does -/

theorem killLoop_events (w : World) (id : Str) (J : List cronJob) :
    (killLoop w id J).2.1 = [] ∨
      ∃ pid, (killLoop w id J).2.1 = [.findProcess pid] ∨
        (killLoop w id J).2.1 = [.findProcess pid, .kill pid] := by
  induction J with
  | nil => exact Or.inl rfl
  | cons j js ih =>
    rw [killLoop]
    by_cases hid : j.JobID = id
    · rw [if_pos hid]
      refine Or.inr ⟨j.Pid, ?_⟩
      cases w.findProcessErr j.Pid with
      | some err => exact Or.inl rfl
      | none =>
        cases w.killErr j.Pid with
        | some err => exact Or.inr rfl
        | none => exact Or.inr rfl
    · rw [if_neg hid]
      exact ih

/-! ## Begin-marker lines that yield no record -/

theorem indexFrom_absent (c : Char) (s : Str) (i : Int) (h : c ∉ s) :
    indexFrom c s i = -1 := by
  induction s generalizing i with
  | nil => rfl
  | cons x xs ih =>
    have hx : x ≠ c := fun e => h (e ▸ List.mem_cons_self _ _)
    rw [indexFrom, if_neg hx]
    exact ih (i + 1) (fun hm => h (List.mem_cons_of_mem _ hm))

theorem openBlockTotal_malformed (st : Scan) (b : Str) (hb : HasPrefix b beginMarker = true)
    (hbad : '\x7b' ∉ b ∨ Unmarshal (b.drop (Index b '\x7b' - 1).toNat) = none) :
    openBlockTotal st b = { st with inQorJob := true } := by
  unfold openBlockTotal
  rw [if_pos hb]
  by_cases hi : Index b '\x7b' > 1
  · rw [if_pos hi]
    rcases hbad with h | h
    · have := indexFrom_absent '\x7b' b 0 h
      unfold Index at hi
      omega
    · rw [h]
  · rw [if_neg hi]

theorem scanLine_malformed (st : Scan) (b : Str) (hb : HasPrefix b beginMarker = true)
    (hbad : '\x7b' ∉ b ∨ Unmarshal (b.drop (Index b '\x7b' - 1).toNat) = none) :
    scanLine st b = { st with inQorJob := true } := by
  unfold scanLine
  rw [openBlockTotal_malformed st b hb hbad]
  simp [keepLine, closeBlock, begin_not_end b hb]

theorem scanLine_Jobs_append (st : Scan) (l : Str) :
    (scanLine st l).Jobs = st.Jobs ++ (scanLine ⟨[], [], false⟩ l).Jobs := by
  rw [scanLine_Jobs, scanLine_Jobs]
  unfold openBlockTotal
  by_cases hb : HasPrefix l beginMarker = true
  · rw [if_pos hb, if_pos hb]
    by_cases hi : Index l '\x7b' > 1
    · rw [if_pos hi, if_pos hi]
      cases Unmarshal (List.drop (Index l '\x7b' - 1).toNat l) <;> simp
    · rw [if_neg hi, if_neg hi]
      simp
  · rw [if_neg hb, if_neg hb]
    simp

theorem scanLines_Jobs_append (L : List Str) (st : Scan) :
    (scanLines L st).Jobs = st.Jobs ++ (scanLines L ⟨[], [], false⟩).Jobs := by
  induction L generalizing st with
  | nil => simp [scanLines]
  | cons l ls ih =>
    have h1 : ∀ t, scanLines (l :: ls) t = scanLines ls (scanLine t l) := fun _ => rfl
    rw [h1, h1, ih (scanLine st l), ih (scanLine ⟨[], [], false⟩ l), scanLine_Jobs_append st l,
      List.append_assoc]

/-! ## The foreign lines of a written table -/

theorem writeJobs_live (J : List cronJob) :
    writeJobs J = writeJobs (J.filter (fun j => !j.Delete)) := by
  induction J with
  | nil => rfl
  | cons j js ih =>
    cases h : j.Delete
    · simp [writeJobs, List.filter, h, ih]
    · simp [writeJobs, List.filter, h, ih]

theorem blocksLines_plain (L : List cronJob)
    (h : ∀ j ∈ L, '\n' ∉ j.JobID ∧ '\n' ∉ j.Command) : ∀ l ∈ blocksLines L, '\n' ∉ l := by
  induction L with
  | nil => simp [blocksLines]
  | cons j js ih =>
    obtain ⟨h1, h2⟩ := h j (List.mem_cons_self _ _)
    have hb := beginLine_no_newline j h1
    have he : '\n' ∉ endMarker := by decide
    have hrest := ih (fun x hx => h x (List.mem_cons_of_mem _ hx))
    cases js with
    | nil =>
      intro l hl
      simp only [blocksLines, List.mem_cons, List.mem_singleton, List.not_mem_nil,
        or_false] at hl
      rcases hl with rfl | rfl | rfl
      · exact hb
      · exact h2
      · exact he
    | cons k ks =>
      intro l hl
      rw [blocksLines] at hl
      simp only [List.mem_cons] at hl
      rcases hl with rfl | rfl | rfl | rfl | hl
      · exact hb
      · exact h2
      · exact he
      · simp
      · exact hrest l (by simpa using hl)

theorem outsideLines_blocks (j : cronJob) (js : List cronJob)
    (h : ∀ x ∈ j :: js, HasPrefix x.Command endMarker = false) :
    outsideLines (blocksLines (j :: js)) = List.replicate js.length [] := by
  induction js generalizing j with
  | nil =>
    have hc := h j (List.mem_cons_self _ _)
    have he : HasPrefix endMarker endMarker = true := by decide
    simp [blocksLines, outsideLines, insideLines, beginLine_HasPrefix, hc, he]
  | cons k ks ih =>
    have hc := h j (List.mem_cons_self _ _)
    have he : HasPrefix endMarker endMarker = true := by decide
    have hn : HasPrefix [] beginMarker = false := by decide
    have hrest := ih k (fun x hx => h x (List.mem_cons_of_mem _ hx))
    have hstep : outsideLines (beginLine j :: j.Command :: endMarker :: [] ::
        blocksLines (k :: ks)) = [] :: outsideLines (blocksLines (k :: ks)) := by
      simp [outsideLines, insideLines, beginLine_HasPrefix, hc, he, hn]
    rw [blocksLines, hstep, hrest]
    rfl

theorem outsideLines_foreign (F M : List Str) (hF : ∀ l ∈ F, HasPrefix l beginMarker = false) :
    outsideLines (F ++ M) = F ++ outsideLines M := by
  induction F with
  | nil => rfl
  | cons l ls ih =>
    rw [List.cons_append, outsideLines, hF l (List.mem_cons_self _ _),
      ih (fun x hx => hF x (List.mem_cons_of_mem _ hx))]
    simp

theorem reparse_lines (F : List Str) (J : List cronJob)
    (hs : startsClean F = true)
    (hF : ∀ l ∈ F, '\n' ∉ l ∧ HasPrefix l beginMarker = false)
    (hk : 1 ≤ (J.filter (fun j => !j.Delete)).length)
    (hJ : ∀ j ∈ J, j.Delete = false →
      '\n' ∉ j.JobID ∧ '\n' ∉ j.Command ∧ HasPrefix j.Command endMarker = false) :
    (scanLines (Split (TrimSpace (writeLines F ++ writeJobs J))) ⟨[], [], false⟩).CronJobs =
      F ++ List.replicate ((J.filter (fun j => !j.Delete)).length - 1) [] := by
  rw [writeJobs_live]
  have hL : ∀ j ∈ J.filter (fun j => !j.Delete), j ∈ J ∧ j.Delete = false := by
    intro j hj
    have := List.mem_filter.mp hj
    exact ⟨this.1, by simpa using this.2⟩
  generalize J.filter (fun j => !j.Delete) = L at hk hL
  cases L with
  | nil => simp at hk
  | cons j js =>
    have hd : ∀ x ∈ j :: js, x.Delete = false := fun x hx => (hL x hx).2
    obtain ⟨h1, h2⟩ := edges_with_blocks F j js hs
    have hnl : ∀ l ∈ F ++ blocksLines (j :: js), '\n' ∉ l := by
      intro l hl
      rcases List.mem_append.mp hl with h | h
      · exact (hF l h).1
      · exact blocksLines_plain _
          (fun x hx => ⟨(hJ x (hL x hx).1 (hL x hx).2).1, (hJ x (hL x hx).1 (hL x hx).2).2.1⟩)
          l h
    rw [tableText_eq F _ (by simp) hd, TrimSpace_joinLines _ _ h1 h2 (by decide),
      Split_joinLines _ (by simp [blocksLines_ne_nil]) hnl, scanLines_CronJobs,
      if_neg (by simp), outsideLines_foreign F _ (fun l hl => (hF l hl).2),
      outsideLines_blocks j js
        (fun x hx => (hJ x (hL x hx).1 (hL x hx).2).2.2)]
    simp

/-! ## A block that is never closed -/

theorem insideLines_open (rest : List Str) (h : ∀ l ∈ rest, HasPrefix l endMarker = false) :
    insideLines rest = [] := by
  induction rest with
  | nil => rfl
  | cons l ls ih =>
    rw [insideLines, h l (List.mem_cons_self _ _)]
    exact ih (fun x hx => h x (List.mem_cons_of_mem _ hx))

theorem outsideLines_open (pre : List Str) (b : Str) (rest : List Str)
    (hb : HasPrefix b beginMarker = true) (h : ∀ l ∈ rest, HasPrefix l endMarker = false) :
    outsideLines (pre ++ b :: rest) = outsideLines pre ∧
      insideLines (pre ++ b :: rest) = insideLines pre := by
  induction pre with
  | nil =>
    constructor
    · simp [outsideLines, hb, insideLines_open rest h]
    · simp [insideLines, begin_not_end b hb, insideLines_open rest h]
  | cons l ls ih =>
    constructor
    · rw [List.cons_append, outsideLines, outsideLines, ih.1, ih.2]
    · rw [List.cons_append, insideLines, insideLines, ih.1, ih.2]

/-! ## The index of the first brace of a begin-marker line -/

theorem indexFrom_skip (c : Char) (a b : Str) (i : Int) (h : c ∉ a) :
    indexFrom c (a ++ b) i = indexFrom c b (i + a.length) := by
  induction a generalizing i with
  | nil => simp
  | cons x xs ih =>
    have hx : x ≠ c := fun e => h (e ▸ List.mem_cons_self _ _)
    have hxs : c ∉ xs := fun e => h (List.mem_cons_of_mem _ e)
    rw [List.cons_append, indexFrom, if_neg hx, ih (i + 1) hxs]
    simp only [List.length_cons, Nat.cast_add, Nat.cast_one]
    congr 1
    omega

theorem indexFrom_present (c : Char) (s : Str) (i : Int) (hi : 0 ≤ i) (h : c ∈ s) :
    0 ≤ indexFrom c s i := by
  induction s generalizing i with
  | nil => cases h
  | cons x xs ih =>
    rw [indexFrom]
    by_cases hx : x = c
    · rw [if_pos hx]
      exact hi
    · rw [if_neg hx]
      rcases List.mem_cons.mp h with e | hm
      · exact absurd e.symm hx
      · exact ih (i + 1) (by omega) hm

theorem Index_beginMarker (line : Str) (hb : HasPrefix line beginMarker = true) :
    Index line '\x7b' = -1 ∨ 16 ≤ Index line '\x7b' := by
  unfold HasPrefix at hb
  rw [List.isPrefixOf_iff_prefix] at hb
  obtain ⟨r, rfl⟩ := hb
  unfold Index
  rw [indexFrom_skip '\x7b' beginMarker r 0 (by decide)]
  have hlen : (beginMarker.length : Int) = 16 := by decide
  rcases indexFrom_bounds '\x7b' r (0 + beginMarker.length) with h | h
  · exact Or.inl h
  · right
    omega

theorem ParseJobs_no_fault (w : World) (s : Sys) :
    ParseJobs w s = .error .blocked ∨ ∃ p, ParseJobs w s = .ok p := by
  cases hm : s.cron.mutex with
  | true =>
    left
    simp [ParseJobs, hm]
  | false => exact Or.inr ⟨_, ParseJobs_eq w s hm⟩

/-! ## The writes of `WriteCronJob` and the pipe -/

theorem chunksOf_flatten (F : List Str) (J : List cronJob) :
    (chunksOf F J).flatten = writeLines F ++ writeJobs J := by
  rw [chunksOf, List.flatten_append, ← writeLines_flatten]
  congr 1
  induction J with
  | nil => rfl
  | cons j js ih =>
    cases h : j.Delete
    · simpa [writeJobs, List.filter, h] using ih
    · simpa [writeJobs, List.filter, h] using ih

theorem writeChunks_flatten (cron : Cron) : (writeChunks cron).flatten = tableText cron :=
  chunksOf_flatten _ _

theorem WriteCronJob_eq (w : World) (s : Sys) (hheld : s.cron.mutex = true) :
    WriteCronJob w s =
      if w.pipeTakes (writeChunks s.cron) then
        .ok (⟨{ s.cron with mutex := false },
          s.trace ++ [.install (tableText s.cron), .unlock]⟩, w.installErr (tableText s.cron))
      else .error .writeBlocked := by
  simp only [WriteCronJob, hheld, if_true]

theorem byteLength_append (a b : Str) : byteLength (a ++ b) = byteLength a + byteLength b := by
  induction a with
  | nil => simp [byteLength]
  | cons c cs ih => simp [byteLength, ih, Nat.add_assoc]

theorem byteLength_replicate (n : Nat) : byteLength (List.replicate n 'x') = n := by
  induction n with
  | zero => rfl
  | succ k ih =>
    rw [List.replicate_succ, byteLength, ih]
    have : utf8Size 'x' = 1 := by decide
    omega

theorem byteLength_bigLine : byteLength bigLine = 70002 := by
  unfold bigLine
  rw [byteLength, byteLength, byteLength_replicate]
  have h1 : utf8Size '#' = 1 := by decide
  have h2 : utf8Size ' ' = 1 := by decide
  omega

theorem defaultPipe_full (head : Str) (F : List Str) (J : List cronJob)
    (h : 65536 < byteLength head) : defaultPipe (chunksOf (head :: F) J) = false := by
  unfold defaultPipe
  rw [decide_eq_false_iff_not]
  have e : (chunksOf (head :: F) J).flatten =
      head ++ ("\n".toList ++ (chunksOf F J).flatten) := by
    simp [chunksOf]
  rw [e, byteLength_append]
  omega

theorem defaultPipe_bigLine (F : List Str) (J : List cronJob) :
    defaultPipe (chunksOf (bigLine :: F) J) = false :=
  defaultPipe_full bigLine F J (by rw [byteLength_bigLine]; decide)

/-! ## The parse of the big table -/

theorem TrimSpace_headed (xs : Str) :
    TrimSpace ('#' :: ' ' :: xs ++ blocksTail) =
      '#' :: ' ' :: xs ++ '\n' :: (blocksTail.drop 1).dropLast := by
  have hcore : ∃ core, (blocksTail.drop 1).dropLast = core ++ ['B'] ∧
      blocksTail = '\n' :: (core ++ ['B']) ++ ['\n'] := by
    refine ⟨((blocksTail.drop 1).dropLast).dropLast, by decide, by decide⟩
  obtain ⟨core, h1, h2⟩ := hcore
  rw [h1, h2]
  have e : '#' :: ' ' :: xs ++ ('\n' :: (core ++ ['B']) ++ ['\n']) =
      ('#' :: (' ' :: xs ++ '\n' :: (core ++ ['B']))) ++ ['\n'] := by simp
  rw [e]
  have e2 : '#' :: ' ' :: xs ++ '\n' :: (core ++ ['B']) =
      '#' :: (' ' :: xs ++ '\n' :: (core ++ ['B'])) := by simp
  rw [e2]
  exact TrimSpace_core '#' 'B' _ ('#' :: (' ' :: xs ++ '\n' :: core)) ['\n'] (by decide)
    (by decide) (by simp) (by decide)

theorem scan_headed (xs : Str) (hnl : '\n' ∉ xs) :
    (scanLines (Split (TrimSpace ('#' :: ' ' :: xs ++ blocksTail))) ⟨[], [], false⟩).Jobs =
        [⟨"abc".toList, 123, [], false⟩, ⟨"idle".toList, 0, [], false⟩] ∧
      (scanLines (Split (TrimSpace ('#' :: ' ' :: xs ++ blocksTail))) ⟨[], [], false⟩).CronJobs =
        ['#' :: ' ' :: xs] := by
  have hhead : '\n' ∉ '#' :: ' ' :: xs := by
    simp only [List.mem_cons, not_or]
    exact ⟨by decide, by decide, hnl⟩
  have hb : HasPrefix ('#' :: ' ' :: xs) beginMarker = false := rfl
  have hsplit : Split ('#' :: ' ' :: xs ++ '\n' :: (blocksTail.drop 1).dropLast) =
      ('#' :: ' ' :: xs) :: Split ((blocksTail.drop 1).dropLast) :=
    Split_append ('#' :: ' ' :: xs) _ hhead
  have hstep : scanLines (('#' :: ' ' :: xs) :: Split ((blocksTail.drop 1).dropLast))
      ⟨[], [], false⟩ =
      scanLines (Split ((blocksTail.drop 1).dropLast)) ⟨[], ['#' :: ' ' :: xs], false⟩ := by
    show scanLines _ (scanLine ⟨[], [], false⟩ ('#' :: ' ' :: xs)) = _
    rw [scanLine_foreign _ _ rfl hb]
    rfl
  rw [TrimSpace_headed, hsplit, hstep]
  constructor
  · rw [scanLines_Jobs_append]
    have : (scanLines (Split ((blocksTail.drop 1).dropLast)) ⟨[], [], false⟩).Jobs =
        [⟨"abc".toList, 123, [], false⟩, ⟨"idle".toList, 0, [], false⟩] := by decide
    rw [this]
    rfl
  · rw [scanLines_CronJobs]
    have : outsideLines (Split ((blocksTail.drop 1).dropLast)) = [] := by decide
    rw [this]
    rfl

theorem bigLine_no_newline : '\n' ∉ List.replicate 70000 'x' := by
  intro h
  have := List.eq_of_mem_replicate h
  revert this
  decide

theorem ParseJobs_bigTable (w : World) (s : Sys) (hfree : s.cron.mutex = false)
    (hout : w.listOutput = some bigTable) :
    ParseJobs w s =
      .ok ⟨⟨[⟨"abc".toList, 123, [], false⟩, ⟨"idle".toList, 0, [], false⟩], [bigLine], true⟩,
        s.trace ++ [.lock, .list]⟩ := by
  rw [ParseJobs_some w s bigTable hfree hout]
  have h := scan_headed (List.replicate 70000 'x') bigLine_no_newline
  have e : bigTable = '#' :: ' ' :: List.replicate 70000 'x' ++ blocksTail := rfl
  rw [e, h.1, h.2]
  rfl

theorem pipe_full_bigLine (w : World) (hw : w.pipeTakes = defaultPipe) (F : List Str)
    (J : List cronJob) : w.pipeTakes (chunksOf (bigLine :: F) J) = false := by
  rw [hw]
  exact defaultPipe_bigLine F J

/-! ## The operations when the pipe takes the table -/

/-- `Add` when the pipe takes what is written. Started with the mutex free: when the process
starts with id `pid`, `Add` returns nil, the snapshot is the parsed one with the record
`(job id, pid, empty command)` appended, `pid` is not zero, the foreign lines are the parsed
ones, and the text written is the text of the parsed table followed by the block of that one
record.  When the start fails, the start error is returned and the parsed table is written
back with no record added. -/
theorem Add_effect (w : World) (s : Sys) (job : QorJob) (hfree : s.cron.mutex = false) :
    ∃ p, ParseJobs w s = .ok p ∧
      (∀ pid, w.startResult job.JobID = .ok pid →
        w.pipeTakes (chunksOf p.cron.CronJobs
          (p.cron.Jobs ++ [⟨job.JobID, pid.val, [], false⟩])) = true →
        ∃ s1, Add w s job = .ok (s1, none) ∧
          s1.cron.CronJobs = p.cron.CronJobs ∧
          s1.cron.Jobs = p.cron.Jobs ++ [⟨job.JobID, pid.val, [], false⟩] ∧
          pid.val ≠ 0 ∧
          s1.trace = p.trace ++ [.start job.JobID, .release pid.val,
            .install (tableText p.cron ++
              (cronJob.ToString ⟨job.JobID, pid.val, [], false⟩ ++ "\n".toList)), .unlock]) ∧
      (∀ err, w.startResult job.JobID = .error err →
        w.pipeTakes (chunksOf p.cron.CronJobs p.cron.Jobs) = true →
        ∃ s1, Add w s job = .ok (s1, some err) ∧
          s1.cron.CronJobs = p.cron.CronJobs ∧ s1.cron.Jobs = p.cron.Jobs ∧
          s1.trace = p.trace ++ [.start job.JobID, .install (tableText p.cron), .unlock]) := by
  obtain ⟨J, F, hp, -⟩ := ParseJobs_ok w s hfree
  refine ⟨_, hp, ?_, ?_⟩
  · intro pid hs hroom
    refine ⟨⟨⟨J ++ [⟨job.JobID, pid.val, [], false⟩], F, false⟩,
        s.trace ++ [.lock, .list] ++ [.start job.JobID, .release pid.val] ++
          [.install (writeLines F ++ writeJobs (J ++ [⟨job.JobID, pid.val, [], false⟩])),
            .unlock]⟩, ?_, rfl, rfl, ?_, ?_⟩
    · simp only [Add, hp, hs]
      exact deferWrite_locked w _ F _ none hroom
    · exact (ne_of_lt pid.property).symm
    · simp [tableText, writeJobs_append, writeJobs]
  · intro err hs hroom
    refine ⟨⟨⟨J, F, false⟩, s.trace ++ [.lock, .list] ++ [.start job.JobID] ++
          [.install (writeLines F ++ writeJobs J), .unlock]⟩, ?_, rfl, rfl, ?_⟩
    · simp only [Add, hp, hs]
      exact deferWrite_locked w J F _ (some err) hroom
    · simp [tableText]

theorem Add_blocked (w : World) (s : Sys) (job : QorJob) (J : List cronJob) (F : List Str)
    (t : List Event) (hp : ParseJobs w s = .ok ⟨⟨J, F, true⟩, t⟩) :
    (∀ pid, w.startResult job.JobID = .ok pid →
      w.pipeTakes (chunksOf F (J ++ [⟨job.JobID, pid.val, [], false⟩])) = false →
      Add w s job = .error .writeBlocked) ∧
    (∀ err, w.startResult job.JobID = .error err → w.pipeTakes (chunksOf F J) = false →
      Add w s job = .error .writeBlocked) := by
  constructor
  · intro pid hs hfull
    simp only [Add, hp, hs]
    exact deferWrite_blocked w _ F _ _ none hfull
  · intro err hs hfull
    simp only [Add, hp, hs]
    exact deferWrite_blocked w J F _ _ (some err) hfull

/-- In the concrete scenario a new job "j2" is started with process id 4242 and appended;
when the process cannot be started the error comes back and the records are the parsed
ones. -/
theorem Add_effect_sample :
    freshSys.cron.mutex = false ∧
      (∃ s1, Add (quietWorld sampleTable) freshSys (sampleJob "j2" none) = .ok (s1, none) ∧
        s1.cron.Jobs =
          [⟨"abc".toList, 123, [], false⟩, ⟨"j2".toList, 4242, [], false⟩]) ∧
      (∃ s1, Add (failingStart sampleTable) freshSys (sampleJob "j2" none) =
          .ok (s1, some "fork/exec: no such file or directory") ∧
        s1.cron.Jobs = [⟨"abc".toList, 123, [], false⟩]) := by
  refine ⟨rfl, ?_, ?_⟩
  · obtain ⟨p, hp, hok, -⟩ :=
      Add_effect (quietWorld sampleTable) freshSys (sampleJob "j2" none) rfl
    have h : ParseJobs (quietWorld sampleTable) freshSys =
        .ok ⟨⟨[⟨"abc".toList, 123, [], false⟩], ["0 0 * * * /bin/foo".toList], true⟩,
          [.lock, .list]⟩ := by decide
    rw [h] at hp
    cases hp
    obtain ⟨s1, ha, -, hJ, -⟩ := hok ⟨4242, by decide⟩ rfl (by decide!)
    exact ⟨s1, ha, hJ⟩
  · obtain ⟨p, hp, -, herr⟩ :=
      Add_effect (failingStart sampleTable) freshSys (sampleJob "j2" none) rfl
    have h : ParseJobs (failingStart sampleTable) freshSys =
        .ok ⟨⟨[⟨"abc".toList, 123, [], false⟩], ["0 0 * * * /bin/foo".toList], true⟩,
          [.lock, .list]⟩ := by decide
    rw [h] at hp
    cases hp
    obtain ⟨s1, ha, -, hJ, -⟩ := herr "fork/exec: no such file or directory" rfl (by decide!)
    exact ⟨s1, ha, hJ⟩
/-- `Run` when the pipe takes what is written. When the handler succeeds, `Run` (started with
the mutex free) returns nil; every record with the job id is marked for deletion and the
others are left as parsed; the text written holds every parsed foreign line and the blocks of
exactly the parsed records with another id. -/
theorem Run_success (w : World) (s : Sys) (qorJob : QorJob) (hfree : s.cron.mutex = false)
    (hh : qorJob.Handler = some none) :
    ∃ p, ParseJobs w ⟨s.cron, s.trace ++ [.handler]⟩ = .ok p ∧
      (w.pipeTakes (chunksOf p.cron.CronJobs (markAll qorJob.JobID p.cron.Jobs)) = true →
        ∃ s1, Run w s qorJob = .ok (s1, none) ∧
          s1.cron.Jobs = markAll qorJob.JobID p.cron.Jobs ∧
          (∀ j ∈ s1.cron.Jobs, j.JobID = qorJob.JobID → j.Delete = true) ∧
          (∀ j ∈ p.cron.Jobs, j.JobID ≠ qorJob.JobID →
            j ∈ s1.cron.Jobs ∧ j.Delete = false) ∧
          s1.cron.CronJobs = p.cron.CronJobs ∧
          s1.trace = p.trace ++
            [.install (writeLines p.cron.CronJobs ++
              writeJobs (p.cron.Jobs.filter fun j => decide (j.JobID ≠ qorJob.JobID))),
              .unlock]) := by
  obtain ⟨J, F, hp, hJ⟩ := ParseJobs_ok w ⟨s.cron, s.trace ++ [.handler]⟩ hfree
  refine ⟨_, hp, ?_⟩
  intro hroom
  have hrun : Run w s qorJob = .ok (⟨⟨markAll qorJob.JobID J, F, false⟩,
      s.trace ++ [.handler] ++ [.lock, .list] ++
        [.install (writeLines F ++ writeJobs (markAll qorJob.JobID J)), .unlock]⟩, none) := by
    simp only [Run, hh, hp]
    exact deferWrite_locked w _ F _ none hroom
  refine ⟨_, hrun, rfl, ?_, ?_, rfl, ?_⟩
  · intro j hj hid
    clear hp hJ hrun hroom
    induction J with
    | nil => cases hj
    | cons x xs ih =>
      simp only [markAll, List.mem_cons] at hj
      rcases hj with h | h
      · subst h
        by_cases hx : x.JobID = qorJob.JobID
        · simp [hx]
        · simp only [hx, if_false] at hid
      · exact ih h
  · intro j hj hid
    refine ⟨?_, hJ j hj⟩
    clear hp hJ hrun hroom
    induction J with
    | nil => cases hj
    | cons x xs ih =>
      simp only [markAll, List.mem_cons]
      rcases List.mem_cons.mp hj with h | h
      · subst h
        left
        simp [hid]
      · right; exact ih h
  · simp only [writeJobs_markAll _ _ hJ]

/-- The concrete scenario, the job "abc" with a handler that succeeds. -/
theorem Run_success_sample :
    freshSys.cron.mutex = false ∧ (sampleJob "abc" none).Handler = some none ∧
      ∃ s1, Run (quietWorld sampleTable) freshSys (sampleJob "abc" none) = .ok (s1, none) ∧
        s1.trace = [.handler, .lock, .list, .install "0 0 * * * /bin/foo\n".toList, .unlock] := by
  obtain ⟨p, hp, h⟩ :=
    Run_success (quietWorld sampleTable) freshSys (sampleJob "abc" none) rfl rfl
  have hparse : ParseJobs (quietWorld sampleTable)
      ⟨freshSys.cron, freshSys.trace ++ [.handler]⟩ =
      .ok ⟨⟨[⟨"abc".toList, 123, [], false⟩], ["0 0 * * * /bin/foo".toList], true⟩,
        [.handler, .lock, .list]⟩ := by decide
  rw [hparse] at hp
  cases hp
  obtain ⟨s1, hr, -, -, -, -, ht⟩ := h (by decide!)
  exact ⟨rfl, rfl, s1, hr, ht⟩

theorem Run_blocked (w : World) (s : Sys) (qorJob : QorJob) (J : List cronJob) (F : List Str)
    (t : List Event) (hh : qorJob.Handler = some none)
    (hp : ParseJobs w ⟨s.cron, s.trace ++ [.handler]⟩ = .ok ⟨⟨J, F, true⟩, t⟩)
    (hfull : w.pipeTakes (chunksOf F (markAll qorJob.JobID J)) = false) :
    Run w s qorJob = .error .writeBlocked := by
  simp only [Run, hh, hp]
  exact deferWrite_blocked w _ F _ _ none hfull

/-- `Remove` of idle jobs when the pipe takes what is written. Started with the mutex free,
`Remove` returns, and never returns nil.  When every parsed record with the job id has `Pid`
0, every record with the id is marked for deletion, the text written holds the blocks of
exactly the records with another id, and the error returned is still the not-found error. -/
theorem Remove_idle (w : World) (s : Sys) (job : QorJob) (hfree : s.cron.mutex = false) :
    ∃ p, ParseJobs w s = .ok p ∧
      (w.pipeTakes (chunksOf p.cron.CronJobs (removeLoop job.JobID p.cron.Jobs).1) = true →
        ∃ s1 res, Remove w s job = .ok (s1, res) ∧ res ≠ none ∧
          ((∀ j ∈ p.cron.Jobs, j.JobID = job.JobID → j.Pid = 0) →
            res = some "failed to find job" ∧
            s1.cron.Jobs = markAll job.JobID p.cron.Jobs ∧
            (∀ j ∈ s1.cron.Jobs, j.JobID = job.JobID → j.Delete = true) ∧
            s1.trace = p.trace ++
              [.install (writeLines p.cron.CronJobs ++
                writeJobs (p.cron.Jobs.filter fun j => decide (j.JobID ≠ job.JobID))),
                .unlock])) := by
  obtain ⟨J, F, hp, hJ⟩ := ParseJobs_ok w s hfree
  refine ⟨_, hp, ?_⟩
  intro hroom
  have hrem : Remove w s job = .ok (⟨⟨(removeLoop job.JobID J).1, F, false⟩,
      s.trace ++ [.lock, .list] ++
        [.install (writeLines F ++ writeJobs (removeLoop job.JobID J).1), .unlock]⟩,
      (removeLoop job.JobID J).2) := by
    simp only [Remove, hp]
    exact deferWrite_locked w _ F _ _ hroom
  refine ⟨_, (removeLoop job.JobID J).2, hrem, removeLoop_isSome _ _, ?_⟩
  · intro hz
    have hl := removeLoop_idle job.JobID J hz
    refine ⟨by rw [hl], by rw [hl], ?_, ?_⟩
    · rw [hl]
      intro j hj hid
      clear hp hJ hz hl hrem hroom
      induction J with
      | nil => cases hj
      | cons x xs ih =>
        simp only [markAll, List.mem_cons] at hj
        rcases hj with h | h
        · subst h
          by_cases hx : x.JobID = job.JobID
          · simp [hx]
          · simp only [hx, if_false] at hid
        · exact ih h
    · rw [hl, writeJobs_markAll _ _ hJ]

/-- The record "abc" with `Pid` 0 is dropped from the text written, and the error is the
not-found error. -/
theorem Remove_idle_sample :
    freshSys.cron.mutex = false ∧
      ∃ s1, Remove (quietWorld idleTable) freshSys (sampleJob "abc" none) =
          .ok (s1, some "failed to find job") ∧
        s1.trace = [.lock, .list, .install "0 0 * * * /bin/foo\n".toList, .unlock] := by
  obtain ⟨p, hp, h⟩ :=
    Remove_idle (quietWorld idleTable) freshSys (sampleJob "abc" none) rfl
  have hparse : ParseJobs (quietWorld idleTable) freshSys =
      .ok ⟨⟨[⟨"abc".toList, 0, [], false⟩], ["0 0 * * * /bin/foo".toList], true⟩,
        [.lock, .list]⟩ := by decide
  rw [hparse] at hp
  cases hp
  obtain ⟨s1, res, hr, -, h⟩ := h (by decide!)
  obtain ⟨h1, -, -, h4⟩ := h (by decide)
  subst h1
  exact ⟨rfl, s1, hr, h4⟩

/-- `Remove` of a running or unknown job when the pipe takes what is written. Started with
the mutex free, `Remove` returns.  When a parsed record has the job id and a nonzero `Pid`,
the error returned is the one saying the job is running, and that record stays in the
snapshot, not marked for deletion, and its block is in the text written.  When no parsed
record has the job id, the error returned is the not-found error and the snapshot is the
parsed one, no record marked. -/
theorem Remove_running (w : World) (s : Sys) (job : QorJob) (hfree : s.cron.mutex = false) :
    ∃ p, ParseJobs w s = .ok p ∧
      (w.pipeTakes (chunksOf p.cron.CronJobs (removeLoop job.JobID p.cron.Jobs).1) = true →
        ∃ s1 res text, Remove w s job = .ok (s1, res) ∧
          s1.trace = p.trace ++ [.install text, .unlock] ∧
          (∀ j ∈ p.cron.Jobs, j.JobID = job.JobID → j.Pid ≠ 0 →
            res = some "failed to remove current job as it is running" ∧
            j ∈ s1.cron.Jobs ∧ j.Delete = false ∧
            ∃ pre post, text = pre ++ (j.ToString ++ "\n".toList) ++ post) ∧
          ((∀ j ∈ p.cron.Jobs, j.JobID ≠ job.JobID) →
            res = some "failed to find job" ∧ s1.cron.Jobs = p.cron.Jobs ∧
            (∀ j ∈ s1.cron.Jobs, j.Delete = false) ∧ text = tableText p.cron)) := by
  obtain ⟨J, F, hp, hJ⟩ := ParseJobs_ok w s hfree
  refine ⟨_, hp, ?_⟩
  intro hroom
  have hrem : Remove w s job = .ok (⟨⟨(removeLoop job.JobID J).1, F, false⟩,
      s.trace ++ [.lock, .list] ++
        [.install (writeLines F ++ writeJobs (removeLoop job.JobID J).1), .unlock]⟩,
      (removeLoop job.JobID J).2) := by
    simp only [Remove, hp]
    exact deferWrite_locked w _ F _ _ hroom
  refine ⟨_, (removeLoop job.JobID J).2, _, hrem, rfl, ?_, ?_⟩
  · intro j hj hid hpid
    obtain ⟨h1, h2⟩ := removeLoop_running job.JobID J j hj hid hpid
    refine ⟨h1, h2, hJ j hj, ?_⟩
    obtain ⟨pre, post, h⟩ := writeJobs_mem _ j h2 (hJ j hj)
    exact ⟨writeLines F ++ pre, post, by simp [h]⟩
  · intro hno
    have hl : removeLoop job.JobID J = (J, some "failed to find job") := by
      rw [removeLoop_idle job.JobID J (fun j hj hid => absurd hid (hno j hj)),
        markAll_absent _ _ hno]
    rw [hl]
    exact ⟨rfl, rfl, hJ, rfl⟩

/-- The record "abc" of the concrete scenario has `Pid` 123, and no record has the id
"xyz". -/
theorem Remove_running_sample :
    freshSys.cron.mutex = false ∧
      (∃ s1, Remove (quietWorld sampleTable) freshSys (sampleJob "abc" none) =
          .ok (s1, some "failed to remove current job as it is running") ∧
        (⟨"abc".toList, 123, [], false⟩ : cronJob) ∈ s1.cron.Jobs) ∧
      (∃ s1, Remove (quietWorld sampleTable) freshSys (sampleJob "xyz" none) =
          .ok (s1, some "failed to find job") ∧
        s1.cron.Jobs = [⟨"abc".toList, 123, [], false⟩]) := by
  have hparse : ParseJobs (quietWorld sampleTable) freshSys =
      .ok ⟨⟨[⟨"abc".toList, 123, [], false⟩], ["0 0 * * * /bin/foo".toList], true⟩,
        [.lock, .list]⟩ := by decide
  refine ⟨rfl, ?_, ?_⟩
  · obtain ⟨p, hp, h⟩ :=
      Remove_running (quietWorld sampleTable) freshSys (sampleJob "abc" none) rfl
    rw [hparse] at hp
    cases hp
    obtain ⟨s1, res, text, hr, -, h, -⟩ := h (by decide!)
    obtain ⟨h1, h2, -, -⟩ := h ⟨"abc".toList, 123, [], false⟩ (by decide) rfl (by decide)
    subst h1
    exact ⟨s1, hr, h2⟩
  · obtain ⟨p, hp, h⟩ :=
      Remove_running (quietWorld sampleTable) freshSys (sampleJob "xyz" none) rfl
    rw [hparse] at hp
    cases hp
    obtain ⟨s1, res, text, hr, -, -, h⟩ := h (by decide!)
    obtain ⟨h1, h2, -, -⟩ := h (by decide)
    subst h1
    exact ⟨s1, hr, h2⟩

theorem Remove_blocked (w : World) (s : Sys) (job : QorJob) (J : List cronJob) (F : List Str)
    (t : List Event) (hp : ParseJobs w s = .ok ⟨⟨J, F, true⟩, t⟩)
    (hfull : w.pipeTakes (chunksOf F (removeLoop job.JobID J).1) = false) :
    Remove w s job = .error .writeBlocked := by
  simp only [Remove, hp]
  exact deferWrite_blocked w _ F _ _ _ hfull

theorem Kill_blocked (w : World) (s : Sys) (job : QorJob) (J : List cronJob) (F : List Str)
    (t : List Event) (hp : ParseJobs w s = .ok ⟨⟨J, F, true⟩, t⟩)
    (hfull : w.pipeTakes (chunksOf F (killLoop w job.JobID J).1) = false) :
    Kill w s job = .error .writeBlocked := by
  simp only [Kill, hp]
  exact deferWrite_blocked w _ F _ _ _ hfull

/-- `Kill` of a known job when the pipe takes what is written. Let `Kill` start with the
mutex free and let `j0` be the first parsed record with the job id. If the process of `j0.Pid` is found and the signal succeeds, `Kill` returns no error,
exactly `j0` is marked for deletion and the text written is the foreign lines followed by the
blocks of the other records. If finding the process or signalling it fails, `Kill` returns
that error, the snapshot is the parsed one with no record marked, and the text written is the
text of the parsed table. -/
theorem Kill_found (w : World) (s : Sys) (job : QorJob) (hfree : s.cron.mutex = false) :
    ∃ p, ParseJobs w s = .ok p ∧
      ∀ pre j0 post, p.cron.Jobs = pre ++ j0 :: post →
        (∀ j ∈ pre, j.JobID ≠ job.JobID) → j0.JobID = job.JobID →
        (w.findProcessErr j0.Pid = none → w.killErr j0.Pid = none →
          w.pipeTakes (chunksOf p.cron.CronJobs
            (pre ++ { j0 with Delete := true } :: post)) = true →
          ∃ s1, Kill w s job = .ok (s1, none) ∧
            s1.cron.Jobs = pre ++ { j0 with Delete := true } :: post ∧
            s1.cron.CronJobs = p.cron.CronJobs ∧
            s1.trace = p.trace ++ [.findProcess j0.Pid, .kill j0.Pid,
              .install (writeLines p.cron.CronJobs ++ writeJobs (pre ++ post)), .unlock]) ∧
        (∀ err, w.findProcessErr j0.Pid = some err →
          w.pipeTakes (chunksOf p.cron.CronJobs p.cron.Jobs) = true →
          ∃ s1, Kill w s job = .ok (s1, some err) ∧
            s1.cron.Jobs = p.cron.Jobs ∧ s1.cron.CronJobs = p.cron.CronJobs ∧
            (∀ j ∈ s1.cron.Jobs, j.Delete = false) ∧
            s1.trace = p.trace ++ [.findProcess j0.Pid, .install (tableText p.cron),
              .unlock]) ∧
        (∀ err, w.findProcessErr j0.Pid = none → w.killErr j0.Pid = some err →
          w.pipeTakes (chunksOf p.cron.CronJobs p.cron.Jobs) = true →
          ∃ s1, Kill w s job = .ok (s1, some err) ∧
            s1.cron.Jobs = p.cron.Jobs ∧ s1.cron.CronJobs = p.cron.CronJobs ∧
            (∀ j ∈ s1.cron.Jobs, j.Delete = false) ∧
            s1.trace = p.trace ++ [.findProcess j0.Pid, .kill j0.Pid,
              .install (tableText p.cron), .unlock]) := by
  obtain ⟨J, F, hp, hJ⟩ := ParseJobs_ok w s hfree
  refine ⟨_, hp, ?_⟩
  intro pre j0 post hsplit hpre h0
  have hJeq : J = pre ++ j0 :: post := hsplit
  subst hJeq
  have hloop := killLoop_found w job.JobID pre j0 post hpre h0
  refine ⟨?_, ?_, ?_⟩
  · intro hf hk hroom
    rw [hf, hk] at hloop
    refine ⟨⟨⟨pre ++ { j0 with Delete := true } :: post, F, false⟩,
      s.trace ++ [.lock, .list] ++ [.findProcess j0.Pid, .kill j0.Pid] ++
        [.install (writeLines F ++ writeJobs (pre ++ { j0 with Delete := true } :: post)),
          .unlock]⟩, ?_, rfl, rfl, ?_⟩
    · simp only [Kill, hp, hloop]
      exact deferWrite_locked w _ F _ none hroom
    · rw [writeJobs_marked]
      simp
  · intro err hf hroom
    rw [hf] at hloop
    refine ⟨⟨⟨pre ++ j0 :: post, F, false⟩,
      s.trace ++ [.lock, .list] ++ [.findProcess j0.Pid] ++
        [.install (writeLines F ++ writeJobs (pre ++ j0 :: post)), .unlock]⟩,
      ?_, rfl, rfl, hJ, ?_⟩
    · simp only [Kill, hp, hloop]
      exact deferWrite_locked w _ F _ (some err) hroom
    · simp [tableText]
  · intro err hf hk hroom
    rw [hf, hk] at hloop
    refine ⟨⟨⟨pre ++ j0 :: post, F, false⟩,
      s.trace ++ [.lock, .list] ++ [.findProcess j0.Pid, .kill j0.Pid] ++
        [.install (writeLines F ++ writeJobs (pre ++ j0 :: post)), .unlock]⟩,
      ?_, rfl, rfl, hJ, ?_⟩
    · simp only [Kill, hp, hloop]
      exact deferWrite_locked w _ F _ (some err) hroom
    · simp [tableText]

/-- In the concrete scenario the record "abc" is the first with the
id; its process 123 is found and signalled, and only the foreign line is written. -/
theorem Kill_found_sample :
    freshSys.cron.mutex = false ∧
      ∃ s1, Kill (quietWorld sampleTable) freshSys (sampleJob "abc" none) = .ok (s1, none) ∧
        s1.cron.Jobs = [⟨"abc".toList, 123, [], true⟩] ∧
        s1.trace = [.lock, .list, .findProcess 123, .kill 123,
          .install "0 0 * * * /bin/foo\n".toList, .unlock] := by
  obtain ⟨p, hp, h⟩ :=
    Kill_found (quietWorld sampleTable) freshSys (sampleJob "abc" none) rfl
  have hparse : ParseJobs (quietWorld sampleTable) freshSys =
      .ok ⟨⟨[⟨"abc".toList, 123, [], false⟩], ["0 0 * * * /bin/foo".toList], true⟩,
        [.lock, .list]⟩ := by decide
  rw [hparse] at hp
  cases hp
  obtain ⟨s1, h1, h2, -, h4⟩ :=
    (h [] ⟨"abc".toList, 123, [], false⟩ [] rfl (by intro j hj; cases hj) rfl).1 rfl rfl
      (by decide!)
  exact ⟨rfl, s1, h1, h2, h4⟩

/-- The mutex along the four operations. Each of `Add`, `Run`, `Kill` and `Remove`, started
with the mutex free, either waits for ever in the write of `WriteCronJob`, or returns; when it
returns, the events of the call acquire the mutex at most once, never lock a held mutex and
never unlock a free one, and leave it free, and the mutex of the registry is free. -/
theorem lock_balance (w : World) (s : Sys) (job : QorJob) (hfree : s.cron.mutex = false) :
    (Add w s job = .error .writeBlocked ∨
      ∃ s1 r t, Add w s job = .ok (s1, r) ∧ s1.trace = s.trace ++ t ∧
        s1.cron.mutex = false ∧ lockCount t ≤ 1 ∧ replayMutex false t = some false) ∧
    (Run w s job = .error .writeBlocked ∨
      ∃ s1 r t, Run w s job = .ok (s1, r) ∧ s1.trace = s.trace ++ t ∧
        s1.cron.mutex = false ∧ lockCount t ≤ 1 ∧ replayMutex false t = some false) ∧
    (Kill w s job = .error .writeBlocked ∨
      ∃ s1 r t, Kill w s job = .ok (s1, r) ∧ s1.trace = s.trace ++ t ∧
        s1.cron.mutex = false ∧ lockCount t ≤ 1 ∧ replayMutex false t = some false) ∧
    (Remove w s job = .error .writeBlocked ∨
      ∃ s1 r t, Remove w s job = .ok (s1, r) ∧ s1.trace = s.trace ++ t ∧
        s1.cron.mutex = false ∧ lockCount t ≤ 1 ∧ replayMutex false t = some false) := by
  obtain ⟨J, F, hp, hp2, -⟩ := ParseJobs_trace w s (s.trace ++ [.handler]) hfree
  refine ⟨?_, ?_, ?_, ?_⟩
  · cases hst : w.startResult job.JobID with
    | ok pid =>
      cases hroom : w.pipeTakes (chunksOf F (J ++ [⟨job.JobID, pid.val, [], false⟩])) with
      | false => exact Or.inl ((Add_blocked w s job J F _ hp).1 pid hst hroom)
      | true =>
        refine Or.inr ⟨⟨⟨J ++ [⟨job.JobID, pid.val, [], false⟩], F, false⟩,
          s.trace ++ [.lock, .list] ++ [.start job.JobID, .release pid.val] ++
            [.install (writeLines F ++ writeJobs (J ++ [⟨job.JobID, pid.val, [], false⟩])),
              .unlock]⟩, none,
          [.lock, .list, .start job.JobID, .release pid.val,
            .install (writeLines F ++ writeJobs (J ++ [⟨job.JobID, pid.val, [], false⟩])),
            .unlock], ?_, ?_, rfl, Nat.le_refl _, rfl⟩
        · simp only [Add, hp, hst]
          exact deferWrite_locked w _ F _ none hroom
        · simp
    | error err =>
      cases hroom : w.pipeTakes (chunksOf F J) with
      | false => exact Or.inl ((Add_blocked w s job J F _ hp).2 err hst hroom)
      | true =>
        refine Or.inr ⟨⟨⟨J, F, false⟩, s.trace ++ [.lock, .list] ++ [.start job.JobID] ++
          [.install (writeLines F ++ writeJobs J), .unlock]⟩, some err,
          [.lock, .list, .start job.JobID, .install (writeLines F ++ writeJobs J), .unlock],
          ?_, ?_, rfl, Nat.le_refl _, rfl⟩
        · simp only [Add, hp, hst]
          exact deferWrite_locked w _ F _ (some err) hroom
        · simp
  · cases hh : job.Handler with
    | none =>
      refine Or.inr ⟨s, some ("no handler found for job " ++ job.Name), [], ?_,
        (List.append_nil _).symm, hfree, Nat.zero_le _, rfl⟩
      simp only [Run, hh]
    | some outcome =>
      cases outcome with
      | some err =>
        refine Or.inr ⟨⟨s.cron, s.trace ++ [.handler]⟩, some err, [.handler], ?_, rfl, hfree,
          Nat.zero_le _, rfl⟩
        simp only [Run, hh]
      | none =>
        cases hroom : w.pipeTakes (chunksOf F (markAll job.JobID J)) with
        | false => exact Or.inl (Run_blocked w s job J F _ hh hp2 hroom)
        | true =>
          refine Or.inr ⟨⟨⟨markAll job.JobID J, F, false⟩,
            s.trace ++ [.handler] ++ [.lock, .list] ++
              [.install (writeLines F ++ writeJobs (markAll job.JobID J)), .unlock]⟩, none,
            [.handler, .lock, .list,
              .install (writeLines F ++ writeJobs (markAll job.JobID J)), .unlock],
            ?_, ?_, rfl, Nat.le_refl _, rfl⟩
          · simp only [Run, hh, hp2]
            exact deferWrite_locked w _ F _ none hroom
          · simp
  · cases hroom : w.pipeTakes (chunksOf F (killLoop w job.JobID J).1) with
    | false => exact Or.inl (Kill_blocked w s job J F _ hp hroom)
    | true =>
      cases hk : killLoop w job.JobID J with
      | mk jobs rest =>
        cases rest with
        | mk evs res =>
          have hev := killLoop_events w job.JobID J
          rw [hk] at hev hroom
          have hev : evs = [] ∨ ∃ pid, evs = [.findProcess pid] ∨
              evs = [.findProcess pid, .kill pid] := hev
          refine Or.inr ⟨⟨⟨jobs, F, false⟩, s.trace ++ [.lock, .list] ++ evs ++
            [.install (writeLines F ++ writeJobs jobs), .unlock]⟩, res,
            [.lock, .list] ++ evs ++ [.install (writeLines F ++ writeJobs jobs), .unlock],
            ?_, ?_, rfl, ?_, ?_⟩
          · simp only [Kill, hp, hk]
            exact deferWrite_locked w _ F _ res hroom
          · simp
          · rcases hev with h | ⟨pid, h | h⟩ <;> subst h <;> exact Nat.le_refl _
          · rcases hev with h | ⟨pid, h | h⟩ <;> subst h <;> rfl
  · cases hroom : w.pipeTakes (chunksOf F (removeLoop job.JobID J).1) with
    | false => exact Or.inl (Remove_blocked w s job J F _ hp hroom)
    | true =>
      cases hk : removeLoop job.JobID J with
      | mk jobs res =>
        rw [hk] at hroom
        refine Or.inr ⟨⟨⟨jobs, F, false⟩, s.trace ++ [.lock, .list] ++
          [.install (writeLines F ++ writeJobs jobs), .unlock]⟩, res,
          [.lock, .list, .install (writeLines F ++ writeJobs jobs), .unlock],
          ?_, ?_, rfl, Nat.le_refl _, rfl⟩
        · simp only [Remove, hp, hk]
          exact deferWrite_locked w _ F _ res hroom
        · simp

/-! # The claims -/

/-! ## C1: the round trip -/

/-- C1, as the code has it. Let `text` be printed by the list command and parsed by
`ParseJobs`.  If the text fields of the parsed records are well formed and the edges of the
parsed snapshot survive `strings.TrimSpace`, then `WriteCronJob` writes the text of the
snapshot (and installs it when the pipe takes it), and parsing that text again yields the same records, and foreign lines that begin
with the parsed foreign lines, verbatim and in the same order; with at most one record they
are exactly the parsed foreign lines. -/
theorem roundTrip (w w2 : World) (s s2 : Sys) (text : Str) (hfree : s.cron.mutex = false)
    (hout : w.listOutput = some text) (hfree2 : s2.cron.mutex = false) :
    ∃ p, ParseJobs w s = .ok p ∧
      ((∀ j ∈ p.cron.Jobs, wellFormedFields j = true) →
        edgesClean p.cron.CronJobs p.cron.Jobs = true →
        (writeChunks p.cron).flatten = tableText p.cron ∧
        (w.pipeTakes (writeChunks p.cron) = true →
          ∃ p1, WriteCronJob w p = .ok (p1, w.installErr (tableText p.cron)) ∧
            p1.trace = p.trace ++ [.install (tableText p.cron), .unlock]) ∧
        (w2.listOutput = some (tableText p.cron) →
          ∃ q, ParseJobs w2 s2 = .ok q ∧ q.cron.Jobs = p.cron.Jobs ∧
            p.cron.CronJobs <+: q.cron.CronJobs ∧
            (p.cron.Jobs.length ≤ 1 → q.cron.CronJobs = p.cron.CronJobs))) := by
  refine ⟨_, ParseJobs_some w s text hfree hout, ?_⟩
  intro hJ he
  refine ⟨writeChunks_flatten _,
    fun hroom => ⟨_, by rw [WriteCronJob_eq _ _ rfl, if_pos hroom], rfl⟩, ?_⟩
  intro hout2
  have hq := ParseJobs_some w2 s2 _ hfree2 hout2
  have hrec : ∀ j ∈ (scanLines (Split (TrimSpace text)) ⟨[], [], false⟩).Jobs,
      wellFormedRecord j = true := fun j hj =>
    wellFormedRecord_of_fields j (hJ j hj)
      (scanLines_range _ _ (fun x hx => by cases hx) j hj)
      (scanLines_Delete _ _ (fun x hx => by cases hx) j hj)
  have hr := reparse _ _ (parsed_lines text) hrec he
  refine ⟨_, hq, ?_, ?_, ?_⟩
  · show (scanLines _ _).Jobs = _
    simp only [tableText]
    rw [hr]
  · show _ <+: (scanLines _ _).CronJobs
    simp only [tableText]
    rw [hr]
    exact List.prefix_append _ _
  · intro hlen
    show (scanLines _ _).CronJobs = _
    simp only [tableText]
    rw [hr]
    have h0 : (scanLines (Split (TrimSpace text)) ⟨[], [], false⟩).Jobs.length - 1 = 0 :=
      Nat.sub_eq_zero_of_le hlen
    simp only [h0, List.replicate_zero, List.append_nil]

/-- Witness of `roundTrip`: the table of the concrete scenario, with its one block, comes
back with the same record and the same foreign line. -/
theorem roundTrip_witness :
    freshSys.cron.mutex = false ∧ (quietWorld sampleTable).listOutput = some sampleTable ∧
      ∃ q, ParseJobs (quietWorld (tableText
          ⟨[⟨"abc".toList, 123, [], false⟩], ["0 0 * * * /bin/foo".toList], true⟩))
          freshSys = .ok q ∧
        q.cron.Jobs = [⟨"abc".toList, 123, [], false⟩] ∧
        q.cron.CronJobs = ["0 0 * * * /bin/foo".toList] := by
  obtain ⟨p, hp, h⟩ := roundTrip (quietWorld sampleTable)
    (quietWorld (tableText
      ⟨[⟨"abc".toList, 123, [], false⟩], ["0 0 * * * /bin/foo".toList], true⟩))
    freshSys freshSys sampleTable rfl rfl rfl
  have hparse : ParseJobs (quietWorld sampleTable) freshSys =
      .ok ⟨⟨[⟨"abc".toList, 123, [], false⟩], ["0 0 * * * /bin/foo".toList], true⟩,
        [.lock, .list]⟩ := by decide
  rw [hparse] at hp
  cases hp
  obtain ⟨-, -, h2⟩ := h (by decide) (by decide)
  obtain ⟨q, hq, hJ, -, hF⟩ := h2 rfl
  exact ⟨rfl, rfl, q, hq, hJ, hF (by decide)⟩

/-- C1 as stated fails, in two ways.  The table `twoBlocks` has one foreign line and two
well-formed blocks; the text written from its parse parses to the same two records but to
two foreign lines, the original one and an empty one.  The table `blockFirst` has one
well-formed block followed by one indented foreign line; the text written from its parse
begins with that line, and parses to the line without its indentation. -/
theorem roundTrip_changes_foreign_lines :
    (∃ p q, ParseJobs (quietWorld twoBlocks) freshSys = .ok p ∧
      ParseJobs (quietWorld (tableText p.cron)) freshSys = .ok q ∧
      p.cron.CronJobs = ["0 0 * * * /bin/foo".toList] ∧
      q.cron.CronJobs = ["0 0 * * * /bin/foo".toList, []] ∧
      q.cron.Jobs = p.cron.Jobs ∧ q.cron.CronJobs ≠ p.cron.CronJobs) ∧
    (∃ p q, ParseJobs (quietWorld blockFirst) freshSys = .ok p ∧
      ParseJobs (quietWorld (tableText p.cron)) freshSys = .ok q ∧
      p.cron.CronJobs = ["  0 0 * * * /bin/foo".toList] ∧
      q.cron.CronJobs = ["0 0 * * * /bin/foo".toList] ∧
      q.cron.Jobs = p.cron.Jobs ∧ q.cron.CronJobs ≠ p.cron.CronJobs) := by
  constructor
  · have hp : ParseJobs (quietWorld twoBlocks) freshSys =
        .ok ⟨⟨[⟨"abc".toList, 123, [], false⟩, ⟨"j2".toList, 4242, [], false⟩],
          ["0 0 * * * /bin/foo".toList], true⟩, [.lock, .list]⟩ := by decide
    refine ⟨_, ⟨⟨[⟨"abc".toList, 123, [], false⟩, ⟨"j2".toList, 4242, [], false⟩],
      ["0 0 * * * /bin/foo".toList, []], true⟩, [.lock, .list]⟩, hp, ?_, rfl, rfl, rfl, ?_⟩
    · decide
    · decide
  · have hp : ParseJobs (quietWorld blockFirst) freshSys =
        .ok ⟨⟨[⟨"abc".toList, 123, [], false⟩], ["  0 0 * * * /bin/foo".toList], true⟩,
          [.lock, .list]⟩ := by decide
    refine ⟨_, ⟨⟨[⟨"abc".toList, 123, [], false⟩], ["0 0 * * * /bin/foo".toList], true⟩,
      [.lock, .list]⟩, hp, ?_, rfl, rfl, rfl, ?_⟩
    · decide
    · decide

/-! ## C2: the foreign lines of `ParseJobs` -/

/-- C2, as the code has it. `ParseJobs` first removes the white space at both ends of the
whole text; of the lines of what is left, its foreign lines are exactly those outside owned
blocks, verbatim and in order, and none begins with the begin-marker.  The text of the
concrete scenario parses to the one foreign line `0 0 * * * /bin/foo` and the one record
with `JobID` "abc" and `Pid` 123. -/
theorem ParseJobs_foreign_lines (w : World) (s : Sys) (text : Str)
    (hfree : s.cron.mutex = false) (hout : w.listOutput = some text) :
    (∃ p, ParseJobs w s = .ok p ∧
      p.cron.CronJobs = outsideLines (Split (TrimSpace text)) ∧
      ∀ l ∈ p.cron.CronJobs, HasPrefix l beginMarker = false) ∧
    (text = sampleTable →
      ∃ p, ParseJobs w s = .ok p ∧ p.cron.CronJobs = ["0 0 * * * /bin/foo".toList] ∧
        p.cron.Jobs = [⟨"abc".toList, 123, [], false⟩]) := by
  have hp := ParseJobs_some w s text hfree hout
  have hF : (scanLines (Split (TrimSpace text)) ⟨[], [], false⟩).CronJobs =
      outsideLines (Split (TrimSpace text)) := by
    rw [scanLines_CronJobs]
    rfl
  constructor
  · refine ⟨_, hp, hF, ?_⟩
    intro l hl
    have hl1 : l ∈ (scanLines (Split (TrimSpace text)) ⟨[], [], false⟩).CronJobs := hl
    rw [hF] at hl1
    exact (outsideLines_not_begin _).1 l hl1
  · intro ht
    subst ht
    have h1 : (scanLines (Split (TrimSpace sampleTable)) ⟨[], [], false⟩).CronJobs =
        ["0 0 * * * /bin/foo".toList] := by decide
    have h2 : (scanLines (Split (TrimSpace sampleTable)) ⟨[], [], false⟩).Jobs =
        [⟨"abc".toList, 123, [], false⟩] := by decide
    exact ⟨_, hp, h1, h2⟩

/-- Witness of `ParseJobs_foreign_lines`: the concrete scenario. -/
theorem ParseJobs_foreign_lines_witness :
    freshSys.cron.mutex = false ∧ (quietWorld sampleTable).listOutput = some sampleTable ∧
      ∃ p, ParseJobs (quietWorld sampleTable) freshSys = .ok p ∧
        p.cron.CronJobs = ["0 0 * * * /bin/foo".toList] ∧
        p.cron.Jobs = [⟨"abc".toList, 123, [], false⟩] :=
  ⟨rfl, rfl,
    (ParseJobs_foreign_lines (quietWorld sampleTable) freshSys sampleTable rfl rfl).2 rfl⟩

/-- C2 as stated fails: the text `"\n  0 0 * * * /bin/foo\n"` has the two lines `""` and
`"  0 0 * * * /bin/foo"`, both outside any block, yet `ParseJobs` returns the single foreign
line `"0 0 * * * /bin/foo"`: the blank line is dropped and the other is not verbatim. -/
theorem ParseJobs_foreign_lines_not_verbatim :
    textLines "\n  0 0 * * * /bin/foo\n".toList = [[], "  0 0 * * * /bin/foo".toList] ∧
    ¬ ∃ p, ParseJobs (quietWorld "\n  0 0 * * * /bin/foo\n".toList) freshSys = .ok p ∧
      p.cron.CronJobs = outsideLines (textLines "\n  0 0 * * * /bin/foo\n".toList) := by
  refine ⟨by decide, ?_⟩
  rintro ⟨p, hp, hF⟩
  have h : ParseJobs (quietWorld "\n  0 0 * * * /bin/foo\n".toList) freshSys =
      .ok ⟨⟨[], ["0 0 * * * /bin/foo".toList], true⟩, [.lock, .list]⟩ := by decide
  rw [h] at hp
  cases hp
  revert hF
  decide

/-! ## C3: a failing install command -/

/-- C3 fails on the code. In a world where the install command fails on every text, `Add`
returns nil once the process has started, although `WriteCronJob` itself returns the error
of the install command: the deferred call drops it. -/
theorem Add_hides_install_failure :
    (∀ text, (failingInstall sampleTable).installErr text = some "exit status 1") ∧
    (∃ s1, Add (failingInstall sampleTable) freshSys (sampleJob "j2" none) = .ok (s1, none)) ∧
    (∃ s1, WriteCronJob (failingInstall sampleTable) ⟨⟨[], [], true⟩, []⟩ =
      .ok (s1, some "exit status 1")) :=
  ⟨fun _ => rfl,
    ⟨_, by
      have hp : ParseJobs (failingInstall sampleTable) freshSys =
          .ok ⟨⟨[⟨"abc".toList, 123, [], false⟩], ["0 0 * * * /bin/foo".toList], true⟩,
            [.lock, .list]⟩ := by decide
      have hs : (failingInstall sampleTable).startResult (sampleJob "j2" none).JobID =
          .ok ⟨4242, by decide⟩ := rfl
      simp only [Add, hp, hs]
      exact deferWrite_locked _ _ _ _ _ (by decide!)⟩,
    ⟨_, rfl⟩⟩

/-! ## C4: a failing or empty listing -/

/-- C4, as the code has it. Started with the mutex free, `ParseJobs` returns in both cases,
raising nothing, with no record.  When the list command fails the snapshot has no foreign
line either. -/
theorem ParseJobs_empty (w : World) (s : Sys) (hfree : s.cron.mutex = false) :
    (w.listOutput = none →
      ParseJobs w s = .ok ⟨⟨[], [], true⟩, s.trace ++ [.lock, .list]⟩) ∧
    (w.listOutput = some [] →
      ∃ p, ParseJobs w s = .ok p ∧ p.cron.Jobs = [] ∧
        p.trace = s.trace ++ [.lock, .list]) := by
  have hp := ParseJobs_eq w s hfree
  constructor
  · intro h
    rw [h] at hp
    exact hp
  · intro h
    rw [h] at hp
    exact ⟨_, hp, rfl, rfl⟩

/-- Witness of `ParseJobs_empty`: a failing listing and an empty listing on a fresh queue. -/
theorem ParseJobs_empty_witness :
    freshSys.cron.mutex = false ∧ failingList.listOutput = none ∧
      (quietWorld []).listOutput = some [] ∧
      ParseJobs failingList freshSys =
        .ok ⟨⟨[], [], true⟩, freshSys.trace ++ [.lock, .list]⟩ ∧
      ∃ p, ParseJobs (quietWorld []) freshSys = .ok p ∧ p.cron.Jobs = [] ∧
        p.trace = freshSys.trace ++ [.lock, .list] :=
  ⟨rfl, rfl, rfl, (ParseJobs_empty failingList freshSys rfl).1 rfl,
    (ParseJobs_empty (quietWorld []) freshSys rfl).2 rfl⟩

/-- C4 as stated fails: on empty output of the list command `ParseJobs` returns one foreign
line, the empty line, so the list of foreign lines is not empty. -/
theorem ParseJobs_empty_output_has_a_line :
    ParseJobs (quietWorld []) freshSys = .ok ⟨⟨[], [[]], true⟩, [.lock, .list]⟩ ∧
    ¬ ∃ p, ParseJobs (quietWorld []) freshSys = .ok p ∧ p.cron.CronJobs = [] ∧
      p.cron.Jobs = [] := by
  have h : ParseJobs (quietWorld []) freshSys = .ok ⟨⟨[], [[]], true⟩, [.lock, .list]⟩ := by
    decide
  refine ⟨h, ?_⟩
  rintro ⟨p, hp, hF, -⟩
  rw [h] at hp
  cases hp
  cases hF

/-! ## C5: `Add` -/

/-- C5 fails on the code. The list command prints `bigTable`, a table of more than 65536
bytes; the mutex is free and the new process starts.  `ParseJobs` returns with the mutex
held, the text `Add` has to write does not fit the pipe, and `Add` does not return: it waits
in `stdin.Write`, which comes before `cmd.Run()` starts the reader of the pipe.  The same
happens when the process cannot be started. -/
theorem Add_blocks_on_big_table :
    freshSys.cron.mutex = false ∧
    (∃ pid, (quietWorld bigTable).startResult "j2".toList = .ok pid) ∧
    (∃ p, ParseJobs (quietWorld bigTable) freshSys = .ok p ∧ p.cron.mutex = true ∧
      p.cron.CronJobs = [bigLine] ∧ 65536 < byteLength bigLine) ∧
    Add (quietWorld bigTable) freshSys (sampleJob "j2" none) = .error .writeBlocked ∧
    Add (failingStart bigTable) freshSys (sampleJob "j2" none) = .error .writeBlocked := by
  have h65 : 65536 < byteLength bigLine := by rw [byteLength_bigLine]; decide
  refine ⟨rfl, ⟨_, rfl⟩, ⟨_, ParseJobs_bigTable _ _ rfl rfl, rfl, rfl, h65⟩, ?_, ?_⟩
  · exact (Add_blocked (quietWorld bigTable) freshSys (sampleJob "j2" none) _ _ _
      (ParseJobs_bigTable _ _ rfl rfl)).1 ⟨4242, by decide⟩ rfl
      (pipe_full_bigLine _ rfl _ _)
  · exact (Add_blocked (failingStart bigTable) freshSys (sampleJob "j2" none) _ _ _
      (ParseJobs_bigTable _ _ rfl rfl)).2 _ rfl (pipe_full_bigLine _ rfl _ _)

/-! ## C6: `Run` after a successful handler -/

/-- C6 fails on the code. The list command prints `bigTable`, a table of more than 65536
bytes with a record "abc"; the mutex is free and the handler of the job "abc" succeeds.
`ParseJobs` returns with the mutex held, the foreign line alone does not fit the pipe, and
`Run` does not return: it waits in `stdin.Write`, nothing is installed. -/
theorem Run_blocks_on_big_table :
    freshSys.cron.mutex = false ∧ (sampleJob "abc" none).Handler = some none ∧
    (∃ p, ParseJobs (quietWorld bigTable) ⟨freshSys.cron, freshSys.trace ++ [.handler]⟩ =
        .ok p ∧ p.cron.mutex = true ∧
      (⟨"abc".toList, 123, [], false⟩ : cronJob) ∈ p.cron.Jobs ∧
      p.cron.CronJobs = [bigLine] ∧ 65536 < byteLength bigLine) ∧
    Run (quietWorld bigTable) freshSys (sampleJob "abc" none) = .error .writeBlocked := by
  have h65 : 65536 < byteLength bigLine := by rw [byteLength_bigLine]; decide
  refine ⟨rfl, rfl, ⟨_, ParseJobs_bigTable _ _ rfl rfl, rfl, ?_, rfl, h65⟩, ?_⟩
  · exact List.mem_cons_self _ _
  · exact Run_blocked (quietWorld bigTable) freshSys (sampleJob "abc" none) _ _ _ rfl
      (ParseJobs_bigTable _ _ rfl rfl) (pipe_full_bigLine _ rfl _ _)

/-! ## C7: `Run` after a failing handler -/

/-- C7. When the handler returns an error, `Run` returns that very error, and when the job
has no handler it returns the error naming the job; in both cases, whatever the state of the
mutex, the queue is left as it was and nothing is done to the mutex or to the table: the
handler call is the only event. -/
theorem Run_failure (w : World) (s : Sys) (qorJob : QorJob) :
    (∀ err, qorJob.Handler = some (some err) →
      Run w s qorJob = .ok (⟨s.cron, s.trace ++ [.handler]⟩, some err)) ∧
    (qorJob.Handler = none →
      Run w s qorJob = .ok (s, some ("no handler found for job " ++ qorJob.Name))) := by
  constructor
  · intro err h
    simp only [Run, h]
  · intro h
    simp only [Run, h]

/-- Witness of `Run_failure`: a handler that returns "boom", and a job without handler, on a
queue whose mutex is held. -/
theorem Run_failure_witness :
    (sampleJob "abc" (some "boom")).Handler = some (some "boom") ∧
      Run (quietWorld sampleTable) ⟨⟨[], [], true⟩, []⟩ (sampleJob "abc" (some "boom")) =
        .ok (⟨⟨[], [], true⟩, [.handler]⟩, some "boom") ∧
      Run (quietWorld sampleTable) ⟨⟨[], [], true⟩, []⟩ ⟨"abc".toList, "sample", none⟩ =
        .ok (⟨⟨[], [], true⟩, []⟩, some "no handler found for job sample") :=
  ⟨rfl, (Run_failure (quietWorld sampleTable) ⟨⟨[], [], true⟩, []⟩
    (sampleJob "abc" (some "boom"))).1 "boom" rfl,
   (Run_failure (quietWorld sampleTable) ⟨⟨[], [], true⟩, []⟩
    ⟨"abc".toList, "sample", none⟩).2 rfl⟩

/-! ## C8: `Remove` of a job that is not running -/

/-- C8 fails on the code. The list command prints `bigTable`, a table of more than 65536
bytes whose only record with the id "idle" has `Pid` 0; the mutex is free.  `ParseJobs`
returns with the mutex held, the foreign line alone does not fit the pipe, and `Remove` of
"idle" returns no error: it does not return at all, waiting in `stdin.Write`, and nothing
is installed. -/
theorem Remove_idle_blocks_on_big_table :
    freshSys.cron.mutex = false ∧
    (∃ p, ParseJobs (quietWorld bigTable) freshSys = .ok p ∧ p.cron.mutex = true ∧
      (∃ j ∈ p.cron.Jobs, j.JobID = "idle".toList) ∧
      (∀ j ∈ p.cron.Jobs, j.JobID = "idle".toList → j.Pid = 0) ∧
      p.cron.CronJobs = [bigLine] ∧ 65536 < byteLength bigLine) ∧
    Remove (quietWorld bigTable) freshSys (sampleJob "idle" none) = .error .writeBlocked := by
  have h65 : 65536 < byteLength bigLine := by rw [byteLength_bigLine]; decide
  refine ⟨rfl, ⟨_, ParseJobs_bigTable _ _ rfl rfl, rfl, ?_, ?_, rfl, h65⟩, ?_⟩
  · exact ⟨⟨"idle".toList, 0, [], false⟩, by decide, rfl⟩
  · decide
  · exact Remove_blocked (quietWorld bigTable) freshSys (sampleJob "idle" none) _ _ _
      (ParseJobs_bigTable _ _ rfl rfl) (pipe_full_bigLine _ rfl _ _)

/-! ## C9: `Remove` of a running job -/

/-- C9 fails on the code. The list command prints `bigTable`, a table of more than 65536
bytes with the record "abc" of `Pid` 123 and no record "xyz"; the mutex is free.
`ParseJobs` returns with the mutex held, the foreign line alone does not fit the pipe, and
neither `Remove` of "abc" nor `Remove` of "xyz" returns an error: both wait in
`stdin.Write` for ever, and nothing is installed. -/
theorem Remove_running_blocks_on_big_table :
    freshSys.cron.mutex = false ∧
    (∃ p, ParseJobs (quietWorld bigTable) freshSys = .ok p ∧ p.cron.mutex = true ∧
      (∃ j ∈ p.cron.Jobs, j.JobID = "abc".toList ∧ j.Pid ≠ 0) ∧
      (∀ j ∈ p.cron.Jobs, j.JobID ≠ "xyz".toList) ∧
      p.cron.CronJobs = [bigLine] ∧ 65536 < byteLength bigLine) ∧
    Remove (quietWorld bigTable) freshSys (sampleJob "abc" none) = .error .writeBlocked ∧
    Remove (quietWorld bigTable) freshSys (sampleJob "xyz" none) = .error .writeBlocked := by
  have h65 : 65536 < byteLength bigLine := by rw [byteLength_bigLine]; decide
  refine ⟨rfl, ⟨_, ParseJobs_bigTable _ _ rfl rfl, rfl, ?_, ?_, rfl, h65⟩, ?_, ?_⟩
  · exact ⟨⟨"abc".toList, 123, [], false⟩, by decide, rfl, by decide⟩
  · decide
  · exact Remove_blocked (quietWorld bigTable) freshSys (sampleJob "abc" none) _ _ _
      (ParseJobs_bigTable _ _ rfl rfl) (pipe_full_bigLine _ rfl _ _)
  · exact Remove_blocked (quietWorld bigTable) freshSys (sampleJob "xyz" none) _ _ _
      (ParseJobs_bigTable _ _ rfl rfl) (pipe_full_bigLine _ rfl _ _)

/-! ## C10: `Kill` of an unknown job -/

/-- C10, counterexample. No record of `malformedTable` or of `unterminatedTable` has the id
"xyz", and `Kill` of "xyz" returns the not-found error; yet the table is not left unchanged.
The text installed for `malformedTable` is its two foreign lines only, without the three
lines of the block whose payload does not decode; the text installed for `unterminatedTable`
has lost the line after the block that is never closed. -/
theorem Kill_absent_rewrites_table :
    (∃ p s1, ParseJobs (quietWorld malformedTable) freshSys = .ok p ∧ p.cron.Jobs = [] ∧
      Kill (quietWorld malformedTable) freshSys (sampleJob "xyz" none) =
        .ok (s1, some "failed to find job") ∧
      s1.trace = [.lock, .list,
        .install "0 0 * * * /bin/foo\n5 5 * * * /bin/bar\n".toList, .unlock] ∧
      "/bin/inside".toList ∈ textLines malformedTable ∧
      "/bin/inside".toList ∉ textLines "0 0 * * * /bin/foo\n5 5 * * * /bin/bar\n".toList) ∧
    (∃ p s1 text, ParseJobs (quietWorld unterminatedTable) freshSys = .ok p ∧
      (∀ j ∈ p.cron.Jobs, j.JobID ≠ "xyz".toList) ∧
      Kill (quietWorld unterminatedTable) freshSys (sampleJob "xyz" none) =
        .ok (s1, some "failed to find job") ∧
      s1.trace = [.lock, .list, .install text, .unlock] ∧
      "5 5 * * * /bin/bar".toList ∈ textLines unterminatedTable ∧
      "5 5 * * * /bin/bar".toList ∉ textLines text) := by
  constructor
  · refine ⟨⟨⟨[], ["0 0 * * * /bin/foo".toList, "5 5 * * * /bin/bar".toList], true⟩,
        [.lock, .list]⟩,
      ⟨⟨[], ["0 0 * * * /bin/foo".toList, "5 5 * * * /bin/bar".toList], false⟩,
        [.lock, .list, .install "0 0 * * * /bin/foo\n5 5 * * * /bin/bar\n".toList,
          .unlock]⟩, by decide, rfl, ?_, rfl, by decide, by decide⟩
    have hp : ParseJobs (quietWorld malformedTable) freshSys =
        .ok ⟨⟨[], ["0 0 * * * /bin/foo".toList, "5 5 * * * /bin/bar".toList], true⟩,
          [.lock, .list]⟩ := by decide
    simp only [Kill, hp, killLoop]
    exact deferWrite_locked _ _ _ _ _ (by decide!)
  · refine ⟨⟨⟨[⟨"abc".toList, 123, [], false⟩], ["0 0 * * * /bin/foo".toList], true⟩,
        [.lock, .list]⟩,
      ⟨⟨[⟨"abc".toList, 123, [], false⟩], ["0 0 * * * /bin/foo".toList], false⟩,
        [.lock, .list, .install (tableText
          ⟨[⟨"abc".toList, 123, [], false⟩], ["0 0 * * * /bin/foo".toList], true⟩),
          .unlock]⟩, _, by decide, by decide, ?_, rfl, by decide, by decide!⟩
    have hp : ParseJobs (quietWorld unterminatedTable) freshSys =
        .ok ⟨⟨[⟨"abc".toList, 123, [], false⟩], ["0 0 * * * /bin/foo".toList], true⟩,
          [.lock, .list]⟩ := by decide
    have hk : killLoop (quietWorld unterminatedTable) (sampleJob "xyz" none).JobID
        [⟨"abc".toList, 123, [], false⟩] =
        ([⟨"abc".toList, 123, [], false⟩], [], some "failed to find job") :=
      killLoop_absent _ _ _ (by decide)
    simp only [Kill, hp, hk, List.append_nil]
    exact deferWrite_locked _ _ _ _ _ (by decide!)

/-- C10, amended. When no parsed record has the job id, the loop of `Kill` (started with the
mutex free) looks up and signals no process and leaves every record as parsed, none marked
for deletion; the text handed to the install command is the text of the parsed snapshot,
with the parsed foreign lines and records; and when the pipe takes that text, `Kill` returns
the not-found error after installing it and releasing the mutex. -/
theorem Kill_absent (w : World) (s : Sys) (job : QorJob) (hfree : s.cron.mutex = false) :
    ∃ p, ParseJobs w s = .ok p ∧
      ((∀ j ∈ p.cron.Jobs, j.JobID ≠ job.JobID) →
        killLoop w job.JobID p.cron.Jobs = (p.cron.Jobs, [], some "failed to find job") ∧
        (∀ j ∈ p.cron.Jobs, j.Delete = false) ∧
        (w.pipeTakes (writeChunks p.cron) = true →
          ∃ s1, Kill w s job = .ok (s1, some "failed to find job") ∧
            s1.cron.Jobs = p.cron.Jobs ∧ s1.cron.CronJobs = p.cron.CronJobs ∧
            s1.trace = p.trace ++ [.install (tableText p.cron), .unlock])) := by
  obtain ⟨J, F, hp, hJ⟩ := ParseJobs_ok w s hfree
  refine ⟨_, hp, ?_⟩
  intro hno
  refine ⟨killLoop_absent w job.JobID J hno, hJ, ?_⟩
  intro hroom
  refine ⟨⟨⟨J, F, false⟩, s.trace ++ [.lock, .list] ++
    [.install (writeLines F ++ writeJobs J), .unlock]⟩, ?_, rfl, rfl, rfl⟩
  simp only [Kill, hp, killLoop_absent w job.JobID J hno, List.append_nil]
  exact deferWrite_locked w J F (s.trace ++ [.lock, .list]) (some "failed to find job") hroom

/-- Witness of `Kill_absent`: no record of the concrete scenario has the id "xyz". -/
theorem Kill_absent_witness :
    freshSys.cron.mutex = false ∧
      ∃ s1, Kill (quietWorld sampleTable) freshSys (sampleJob "xyz" none) =
          .ok (s1, some "failed to find job") ∧
        s1.cron.Jobs = [⟨"abc".toList, 123, [], false⟩] ∧
        s1.trace = [.lock, .list, .install (tableText
          ⟨[⟨"abc".toList, 123, [], false⟩], ["0 0 * * * /bin/foo".toList], true⟩),
          .unlock] := by
  obtain ⟨p, hp, h⟩ :=
    Kill_absent (quietWorld sampleTable) freshSys (sampleJob "xyz" none) rfl
  have hparse : ParseJobs (quietWorld sampleTable) freshSys =
      .ok ⟨⟨[⟨"abc".toList, 123, [], false⟩], ["0 0 * * * /bin/foo".toList], true⟩,
        [.lock, .list]⟩ := by decide
  rw [hparse] at hp
  cases hp
  obtain ⟨-, -, h3⟩ := h (by decide)
  obtain ⟨s1, h1, h2, -, h5⟩ := h3 (by decide!)
  exact ⟨rfl, s1, h1, h2, h5⟩

/-! ## C11: `Kill` of a known job -/

/-- C11 fails on the code. The list command prints `bigTable`, a table of more than 65536
bytes whose first record has the id "abc" and `Pid` 123; the mutex is free, the process is
found and the signal succeeds.  `ParseJobs` returns with the mutex held, the foreign line
alone does not fit the pipe, and `Kill` of "abc" does not return success: it waits in
`stdin.Write` for ever, and no table without the record is installed.  The same happens
when the signal fails. -/
theorem Kill_found_blocks_on_big_table :
    freshSys.cron.mutex = false ∧
    (quietWorld bigTable).findProcessErr 123 = none ∧
    (quietWorld bigTable).killErr 123 = none ∧
    (∃ p rest, ParseJobs (quietWorld bigTable) freshSys = .ok p ∧ p.cron.mutex = true ∧
      p.cron.Jobs = ⟨"abc".toList, 123, [], false⟩ :: rest ∧
      p.cron.CronJobs = [bigLine] ∧ 65536 < byteLength bigLine) ∧
    Kill (quietWorld bigTable) freshSys (sampleJob "abc" none) = .error .writeBlocked ∧
    Kill ⟨some bigTable, fun _ => none, defaultPipe, fun _ => .ok ⟨4242, by decide⟩,
        fun _ => none, fun _ => some "os: process already finished"⟩
      freshSys (sampleJob "abc" none) = .error .writeBlocked := by
  have h65 : 65536 < byteLength bigLine := by rw [byteLength_bigLine]; decide
  refine ⟨rfl, rfl, rfl, ⟨_, _, ParseJobs_bigTable _ _ rfl rfl, rfl, rfl, rfl, h65⟩, ?_, ?_⟩
  · exact Kill_blocked (quietWorld bigTable) freshSys (sampleJob "abc" none) _ _ _
      (ParseJobs_bigTable _ _ rfl rfl) (pipe_full_bigLine _ rfl _ _)
  · exact Kill_blocked _ freshSys (sampleJob "abc" none) _ _ _
      (ParseJobs_bigTable _ _ rfl rfl) (pipe_full_bigLine _ rfl _ _)

/-! ## C12: distinct `JobID`s -/

/-- C12, counterexample. In the concrete scenario the parsed table has the single record "abc";
`Add` of a job with the id "abc" succeeds and leaves two live records with that id, and
both blocks are written. -/
theorem Add_duplicates_JobID :
    ∃ p s1, ParseJobs (quietWorld sampleTable) freshSys = .ok p ∧
      (liveIDs p.cron.Jobs).Nodup ∧
      Add (quietWorld sampleTable) freshSys (sampleJob "abc" none) = .ok (s1, none) ∧
      liveIDs s1.cron.Jobs = ["abc".toList, "abc".toList] ∧
      ¬ (liveIDs s1.cron.Jobs).Nodup ∧
      Event.install (tableText s1.cron) ∈ s1.trace := by
  refine ⟨⟨⟨[⟨"abc".toList, 123, [], false⟩], ["0 0 * * * /bin/foo".toList], true⟩,
      [.lock, .list]⟩,
    ⟨⟨[⟨"abc".toList, 123, [], false⟩, ⟨"abc".toList, 4242, [], false⟩],
      ["0 0 * * * /bin/foo".toList], false⟩,
      [.lock, .list, .start "abc".toList, .release 4242,
        .install (tableText ⟨[⟨"abc".toList, 123, [], false⟩,
          ⟨"abc".toList, 4242, [], false⟩], ["0 0 * * * /bin/foo".toList], true⟩),
        .unlock]⟩, ?_, ?_, ?_, ?_, ?_, ?_⟩
  · decide
  · decide
  · have hparse : ParseJobs (quietWorld sampleTable) freshSys =
        .ok ⟨⟨[⟨"abc".toList, 123, [], false⟩], ["0 0 * * * /bin/foo".toList], true⟩,
          [.lock, .list]⟩ := by decide
    have hs : (quietWorld sampleTable).startResult (sampleJob "abc" none).JobID =
        .ok ⟨4242, by decide⟩ := rfl
    simp only [Add, hparse, hs]
    exact deferWrite_locked _ _ _ _ _ (by decide!)
  · decide
  · decide
  · exact List.mem_cons_of_mem _ (List.mem_cons_of_mem _ (List.mem_cons_of_mem _
      (List.mem_cons_of_mem _ (List.mem_cons_self _ _))))

/-- C12, amended. Let the operation start with the mutex free, let the parsed records have
pairwise distinct `JobID`s, and let the pipe take the text the operation writes.  Then `Run`
(handler successful), `Kill` and `Remove` return, and in the snapshot they leave the records
not marked for deletion still have pairwise distinct `JobID`s.  `Add` returns as well, and
the same holds of its snapshot when no parsed record has the id of the added job, or when
the process could not be started.  In each case the text written is the text of that
snapshot. -/
theorem JobID_unique_preserved (w : World) (s : Sys) (job : QorJob)
    (hfree : s.cron.mutex = false) :
    ∃ p, ParseJobs w s = .ok p ∧
      ((liveIDs p.cron.Jobs).Nodup →
        (∀ pid, w.startResult job.JobID = .ok pid → job.JobID ∉ liveIDs p.cron.Jobs →
          w.pipeTakes (chunksOf p.cron.CronJobs
            (p.cron.Jobs ++ [⟨job.JobID, pid.val, [], false⟩])) = true →
          ∃ s1, Add w s job = .ok (s1, none) ∧
            s1.cron.Jobs = p.cron.Jobs ++ [⟨job.JobID, pid.val, [], false⟩] ∧
            (liveIDs s1.cron.Jobs).Nodup ∧
            Event.install (tableText s1.cron) ∈ s1.trace) ∧
        (∀ err, w.startResult job.JobID = .error err →
          w.pipeTakes (chunksOf p.cron.CronJobs p.cron.Jobs) = true →
          ∃ s1, Add w s job = .ok (s1, some err) ∧ s1.cron.Jobs = p.cron.Jobs ∧
            (liveIDs s1.cron.Jobs).Nodup ∧
            Event.install (tableText s1.cron) ∈ s1.trace) ∧
        (job.Handler = some none →
          w.pipeTakes (chunksOf p.cron.CronJobs (markAll job.JobID p.cron.Jobs)) = true →
          ∃ s1, Run w s job = .ok (s1, none) ∧
            s1.cron.Jobs = markAll job.JobID p.cron.Jobs ∧
            (liveIDs s1.cron.Jobs).Nodup ∧
            Event.install (tableText s1.cron) ∈ s1.trace) ∧
        (w.pipeTakes (chunksOf p.cron.CronJobs (killLoop w job.JobID p.cron.Jobs).1) = true →
          ∃ s1 r, Kill w s job = .ok (s1, r) ∧
            s1.cron.Jobs = (killLoop w job.JobID p.cron.Jobs).1 ∧
            (liveIDs s1.cron.Jobs).Nodup ∧
            Event.install (tableText s1.cron) ∈ s1.trace) ∧
        (w.pipeTakes (chunksOf p.cron.CronJobs (removeLoop job.JobID p.cron.Jobs).1) = true →
          ∃ s1 r, Remove w s job = .ok (s1, r) ∧
            s1.cron.Jobs = (removeLoop job.JobID p.cron.Jobs).1 ∧
            (liveIDs s1.cron.Jobs).Nodup ∧
            Event.install (tableText s1.cron) ∈ s1.trace)) := by
  obtain ⟨J, F, hp, hp2, -⟩ := ParseJobs_trace w s (s.trace ++ [.handler]) hfree
  refine ⟨_, hp, ?_⟩
  intro hnd
  have hnd : (liveIDs J).Nodup := hnd
  refine ⟨?_, ?_, ?_, ?_, ?_⟩
  · intro pid hst hfresh hroom
    refine ⟨⟨⟨J ++ [⟨job.JobID, pid.val, [], false⟩], F, false⟩,
      s.trace ++ [.lock, .list] ++ [.start job.JobID, .release pid.val] ++
        [.install (writeLines F ++ writeJobs (J ++ [⟨job.JobID, pid.val, [], false⟩])),
          .unlock]⟩, ?_, rfl, ?_, ?_⟩
    · simp only [Add, hp, hst]
      exact deferWrite_locked w _ F _ none hroom
    · show (liveIDs (J ++ [⟨job.JobID, pid.val, [], false⟩])).Nodup
      rw [liveIDs_append]
      have : liveIDs [(⟨job.JobID, pid.val, [], false⟩ : cronJob)] = [job.JobID] := rfl
      rw [this]
      exact List.Nodup.append hnd (List.nodup_singleton _)
        (by
          intro a ha hb
          rw [List.mem_singleton] at hb
          exact hfresh (hb ▸ ha))
    · simp [tableText]
  · intro err hst hroom
    refine ⟨⟨⟨J, F, false⟩, s.trace ++ [.lock, .list] ++ [.start job.JobID] ++
      [.install (writeLines F ++ writeJobs J), .unlock]⟩, ?_, rfl, hnd, ?_⟩
    · simp only [Add, hp, hst]
      exact deferWrite_locked w _ F _ (some err) hroom
    · simp [tableText]
  · intro hh hroom
    refine ⟨⟨⟨markAll job.JobID J, F, false⟩, s.trace ++ [.handler] ++ [.lock, .list] ++
      [.install (writeLines F ++ writeJobs (markAll job.JobID J)), .unlock]⟩,
      ?_, rfl, ?_, ?_⟩
    · simp only [Run, hh, hp2]
      exact deferWrite_locked w _ F _ none hroom
    · exact hnd.sublist (liveIDs_markAll _ _)
    · simp [tableText]
  · intro hroom
    have hroom : w.pipeTakes (chunksOf F (killLoop w job.JobID J).1) = true := hroom
    cases hk : killLoop w job.JobID J with
    | mk jobs rest =>
      cases rest with
      | mk evs res =>
        rw [hk] at hroom
        refine ⟨⟨⟨jobs, F, false⟩, s.trace ++ [.lock, .list] ++ evs ++
          [.install (writeLines F ++ writeJobs jobs), .unlock]⟩, res, ?_, ?_, ?_, ?_⟩
        · simp only [Kill, hp, hk]
          exact deferWrite_locked w _ F _ res hroom
        · rfl
        · have h := liveIDs_killLoop w job.JobID J
          rw [hk] at h
          exact hnd.sublist h
        · simp [tableText]
  · intro hroom
    have hroom : w.pipeTakes (chunksOf F (removeLoop job.JobID J).1) = true := hroom
    cases hk : removeLoop job.JobID J with
    | mk jobs res =>
      rw [hk] at hroom
      refine ⟨⟨⟨jobs, F, false⟩, s.trace ++ [.lock, .list] ++
        [.install (writeLines F ++ writeJobs jobs), .unlock]⟩, res, ?_, ?_, ?_, ?_⟩
      · simp only [Remove, hp, hk]
        exact deferWrite_locked w _ F _ res hroom
      · rfl
      · have h := liveIDs_removeLoop job.JobID J
        rw [hk] at h
        exact hnd.sublist h
      · simp [tableText]

/-- Witness of `JobID_unique_preserved`: the table `twoBlocks` has the two live records "abc"
and "j2".  `Add` of "j3" leaves the three distinct ids "abc", "j2", "j3"; `Run` of "j2"
leaves "abc"; `Kill` of "abc" leaves "j2"; `Remove` of the running "abc" leaves "abc" and
"j2". -/
theorem JobID_unique_preserved_witness :
    freshSys.cron.mutex = false ∧
      (∃ s1, Add (quietWorld twoBlocks) freshSys (sampleJob "j3" none) = .ok (s1, none) ∧
        liveIDs s1.cron.Jobs = ["abc".toList, "j2".toList, "j3".toList] ∧
        (liveIDs s1.cron.Jobs).Nodup) ∧
      (∃ s1, Run (quietWorld twoBlocks) freshSys (sampleJob "j2" none) = .ok (s1, none) ∧
        liveIDs s1.cron.Jobs = ["abc".toList] ∧ (liveIDs s1.cron.Jobs).Nodup) ∧
      (∃ s1 r, Kill (quietWorld twoBlocks) freshSys (sampleJob "abc" none) = .ok (s1, r) ∧
        liveIDs s1.cron.Jobs = ["j2".toList] ∧ (liveIDs s1.cron.Jobs).Nodup) ∧
      (∃ s1 r, Remove (quietWorld twoBlocks) freshSys (sampleJob "abc" none) = .ok (s1, r) ∧
        liveIDs s1.cron.Jobs = ["abc".toList, "j2".toList] ∧
        (liveIDs s1.cron.Jobs).Nodup) := by
  have hparse : ParseJobs (quietWorld twoBlocks) freshSys =
      .ok ⟨⟨[⟨"abc".toList, 123, [], false⟩, ⟨"j2".toList, 4242, [], false⟩],
        ["0 0 * * * /bin/foo".toList], true⟩, [.lock, .list]⟩ := by decide
  refine ⟨rfl, ?_, ?_, ?_, ?_⟩
  · obtain ⟨p, hp, h⟩ :=
      JobID_unique_preserved (quietWorld twoBlocks) freshSys (sampleJob "j3" none) rfl
    rw [hparse] at hp
    cases hp
    obtain ⟨s1, h1, h2, h3, -⟩ := (h (by decide)).1 ⟨4242, by decide⟩ rfl (by decide)
      (by decide!)
    exact ⟨s1, h1, by rw [h2]; decide, h3⟩
  · obtain ⟨p, hp, h⟩ :=
      JobID_unique_preserved (quietWorld twoBlocks) freshSys (sampleJob "j2" none) rfl
    rw [hparse] at hp
    cases hp
    obtain ⟨s1, h1, h2, h3, -⟩ := (h (by decide)).2.2.1 rfl (by decide!)
    exact ⟨s1, h1, by rw [h2]; decide, h3⟩
  · obtain ⟨p, hp, h⟩ :=
      JobID_unique_preserved (quietWorld twoBlocks) freshSys (sampleJob "abc" none) rfl
    rw [hparse] at hp
    cases hp
    obtain ⟨s1, r, h1, h2, h3, -⟩ := (h (by decide)).2.2.2.1 (by decide!)
    exact ⟨s1, r, h1, by rw [h2]; decide, h3⟩
  · obtain ⟨p, hp, h⟩ :=
      JobID_unique_preserved (quietWorld twoBlocks) freshSys (sampleJob "abc" none) rfl
    rw [hparse] at hp
    cases hp
    obtain ⟨s1, r, h1, h2, h3, -⟩ := (h (by decide)).2.2.2.2 (by decide!)
    exact ⟨s1, r, h1, by rw [h2]; decide, h3⟩

/-! ## C13: the text `WriteCronJob` writes -/

/-- C13, counterexample. For the snapshot of the concrete scenario `WriteCronJob` writes the
foreign line, the three lines of the block of "abc", and one more newline: the text is not
the foreign lines followed by blocks of exactly three lines. -/
theorem WriteCronJob_not_serialization :
    ∃ s1 r, WriteCronJob (quietWorld sampleTable) ⟨sampleSnapshot, []⟩ = .ok (s1, r) ∧
      s1.trace = [.install (serialization sampleSnapshot ++ "\n".toList), .unlock] ∧
      tableText sampleSnapshot ≠ serialization sampleSnapshot := by
  refine ⟨⟨{ sampleSnapshot with mutex := false },
    [.install (serialization sampleSnapshot ++ "\n".toList), .unlock]⟩, none, ?_, rfl, ?_⟩
  · decide!
  · decide

/-- C13, amended. With the mutex held, `WriteCronJob` writes into the pipe, and installs
when the pipe takes it: every foreign line followed by a newline, in order; then, for each record not marked for deletion, in list order, its block
followed by one more newline. The block is the text "## BEGIN QOR JOB ", the `JobID`, " # ",
the JSON object with the members JobID, Pid and Command, a newline, the `Command`, a newline,
and "## END QOR JOB" with a newline; these are exactly three lines when `JobID` and `Command`
contain no newline. A record marked for deletion contributes nothing, and the JSON has no
member for the deletion flag. -/
theorem WriteCronJob_text (w : World) (s : Sys) (hheld : s.cron.mutex = true) :
    (writeChunks s.cron).flatten = tableText s.cron ∧
    (w.pipeTakes (writeChunks s.cron) = true →
      ∃ s1, WriteCronJob w s = .ok (s1, w.installErr (tableText s.cron)) ∧
        s1.trace = s.trace ++ [.install (tableText s.cron), .unlock]) ∧
    tableText s.cron =
      (s.cron.CronJobs.map (fun l => l ++ "\n".toList)).flatten ++
        ((s.cron.Jobs.filter (fun j => !j.Delete)).map
          (fun j => blockText j ++ "\n".toList)).flatten ∧
    ∀ j : cronJob,
      blockText j =
        "## BEGIN QOR JOB ".toList ++ j.JobID ++ " # ".toList ++ Marshal j ++ "\n".toList ++
          j.Command ++ "\n".toList ++ "## END QOR JOB\n".toList ∧
      Marshal j =
        "\x7b\"JobID\":".toList ++ quote j.JobID ++ ",\"Pid\":".toList ++ Itoa j.Pid ++
          ",\"Command\":".toList ++ quote j.Command ++ "\x7d".toList ∧
      ('\n' ∉ j.JobID → '\n' ∉ j.Command →
        textLines (blockText j) = [beginLine j, j.Command, endMarker]) := by
  refine ⟨writeChunks_flatten _, fun hroom => ⟨⟨{ s.cron with mutex := false },
    s.trace ++ [.install (tableText s.cron), .unlock]⟩, ?_, rfl⟩, ?_, ?_⟩
  · rw [WriteCronJob_eq w s hheld, if_pos hroom]
  · rw [tableText, writeLines_flatten, writeJobs_flatten]
  · intro j
    refine ⟨?_, rfl, textLines_blockText j⟩
    simp [blockText, beginLine, beginMarker, endMarker]

/-- Witness of `WriteCronJob_text`: the snapshot of the concrete scenario, the mutex held. -/
theorem WriteCronJob_text_witness :
    sampleSnapshot.mutex = true ∧
      tableText sampleSnapshot =
        ("0 0 * * * /bin/foo\n## BEGIN QOR JOB abc # \x7b\"JobID\":\"abc\",\"Pid\":123," ++
          "\"Command\":\"\"\x7d\n\n## END QOR JOB\n\n").toList := by
  have h := (WriteCronJob_text (quietWorld sampleTable) ⟨sampleSnapshot, []⟩ rfl).2.2.1
  refine ⟨rfl, h.trans ?_⟩
  decide

/-! ## C14: lock balance -/

/-- C15. Let the lines of the listed text be `pre`, then a begin-marker line `b` that has no
opening brace or whose payload (from one character before the first brace) does not decode,
then `rest`. `ParseJobs` (started with the mutex free) returns; the line `b` adds no record
and no foreign line and leaves the loop inside a block; the records are those of the other
lines; the foreign lines are those of `pre` followed by the lines of `rest` that lie outside
blocks when reading starts inside a block, so neither `b` nor the lines up to and including
the next end-marker line are among them. -/
theorem malformed_record (w : World) (s : Sys) (text : Str) (pre : List Str) (b : Str)
    (rest : List Str) (hfree : s.cron.mutex = false) (hout : w.listOutput = some text)
    (hlines : Split (TrimSpace text) = pre ++ b :: rest)
    (hb : HasPrefix b beginMarker = true)
    (hbad : '\x7b' ∉ b ∨ Unmarshal (b.drop (Index b '\x7b' - 1).toNat) = none) :
    ∃ p, ParseJobs w s = .ok p ∧
      scanLine (scanLines pre ⟨[], [], false⟩) b =
        { scanLines pre ⟨[], [], false⟩ with inQorJob := true } ∧
      p.cron.Jobs = (scanLines (pre ++ rest) ⟨[], [], false⟩).Jobs ∧
      p.cron.CronJobs = (scanLines pre ⟨[], [], false⟩).CronJobs ++ insideLines rest := by
  refine ⟨_, ParseJobs_some w s text hfree hout, scanLine_malformed _ b hb hbad, ?_, ?_⟩
  · show (scanLines (Split (TrimSpace text)) ⟨[], [], false⟩).Jobs = _
    have h1 : scanLines (pre ++ b :: rest) ⟨[], [], false⟩ =
        scanLines rest (scanLine (scanLines pre ⟨[], [], false⟩) b) := by
      rw [scanLines_append]
      rfl
    rw [hlines, h1, scanLine_malformed _ b hb hbad, scanLines_append,
      scanLines_Jobs_append rest, scanLines_Jobs_append rest (scanLines pre _)]
  · show (scanLines (Split (TrimSpace text)) ⟨[], [], false⟩).CronJobs = _
    have h1 : scanLines (pre ++ b :: rest) ⟨[], [], false⟩ =
        scanLines rest (scanLine (scanLines pre ⟨[], [], false⟩) b) := by
      rw [scanLines_append]
      rfl
    rw [hlines, h1, scanLine_malformed _ b hb hbad, scanLines_CronJobs]
    rfl

/-- Witness of `malformed_record`: in `malformedTable` the payload of the begin-marker line is
not JSON; no record is parsed, and the foreign lines are the line before the block and the
line after its end-marker line. -/
theorem malformed_record_witness :
    freshSys.cron.mutex = false ∧
      HasPrefix "## BEGIN QOR JOB abc # \x7bnot json".toList beginMarker = true ∧
      ∃ p, ParseJobs (quietWorld malformedTable) freshSys = .ok p ∧
        p.cron.Jobs = [] ∧
        p.cron.CronJobs = ["0 0 * * * /bin/foo".toList, "5 5 * * * /bin/bar".toList] := by
  obtain ⟨p, hp, -, hJ, hF⟩ :=
    malformed_record (quietWorld malformedTable) freshSys malformedTable
      ["0 0 * * * /bin/foo".toList] "## BEGIN QOR JOB abc # \x7bnot json".toList
      ["/bin/inside".toList, "## END QOR JOB".toList, "5 5 * * * /bin/bar".toList]
      rfl rfl (by decide) (by decide) (Or.inr (by decide))
  refine ⟨rfl, by decide, p, hp, hJ.trans (by decide), hF.trans (by decide)⟩

/-! ## C16: a refresh replaces the snapshot -/

/-- C16. The snapshot `ParseJobs` takes (started with the mutex free) depends only on what the
list command prints: two calls in worlds with the same list output, from any two prior
snapshots, return the same records and foreign lines with the mutex held; in particular a
refresh, a write that the pipe takes and a second refresh over the same list output give the
snapshot of the first refresh again. -/
theorem ParseJobs_idempotent (w w2 : World) (s s2 : Sys) (hfree : s.cron.mutex = false)
    (hfree2 : s2.cron.mutex = false) (hout : w.listOutput = w2.listOutput) :
    (∃ p p2, ParseJobs w s = .ok p ∧ ParseJobs w2 s2 = .ok p2 ∧ p2.cron = p.cron) ∧
    (∃ p, ParseJobs w s = .ok p ∧
      (w.pipeTakes (writeChunks p.cron) = true →
        ∃ q r p2, WriteCronJob w p = .ok (q, r) ∧ ParseJobs w2 q = .ok p2 ∧
          p2.cron = p.cron)) := by
  have e1 := ParseJobs_eq w s hfree
  have e2 := ParseJobs_eq w2 s2 hfree2
  rw [← hout] at e2
  refine ⟨⟨_, _, e1, e2, rfl⟩, ?_⟩
  obtain ⟨J, F, hp, -⟩ := ParseJobs_ok w s hfree
  refine ⟨_, hp, ?_⟩
  intro hroom
  have hq : WriteCronJob w ⟨⟨J, F, true⟩, s.trace ++ [.lock, .list]⟩ =
      .ok (⟨⟨J, F, false⟩, s.trace ++ [.lock, .list] ++
        [.install (writeLines F ++ writeJobs J), .unlock]⟩,
        w.installErr (writeLines F ++ writeJobs J)) := by
    rw [WriteCronJob_eq _ _ rfl, if_pos hroom]
    rfl
  have e3 := ParseJobs_eq w2 ⟨⟨J, F, false⟩, s.trace ++ [.lock, .list] ++
    [.install (writeLines F ++ writeJobs J), .unlock]⟩ rfl
  rw [← hout] at e3
  refine ⟨_, _, _, hq, e3, ?_⟩
  rw [e1] at hp
  injection hp with hp
  injection hp with hc _

/-- Witness of `ParseJobs_idempotent`: the concrete scenario parsed from the empty registry
and from a registry that holds an unrelated snapshot. -/
theorem ParseJobs_idempotent_witness :
    freshSys.cron.mutex = false ∧
      ∃ p p2, ParseJobs (quietWorld sampleTable) freshSys = .ok p ∧
        ParseJobs (failingInstall sampleTable)
          ⟨⟨[⟨"old".toList, 7, [], true⟩], ["stale".toList], false⟩, [.handler]⟩ = .ok p2 ∧
        p2.cron = p.cron :=
  ⟨rfl, (ParseJobs_idempotent (quietWorld sampleTable) (failingInstall sampleTable) freshSys
    ⟨⟨[⟨"old".toList, 7, [], true⟩], ["stale".toList], false⟩, [.handler]⟩ rfl rfl rfl).1⟩

/-! ## C17: empty lines gained by writing and parsing again -/

/-- C17, counterexample. The table `endCommandTable` parses to a snapshot with one foreign line
and one live record whose `Command` is "## END QOR JOB"; no field holds a newline and the
foreign line is no marker line. Parsing the text written for that snapshot yields the foreign
line followed by the line "## END QOR JOB", not by zero empty lines. -/
theorem blank_line_growth_end_command :
    ParseJobs (quietWorld endCommandTable) freshSys =
      .ok ⟨endCommandSnapshot, [.lock, .list]⟩ ∧
    startsClean endCommandSnapshot.CronJobs = true ∧
    (∀ l ∈ endCommandSnapshot.CronJobs,
      '\n' ∉ l ∧ HasPrefix l beginMarker = false ∧ HasPrefix l endMarker = false) ∧
    (endCommandSnapshot.Jobs.filter (fun j => !j.Delete)).length = 1 ∧
    (∀ j ∈ endCommandSnapshot.Jobs, '\n' ∉ j.JobID ∧ '\n' ∉ j.Command) ∧
    ∃ p, ParseJobs (quietWorld (tableText endCommandSnapshot)) freshSys = .ok p ∧
      p.cron.CronJobs = ["0 0 * * * /bin/foo".toList, "## END QOR JOB".toList] ∧
      p.cron.CronJobs ≠ endCommandSnapshot.CronJobs ++ List.replicate (1 - 1) [] := by
  refine ⟨by decide, by decide, by decide, by decide, by decide,
    ⟨⟨[⟨"abc".toList, 123, "## END QOR JOB".toList, false⟩],
      ["0 0 * * * /bin/foo".toList, "## END QOR JOB".toList], true⟩, [.lock, .list]⟩,
    by decide, rfl, by decide⟩

/-- C17, amended. Take a snapshot whose foreign lines hold no newline and do not begin with
the begin-marker, the first of them (if any) not empty and not beginning with white space,
and which has k ≥ 1 records not marked for deletion, their `JobID` and `Command` without a
newline and their `Command` not beginning with the end-marker. Parsing the text
`WriteCronJob` writes for it yields the foreign lines followed by exactly k - 1 empty lines.
-/
theorem blank_line_growth (w : World) (s : Sys) (cron : Cron) (hfree : s.cron.mutex = false)
    (hout : w.listOutput = some (tableText cron))
    (hstart : startsClean cron.CronJobs = true)
    (hF : ∀ l ∈ cron.CronJobs, '\n' ∉ l ∧ HasPrefix l beginMarker = false)
    (hk : 1 ≤ (cron.Jobs.filter (fun j => !j.Delete)).length)
    (hJ : ∀ j ∈ cron.Jobs, j.Delete = false →
      '\n' ∉ j.JobID ∧ '\n' ∉ j.Command ∧ HasPrefix j.Command endMarker = false) :
    ∃ p, ParseJobs w s = .ok p ∧
      p.cron.CronJobs = cron.CronJobs ++
        List.replicate ((cron.Jobs.filter (fun j => !j.Delete)).length - 1) [] :=
  ⟨_, ParseJobs_some w s (tableText cron) hfree hout,
    reparse_lines cron.CronJobs cron.Jobs hstart hF hk hJ⟩

/-- Witness of `blank_line_growth`: a snapshot with one foreign line, two live records and one
record marked for deletion; the text written for it parses to that line and one empty line.
-/
theorem blank_line_growth_witness :
    freshSys.cron.mutex = false ∧
      ∃ p, ParseJobs (quietWorld (tableText
          ⟨[⟨"abc".toList, 123, [], false⟩, ⟨"gone".toList, 5, [], true⟩,
            ⟨"def".toList, 0, "run me".toList, false⟩],
            ["0 0 * * * /bin/foo".toList], true⟩)) freshSys = .ok p ∧
        p.cron.CronJobs = ["0 0 * * * /bin/foo".toList, []] := by
  obtain ⟨p, hp, h⟩ := blank_line_growth
    (quietWorld (tableText
      ⟨[⟨"abc".toList, 123, [], false⟩, ⟨"gone".toList, 5, [], true⟩,
        ⟨"def".toList, 0, "run me".toList, false⟩],
        ["0 0 * * * /bin/foo".toList], true⟩)) freshSys
    ⟨[⟨"abc".toList, 123, [], false⟩, ⟨"gone".toList, 5, [], true⟩,
      ⟨"def".toList, 0, "run me".toList, false⟩],
      ["0 0 * * * /bin/foo".toList], true⟩ rfl rfl (by decide) (by decide) (by decide)
    (by decide)
  exact ⟨rfl, p, hp, h⟩

/-! ## C18: a block without an end-marker line -/

/-- C18. Let the lines of the listed text be `pre`, then a begin-marker line `b`, then `rest`,
no line of `rest` beginning with the end-marker. `ParseJobs` (started with the mutex free)
returns, and its foreign lines are those the loop collects from `pre` alone, the lines of
`pre` outside blocks: neither `b` nor a line of `rest` is added. -/
theorem unterminated_block (w : World) (s : Sys) (text : Str) (pre : List Str) (b : Str)
    (rest : List Str) (hfree : s.cron.mutex = false) (hout : w.listOutput = some text)
    (hlines : Split (TrimSpace text) = pre ++ b :: rest)
    (hb : HasPrefix b beginMarker = true)
    (hrest : ∀ l ∈ rest, HasPrefix l endMarker = false) :
    ∃ p, ParseJobs w s = .ok p ∧
      p.cron.CronJobs = (scanLines pre ⟨[], [], false⟩).CronJobs ∧
      p.cron.CronJobs = outsideLines pre := by
  have h : (scanLines (Split (TrimSpace text)) ⟨[], [], false⟩).CronJobs = outsideLines pre := by
    rw [hlines, scanLines_CronJobs, if_neg (by simp), (outsideLines_open pre b rest hb hrest).1]
    rfl
  refine ⟨_, ParseJobs_some w s text hfree hout, ?_, h⟩
  show (scanLines (Split (TrimSpace text)) ⟨[], [], false⟩).CronJobs =
    (scanLines pre ⟨[], [], false⟩).CronJobs
  rw [h, scanLines_CronJobs, if_neg (by simp)]
  rfl

/-- Witness of `unterminated_block`: in `unterminatedTable` the block of "abc" is never closed,
and the line after it is not among the foreign lines. -/
theorem unterminated_block_witness :
    freshSys.cron.mutex = false ∧
      ∃ p, ParseJobs (quietWorld unterminatedTable) freshSys = .ok p ∧
        p.cron.CronJobs = ["0 0 * * * /bin/foo".toList] := by
  obtain ⟨p, hp, -, h⟩ :=
    unterminated_block (quietWorld unterminatedTable) freshSys unterminatedTable
      ["0 0 * * * /bin/foo".toList]
      "## BEGIN QOR JOB abc # \x7b\"JobID\":\"abc\",\"Pid\":123,\"Command\":\"\"\x7d".toList
      [[], "5 5 * * * /bin/bar".toList] rfl rfl (by decide) (by decide) (by decide)
  exact ⟨rfl, p, hp, h.trans (by decide)⟩

/-! ## C19: the payload slice stays within the line -/

/-- C19. For a line that begins with the 16 characters "## BEGIN QOR JOB": the first opening
brace, if there is one, is at index 16 or later; the guard `idx > 1` holds exactly when the
line contains an opening brace; whenever the guard holds the slice `line[idx-1:]` is within
bounds, and the first statement of the loop body does not fail. Hence the loop of `ParseJobs`
returns on every list of lines, and `ParseJobs` never fails with an index out of range: it
returns whenever the mutex is free. -/
theorem payload_slice_safe (line : Str) (hb : HasPrefix line beginMarker = true) :
    beginMarker.length = 16 ∧
    (Index line '\x7b' = -1 ∨ 16 ≤ Index line '\x7b') ∧
    (Index line '\x7b' > 1 ↔ '\x7b' ∈ line) ∧
    (Index line '\x7b' > 1 →
      0 ≤ Index line '\x7b' - 1 ∧ Index line '\x7b' - 1 ≤ line.length ∧
      sliceFrom line (Index line '\x7b' - 1) =
        .ok (line.drop (Index line '\x7b' - 1).toNat)) ∧
    (∀ st, ∃ st1, openBlock st line = .ok st1) ∧
    (∀ lines st, ∃ st1, parseLines lines st = .ok st1) ∧
    (∀ w s, ParseJobs w s ≠ .error .sliceOutOfRange) ∧
    (∀ w s, s.cron.mutex = false → ∃ p, ParseJobs w s = .ok p) := by
  have hidx := Index_beginMarker line hb
  refine ⟨by decide, hidx, ⟨?_, ?_⟩, ?_, ?_, ?_, ?_, ?_⟩
  · intro hgt
    by_contra hno
    have := indexFrom_absent '\x7b' line 0 hno
    unfold Index at hgt
    omega
  · intro hmem
    have h0 := indexFrom_present '\x7b' line 0 (Int.le_refl 0) hmem
    unfold Index at hidx ⊢
    omega
  · intro hgt
    have hbnd := indexFrom_bounds '\x7b' line 0
    refine ⟨?_, ?_, sliceFrom_index line hgt⟩
    · omega
    · unfold Index at hgt ⊢
      omega
  · intro st
    exact ⟨_, openBlock_eq st line⟩
  · intro lines st
    exact ⟨_, parseLines_eq lines st⟩
  · intro w s h
    rcases ParseJobs_no_fault w s with h1 | ⟨p, h1⟩
    · rw [h1] at h
      cases h
    · rw [h1] at h
      cases h
  · intro w s hfree
    exact ⟨_, ParseJobs_eq w s hfree⟩

/-- Witness of `payload_slice_safe`: the begin-marker line of the concrete scenario has its
first opening brace at index 23. -/
theorem payload_slice_safe_witness :
    HasPrefix
      "## BEGIN QOR JOB abc # \x7b\"JobID\":\"abc\",\"Pid\":123,\"Command\":\"\"\x7d".toList
      beginMarker = true ∧
    Index
      "## BEGIN QOR JOB abc # \x7b\"JobID\":\"abc\",\"Pid\":123,\"Command\":\"\"\x7d".toList
      '\x7b' = 23 ∧
    sliceFrom
      "## BEGIN QOR JOB abc # \x7b\"JobID\":\"abc\",\"Pid\":123,\"Command\":\"\"\x7d".toList
      22 = .ok " \x7b\"JobID\":\"abc\",\"Pid\":123,\"Command\":\"\"\x7d".toList := by
  have h := (payload_slice_safe
    "## BEGIN QOR JOB abc # \x7b\"JobID\":\"abc\",\"Pid\":123,\"Command\":\"\"\x7d".toList
    (by decide)).2.2.2.1 (by decide)
  exact ⟨by decide, by decide, h.2.2.trans (by decide)⟩

end Worker
